import Mathlib

/-!
# Binary search tree (`algorithms/code/go/binary_search_tree.go`)

A shallow embedding of the Go binary search tree.  A `*TreeNode` is either the
nil pointer or a pointer to a node owning its two children, so it is embedded
as an inductive type with a `nil` constructor.  The in-place updates of the Go
code (`node.Left = ...`, `node.Value = ...`) become the construction of a new
node, which is sound because every node is owned by exactly one parent.
A nil dereference (a run-time fault in Go) is `none`.

A Go `int` value is embedded as an `Int`.  The tree code only compares and
copies stored values, so nothing about them can overflow.  Sizes and heights
count nodes and levels; they are kept as unbounded integers, and the one place
where the machine representation matters, the `float64` round trip in
`heightHelper` and `isBalancedHelper`, is modelled with its rounding.
-/

namespace PrepGuides

/-! ## Data model -/

/-- A `*TreeNode`: the nil pointer, or a node with `Left`, `Value`, `Right`. -/
inductive TreeNode where
  | nil : TreeNode
  | node (Left : TreeNode) (Value : Int) (Right : TreeNode) : TreeNode
  deriving DecidableEq, Repr

/-- The `BinarySearchTree` struct: a holder of the root pointer. -/
structure BinarySearchTree where
  Root : TreeNode
  deriving DecidableEq, Repr

/-- The field read `node.Value`; reading through the nil pointer faults. -/
def TreeNode.Value? : TreeNode → Option Int
  | .nil => none
  | .node _ x _ => some x

/-- `NewBinarySearchTree`: the tree with a nil root. -/
def NewBinarySearchTree : BinarySearchTree := { Root := .nil }

/-! ## Insert, Search, Delete -/

/-- `insertNode`: a new node at a nil position, otherwise descend by comparison;
an equal value leaves the node as it is. -/
def insertNode : TreeNode → Int → TreeNode
  | .nil, value => .node .nil value .nil
  | .node l x r, value =>
    if value < x then .node (insertNode l value) x r
    else if value > x then .node l x (insertNode r value)
    else .node l x r

/-- `Insert`: `bst.Root = bst.insertNode(bst.Root, value)`. -/
def BinarySearchTree.Insert (bst : BinarySearchTree) (value : Int) : BinarySearchTree :=
  { Root := insertNode bst.Root value }

/-- `searchNode`: false at nil, true on an equal value, otherwise descend. -/
def searchNode : TreeNode → Int → Bool
  | .nil, _ => false
  | .node l x r, value =>
    if value = x then true
    else if value < x then searchNode l value
    else searchNode r value

/-- `Search`: `bst.searchNode(bst.Root, value)`. -/
def BinarySearchTree.Search (bst : BinarySearchTree) (value : Int) : Bool :=
  searchNode bst.Root value

/-- `findMin`: follow `Left` pointers while they are not nil.  The loop condition
reads `node.Left`, so a nil argument faults. -/
def findMin : TreeNode → Option TreeNode
  | .nil => none
  | .node .nil x r => some (.node .nil x r)
  | .node (.node ll lx lr) _ _ => findMin (.node ll lx lr)

/-- `deleteNode`: nil stays nil; descend by comparison; at the node holding the
value return the other child when one child is nil, otherwise overwrite the
value with the value of `findMin(node.Right)` and delete that value from the
right subtree. -/
def deleteNode : TreeNode → Int → Option TreeNode
  | .nil, _ => some .nil
  | .node l x r, value =>
    if value < x then
      (deleteNode l value).map (fun l' => .node l' x r)
    else if value > x then
      (deleteNode r value).map (fun r' => .node l x r')
    else if l = .nil then some r
    else if r = .nil then some l
    else
      match (findMin r).bind TreeNode.Value? with
      | some m => (deleteNode r m).map (fun r' => .node l m r')
      | none => none

/-- `Delete`: `bst.Root = bst.deleteNode(bst.Root, value)`. -/
def BinarySearchTree.Delete (bst : BinarySearchTree) (value : Int) : Option BinarySearchTree :=
  (deleteNode bst.Root value).map (fun root => { Root := root })

/-! ## Traversal -/

/-- `inorderHelper`: left subtree, then `append(*result, node.Value)`, then right
subtree; the slice behind `result` is threaded through. -/
def inorderHelper : TreeNode → List Int → List Int
  | .nil, result => result
  | .node l x r, result => inorderHelper r (inorderHelper l result ++ [x])

/-- `InorderTraversal`: `inorderHelper` started on the nil slice. -/
def BinarySearchTree.InorderTraversal (bst : BinarySearchTree) : List Int :=
  inorderHelper bst.Root []

/-! ## Height, balance, size

`heightHelper` and `isBalancedHelper` go through `float64`.  A `float64` that
holds an integer is represented by that integer; `float64 n` is the conversion
of the `int` `n`, rounding to a 53 bit significand, ties to even. -/

/-- The conversion `float64(n)` of an `int`: exact below `2^53` in absolute
value, otherwise rounded to the nearest multiple of the unit in the last place
of a 53 bit significand, ties to the even significand. -/
def float64 (n : Int) : Int :=
  let a := n.natAbs
  if a < 2 ^ 53 then n
  else
    let e := Nat.log2 a - 52
    let q := a / 2 ^ e
    let rem := a % 2 ^ e
    let q' := if 2 ^ e < 2 * rem ∨ (2 * rem = 2 ^ e ∧ q % 2 = 1) then q + 1 else q
    Int.sign n * ((q' * 2 ^ e : Nat) : Int)

/-- `math.Max` on two integer valued floats. -/
def mathMax (x y : Int) : Int := max x y

/-- `math.Abs` on an integer valued float. -/
def mathAbs (x : Int) : Int := |x|

/-- The conversion `int(f)` of an integer valued float. -/
def intOfFloat64 (f : Int) : Int := f

/-- `heightHelper`: -1 at nil, else
`1 + int(math.Max(float64(height left), float64(height right)))`. -/
def heightHelper : TreeNode → Int
  | .nil => -1
  | .node l _ r =>
    1 + intOfFloat64 (mathMax (float64 (heightHelper l)) (float64 (heightHelper r)))

/-- `Height`: `bst.heightHelper(bst.Root)`. -/
def BinarySearchTree.Height (bst : BinarySearchTree) : Int :=
  heightHelper bst.Root

/-- `isBalancedHelper`: 0 at nil; -1 as soon as a subtree reported -1 or the two
results differ by more than 1; otherwise one more than the larger result. -/
def isBalancedHelper : TreeNode → Int
  | .nil => 0
  | .node l _ r =>
    let leftHeight := isBalancedHelper l
    if leftHeight = -1 then -1
    else
      let rightHeight := isBalancedHelper r
      if rightHeight = -1 then -1
      else if intOfFloat64 (mathAbs (float64 (leftHeight - rightHeight))) > 1 then -1
      else 1 + intOfFloat64 (mathMax (float64 leftHeight) (float64 rightHeight))

/-- `IsBalanced`: `bst.isBalancedHelper(bst.Root) != -1`. -/
def BinarySearchTree.IsBalanced (bst : BinarySearchTree) : Bool :=
  isBalancedHelper bst.Root != -1

/-- `sizeHelper`: 0 at nil, else `1 + size left + size right`. -/
def sizeHelper : TreeNode → Int
  | .nil => 0
  | .node l _ r => 1 + sizeHelper l + sizeHelper r

/-- `Size`: `bst.sizeHelper(bst.Root)`. -/
def BinarySearchTree.Size (bst : BinarySearchTree) : Int :=
  sizeHelper bst.Root

/-! ## Vocabulary of the specification -/

/-- The values stored in a tree, left to right. -/
def values : TreeNode → List Int
  | .nil => []
  | .node l x r => values l ++ x :: values r

/-- The ordering invariant: at every node, every value of the left subtree is
strictly smaller and every value of the right subtree strictly greater. -/
def Ordered : TreeNode → Prop
  | .nil => True
  | .node l x r =>
    (∀ y ∈ values l, y < x) ∧ (∀ y ∈ values r, x < y) ∧ Ordered l ∧ Ordered r

instance Ordered.instDecidable : (t : TreeNode) → Decidable (Ordered t)
  | .nil => isTrue trivial
  | .node l x r =>
    have := Ordered.instDecidable l
    have := Ordered.instDecidable r
    inferInstanceAs
      (Decidable ((∀ y ∈ values l, y < x) ∧ (∀ y ∈ values r, x < y) ∧ Ordered l ∧ Ordered r))

/-- Inserting a sequence of values one by one, first element first. -/
def insertAll (bst : BinarySearchTree) (xs : List Int) : BinarySearchTree :=
  xs.foldl BinarySearchTree.Insert bst

/-- The trees reachable from `NewBinarySearchTree` by `Insert` and `Delete`. -/
inductive Reachable : BinarySearchTree → Prop where
  | new : Reachable NewBinarySearchTree
  | insert {bst : BinarySearchTree} (v : Int) :
      Reachable bst → Reachable (bst.Insert v)
  | delete {bst bst' : BinarySearchTree} (v : Int) :
      Reachable bst → bst.Delete v = some bst' → Reachable bst'

/-- A step from a node to one of its children. -/
inductive Dir where
  | L : Dir
  | R : Dir
  deriving DecidableEq, Repr

/-- The subtree found by following a path of child steps from the root; `none`
when the path leaves the tree. -/
def subtreeAt : TreeNode → List Dir → Option TreeNode
  | t, [] => some t
  | .nil, _ :: _ => none
  | .node l _ _, Dir.L :: p => subtreeAt l p
  | .node _ _ r, Dir.R :: p => subtreeAt r p

/-- The tree with the subtree at a path replaced, everything else kept. -/
def replaceAt : TreeNode → List Dir → TreeNode → TreeNode
  | _, [], s => s
  | .nil, _ :: _, _ => .nil
  | .node l x r, Dir.L :: p, s => .node (replaceAt l p s) x r
  | .node l x r, Dir.R :: p, s => .node l x (replaceAt r p s)

/-- The reference height: -1 for the empty tree, else one more than the larger
of the two subtree heights, over the integers. -/
def heightRef : TreeNode → Int
  | .nil => -1
  | .node l _ r => 1 + max (heightRef l) (heightRef r)

/-- Height balance: at every node the heights of the two subtrees differ by at
most 1. -/
def Balanced : TreeNode → Prop
  | .nil => True
  | .node l _ r =>
    |heightHelper l - heightHelper r| ≤ 1 ∧ Balanced l ∧ Balanced r

instance Balanced.instDecidable : (t : TreeNode) → Decidable (Balanced t)
  | .nil => isTrue trivial
  | .node l _ r =>
    have := Balanced.instDecidable l
    have := Balanced.instDecidable r
    inferInstanceAs
      (Decidable (|heightHelper l - heightHelper r| ≤ 1 ∧ Balanced l ∧ Balanced r))

/-- The tree of the test suite: 50, 30, 70, 20, 40, 60, 80 inserted in that order. -/
def sampleTree : BinarySearchTree :=
  insertAll NewBinarySearchTree [50, 30, 70, 20, 40, 60, 80]

/-- The skewed tree of the test suite: 1, 2, 3, 4, 5 inserted in that order. -/
def skewedTree : BinarySearchTree :=
  insertAll NewBinarySearchTree [1, 2, 3, 4, 5]

/-! ## Loops and slices -/

/-- A Go loop `for cond { body }`: the body runs while the condition holds.
`none` is a run-time fault inside the body, or a loop that has not ended after
`fuel` iterations. -/
def whileLoop {σ : Type} (cond : σ → Bool) (body : σ → Option σ) : Nat → σ → Option σ
  | 0, _ => none
  | fuel + 1, s => if cond s then (body s).bind (whileLoop cond body fuel) else some s

/-- The index expression `a[i]`; an index out of range faults. -/
def sliceGet (a : List Int) (i : Int) : Option Int :=
  if 0 ≤ i then a[i.toNat]? else none

/-- The assignment `a[i] = v`; an index out of range faults. -/
def sliceSet (a : List Int) (i : Int) (v : Int) : Option (List Int) :=
  if 0 ≤ i ∧ i < a.length then some (a.set i.toNat v) else none

/-- The tuple assignment `a[i], a[j] = a[j], a[i]`: both operands are read, then
the two elements are assigned from left to right. -/
def sliceSwap (a : List Int) (i j : Int) : Option (List Int) :=
  (sliceGet a j).bind fun x =>
  (sliceGet a i).bind fun y =>
  (sliceSet a i x).bind fun a1 =>
  sliceSet a1 j y

/-- `make([]int, n)`: a slice of `n` zeros; a negative length faults. -/
def makeSlice (n : Int) : Option (List Int) :=
  if 0 ≤ n then some (List.replicate n.toNat 0) else none

/-! ## Sorting statistics -/

/-- `SortingStats`, without the wall-clock field `TimeElapsed`. -/
structure SortingStats where
  Comparisons : Int
  Swaps : Int
  deriving DecidableEq, Repr

/-- What a call of one of the six sort functions leaves behind: the caller's
slice `arr`, the local slice `arrCopy` at the return statement, and the returned
statistics. -/
structure SortRun where
  arr : List Int
  arrCopy : List Int
  stats : SortingStats
  deriving DecidableEq, Repr

/-- `stats.Comparisons++`. -/
def SortingStats.incComparisons (st : SortingStats) : SortingStats :=
  { st with Comparisons := st.Comparisons + 1 }

/-- `stats.Swaps++`. -/
def SortingStats.incSwaps (st : SortingStats) : SortingStats :=
  { st with Swaps := st.Swaps + 1 }

/-! ## BubbleSort -/

/-- The variables of the inner loop of `BubbleSort`. -/
structure BubbleInner where
  j : Int
  arrCopy : List Int
  stats : SortingStats
  swapped : Bool
  deriving DecidableEq, Repr

/-- One iteration of `for j := 0; j < n-i-1; j++` in `BubbleSort`. -/
def bubbleInnerBody (s : BubbleInner) : Option BubbleInner :=
  let stats := s.stats.incComparisons
  (sliceGet s.arrCopy s.j).bind fun x =>
  (sliceGet s.arrCopy (s.j + 1)).bind fun y =>
  if x > y then
    (sliceSwap s.arrCopy s.j (s.j + 1)).bind fun a =>
    some { j := s.j + 1, arrCopy := a, stats := stats.incSwaps, swapped := true }
  else
    some { j := s.j + 1, arrCopy := s.arrCopy, stats := stats, swapped := s.swapped }

/-- The variables of the outer loop of `BubbleSort`; `broke` records the
`break`. -/
structure BubbleOuter where
  i : Int
  arrCopy : List Int
  stats : SortingStats
  broke : Bool
  deriving DecidableEq, Repr

/-- One iteration of `for i := 0; i < n-1; i++` in `BubbleSort`: a full inner
loop, then `break` when no swap occurred. -/
def bubbleOuterBody (n : Int) (s : BubbleOuter) : Option BubbleOuter :=
  (whileLoop (fun t : BubbleInner => decide (t.j < n - s.i - 1)) bubbleInnerBody (n.toNat + 1)
    { j := 0, arrCopy := s.arrCopy, stats := s.stats, swapped := false }).bind fun t =>
  if !t.swapped then
    some { i := s.i, arrCopy := t.arrCopy, stats := t.stats, broke := true }
  else
    some { i := s.i + 1, arrCopy := t.arrCopy, stats := t.stats, broke := false }

/-- `BubbleSort`. -/
def BubbleSort (arr : List Int) : Option SortRun :=
  let n : Int := arr.length
  let arrCopy := arr
  (whileLoop (fun s : BubbleOuter => !s.broke && decide (s.i < n - 1)) (bubbleOuterBody n)
    (n.toNat + 1) { i := 0, arrCopy := arrCopy, stats := ⟨0, 0⟩, broke := false }).bind fun s =>
  some { arr := arr, arrCopy := s.arrCopy, stats := s.stats }

/-! ## SelectionSort -/

/-- The variables of the inner loop of `SelectionSort`. -/
structure SelectionInner where
  j : Int
  minIdx : Int
  stats : SortingStats
  deriving DecidableEq, Repr

/-- One iteration of `for j := i + 1; j < n; j++` in `SelectionSort`. -/
def selectionInnerBody (arrCopy : List Int) (s : SelectionInner) : Option SelectionInner :=
  let stats := s.stats.incComparisons
  (sliceGet arrCopy s.j).bind fun x =>
  (sliceGet arrCopy s.minIdx).bind fun y =>
  if x < y then some { j := s.j + 1, minIdx := s.j, stats := stats }
  else some { j := s.j + 1, minIdx := s.minIdx, stats := stats }

/-- The variables of the outer loop of `SelectionSort`. -/
structure SelectionOuter where
  i : Int
  arrCopy : List Int
  stats : SortingStats
  deriving DecidableEq, Repr

/-- One iteration of `for i := 0; i < n-1; i++` in `SelectionSort`. -/
def selectionOuterBody (n : Int) (s : SelectionOuter) : Option SelectionOuter :=
  (whileLoop (fun t : SelectionInner => decide (t.j < n)) (selectionInnerBody s.arrCopy)
    (n.toNat + 1) { j := s.i + 1, minIdx := s.i, stats := s.stats }).bind fun t =>
  if t.minIdx ≠ s.i then
    (sliceSwap s.arrCopy s.i t.minIdx).bind fun a =>
    some { i := s.i + 1, arrCopy := a, stats := t.stats.incSwaps }
  else
    some { i := s.i + 1, arrCopy := s.arrCopy, stats := t.stats }

/-- `SelectionSort`. -/
def SelectionSort (arr : List Int) : Option SortRun :=
  let n : Int := arr.length
  let arrCopy := arr
  (whileLoop (fun s : SelectionOuter => decide (s.i < n - 1)) (selectionOuterBody n)
    (n.toNat + 1) { i := 0, arrCopy := arrCopy, stats := ⟨0, 0⟩ }).bind fun s =>
  some { arr := arr, arrCopy := s.arrCopy, stats := s.stats }

/-! ## InsertionSort -/

/-- The variables of the inner loop of `InsertionSort`; `broke` records the
`break`. -/
structure InsertionInner where
  j : Int
  arrCopy : List Int
  stats : SortingStats
  broke : Bool
  deriving DecidableEq, Repr

/-- One iteration of `for j >= 0` in `InsertionSort`. -/
def insertionInnerBody (key : Int) (s : InsertionInner) : Option InsertionInner :=
  let stats := s.stats.incComparisons
  (sliceGet s.arrCopy s.j).bind fun x =>
  if x > key then
    (sliceSet s.arrCopy (s.j + 1) x).bind fun a =>
    some { j := s.j - 1, arrCopy := a, stats := stats.incSwaps, broke := false }
  else
    some { j := s.j, arrCopy := s.arrCopy, stats := stats, broke := true }

/-- The variables of the outer loop of `InsertionSort`. -/
structure InsertionOuter where
  i : Int
  arrCopy : List Int
  stats : SortingStats
  deriving DecidableEq, Repr

/-- One iteration of `for i := 1; i < n; i++` in `InsertionSort`. -/
def insertionOuterBody (n : Int) (s : InsertionOuter) : Option InsertionOuter :=
  (sliceGet s.arrCopy s.i).bind fun key =>
  (whileLoop (fun t : InsertionInner => !t.broke && decide (t.j ≥ 0)) (insertionInnerBody key)
    (n.toNat + 1) { j := s.i - 1, arrCopy := s.arrCopy, stats := s.stats, broke := false }).bind
  fun t =>
  (sliceSet t.arrCopy (t.j + 1) key).bind fun a =>
  some { i := s.i + 1, arrCopy := a, stats := t.stats }

/-- `InsertionSort`. -/
def InsertionSort (arr : List Int) : Option SortRun :=
  let n : Int := arr.length
  let arrCopy := arr
  (whileLoop (fun s : InsertionOuter => decide (s.i < n)) (insertionOuterBody n)
    (n.toNat + 1) { i := 1, arrCopy := arrCopy, stats := ⟨0, 0⟩ }).bind fun s =>
  some { arr := arr, arrCopy := s.arrCopy, stats := s.stats }

/-! ## MergeSort -/

/-- The variables of the two copy loops of `merge`: the index and the slice
being filled. -/
structure MergeCopy where
  i : Int
  dst : List Int
  deriving DecidableEq, Repr

/-- One iteration of `for i := 0; i < n1; i++ { leftArr[i] = arr[left+i] }`, and
of the loop filling `rightArr` when `off` is `mid+1`. -/
def mergeCopyBody (arr : List Int) (off : Int) (s : MergeCopy) : Option MergeCopy :=
  (sliceGet arr (off + s.i)).bind fun x =>
  (sliceSet s.dst s.i x).bind fun d =>
  some { i := s.i + 1, dst := d }

/-- The variables of the three merging loops of `merge`. -/
structure MergeLoop where
  i : Int
  j : Int
  k : Int
  arr : List Int
  stats : SortingStats
  deriving DecidableEq, Repr

/-- One iteration of `for i < n1 && j < n2` in `merge`. -/
def mergeMainBody (leftArr rightArr : List Int) (s : MergeLoop) : Option MergeLoop :=
  let stats := s.stats.incComparisons
  (sliceGet leftArr s.i).bind fun x =>
  (sliceGet rightArr s.j).bind fun y =>
  if x ≤ y then
    (sliceSet s.arr s.k x).bind fun a =>
    some { i := s.i + 1, j := s.j, k := s.k + 1, arr := a, stats := stats }
  else
    (sliceSet s.arr s.k y).bind fun a =>
    some { i := s.i, j := s.j + 1, k := s.k + 1, arr := a, stats := stats }

/-- One iteration of `for i < n1` in `merge`. -/
def mergeLeftBody (leftArr : List Int) (s : MergeLoop) : Option MergeLoop :=
  (sliceGet leftArr s.i).bind fun x =>
  (sliceSet s.arr s.k x).bind fun a =>
  some { i := s.i + 1, j := s.j, k := s.k + 1, arr := a, stats := s.stats }

/-- One iteration of `for j < n2` in `merge`. -/
def mergeRightBody (rightArr : List Int) (s : MergeLoop) : Option MergeLoop :=
  (sliceGet rightArr s.j).bind fun y =>
  (sliceSet s.arr s.k y).bind fun a =>
  some { i := s.i, j := s.j + 1, k := s.k + 1, arr := a, stats := s.stats }

/-- `merge`: returns the slice and the statistics it has updated. -/
def merge (arr : List Int) (left mid right : Int) (stats : SortingStats) :
    Option (List Int × SortingStats) :=
  let n1 := mid - left + 1
  let n2 := right - mid
  let fuel := arr.length + 1
  (makeSlice n1).bind fun leftArr0 =>
  (makeSlice n2).bind fun rightArr0 =>
  (whileLoop (fun s : MergeCopy => decide (s.i < n1)) (mergeCopyBody arr left) fuel
    { i := 0, dst := leftArr0 }).bind fun cl =>
  (whileLoop (fun s : MergeCopy => decide (s.i < n2)) (mergeCopyBody arr (mid + 1)) fuel
    { i := 0, dst := rightArr0 }).bind fun cr =>
  (whileLoop (fun s : MergeLoop => decide (s.i < n1) && decide (s.j < n2))
    (mergeMainBody cl.dst cr.dst) fuel
    { i := 0, j := 0, k := left, arr := arr, stats := stats }).bind fun s1 =>
  (whileLoop (fun s : MergeLoop => decide (s.i < n1)) (mergeLeftBody cl.dst) fuel s1).bind
  fun s2 =>
  (whileLoop (fun s : MergeLoop => decide (s.j < n2)) (mergeRightBody cr.dst) fuel s2).bind
  fun s3 =>
  some (s3.arr, s3.stats)

/-- `mergeSortHelper`; `fuel` bounds the depth of the recursion.  The division
of Go truncates, as `Int.tdiv` does. -/
def mergeSortHelper : Nat → List Int → Int → Int → SortingStats →
    Option (List Int × SortingStats)
  | 0, _, _, _, _ => none
  | fuel + 1, arr, left, right, stats =>
    if left < right then
      let mid := left + (right - left).tdiv 2
      (mergeSortHelper fuel arr left mid stats).bind fun r1 =>
      (mergeSortHelper fuel r1.1 (mid + 1) right r1.2).bind fun r2 =>
      merge r2.1 left mid right r2.2
    else some (arr, stats)

/-- `MergeSort`. -/
def MergeSort (arr : List Int) : Option SortRun :=
  let arrCopy := arr
  (mergeSortHelper (arr.length + 1) arrCopy 0 ((arrCopy.length : Int) - 1) ⟨0, 0⟩).bind fun r =>
  some { arr := arr, arrCopy := r.1, stats := r.2 }

/-! ## QuickSort -/

/-- The variables of the loop of `partition`. -/
structure PartitionLoop where
  i : Int
  j : Int
  arr : List Int
  stats : SortingStats
  deriving DecidableEq, Repr

/-- One iteration of `for j := low; j < high; j++` in `partition`. -/
def partitionBody (pivot : Int) (s : PartitionLoop) : Option PartitionLoop :=
  let stats := s.stats.incComparisons
  (sliceGet s.arr s.j).bind fun x =>
  if x < pivot then
    let i := s.i + 1
    (sliceSwap s.arr i s.j).bind fun a =>
    some { i := i, j := s.j + 1, arr := a, stats := stats.incSwaps }
  else
    some { i := s.i, j := s.j + 1, arr := s.arr, stats := stats }

/-- `partition`: returns the slice, the statistics and the index `i + 1`. -/
def partition (arr : List Int) (low high : Int) (stats : SortingStats) :
    Option (List Int × SortingStats × Int) :=
  (sliceGet arr high).bind fun pivot =>
  (whileLoop (fun s : PartitionLoop => decide (s.j < high)) (partitionBody pivot)
    (arr.length + 1) { i := low - 1, j := low, arr := arr, stats := stats }).bind fun s =>
  (sliceSwap s.arr (s.i + 1) high).bind fun a =>
  some (a, s.stats.incSwaps, s.i + 1)

/-- `quickSortHelper`; `fuel` bounds the depth of the recursion. -/
def quickSortHelper : Nat → List Int → Int → Int → SortingStats →
    Option (List Int × SortingStats)
  | 0, _, _, _, _ => none
  | fuel + 1, arr, low, high, stats =>
    if low < high then
      (partition arr low high stats).bind fun p =>
      (quickSortHelper fuel p.1 low (p.2.2 - 1) p.2.1).bind fun r1 =>
      quickSortHelper fuel r1.1 (p.2.2 + 1) high r1.2
    else some (arr, stats)

/-- `QuickSort`. -/
def QuickSort (arr : List Int) : Option SortRun :=
  let arrCopy := arr
  (quickSortHelper (arr.length + 1) arrCopy 0 ((arrCopy.length : Int) - 1) ⟨0, 0⟩).bind fun r =>
  some { arr := arr, arrCopy := r.1, stats := r.2 }

/-! ## HeapSort -/

/-- The first two `if` statements of `heapify`: the index of the largest of
`arr[i]`, `arr[left]`, `arr[right]` among those below `n`, and the statistics. -/
def heapifyLargest (arr : List Int) (n i : Int) (stats : SortingStats) :
    Option (Int × SortingStats) :=
  let largest := i
  let left := 2 * i + 1
  let right := 2 * i + 2
  (if left < n then
    (sliceGet arr left).bind fun x =>
    (sliceGet arr largest).bind fun y =>
    some (if x > y then left else largest, stats.incComparisons)
  else some (largest, stats)).bind fun r1 =>
  if right < n then
    (sliceGet arr right).bind fun x =>
    (sliceGet arr r1.1).bind fun y =>
    some (if x > y then right else r1.1, r1.2.incComparisons)
  else some r1

/-- `heapify`; `fuel` bounds the depth of the recursion. -/
def heapify : Nat → List Int → Int → Int → SortingStats → Option (List Int × SortingStats)
  | 0, _, _, _, _ => none
  | fuel + 1, arr, n, i, stats =>
    (heapifyLargest arr n i stats).bind fun r =>
    if r.1 ≠ i then
      (sliceSwap arr i r.1).bind fun a =>
      heapify fuel a n r.1 r.2.incSwaps
    else some (arr, r.2)

/-- The variables of the two loops of `HeapSort`. -/
structure HeapLoop where
  i : Int
  arrCopy : List Int
  stats : SortingStats
  deriving DecidableEq, Repr

/-- One iteration of `for i := n/2 - 1; i >= 0; i--` in `HeapSort`. -/
def heapBuildBody (n : Int) (s : HeapLoop) : Option HeapLoop :=
  (heapify (n.toNat + 1) s.arrCopy n s.i s.stats).bind fun r =>
  some { i := s.i - 1, arrCopy := r.1, stats := r.2 }

/-- One iteration of `for i := n - 1; i > 0; i--` in `HeapSort`. -/
def heapExtractBody (n : Int) (s : HeapLoop) : Option HeapLoop :=
  (sliceSwap s.arrCopy 0 s.i).bind fun a =>
  (heapify (n.toNat + 1) a s.i 0 s.stats.incSwaps).bind fun r =>
  some { i := s.i - 1, arrCopy := r.1, stats := r.2 }

/-- `HeapSort`. -/
def HeapSort (arr : List Int) : Option SortRun :=
  let arrCopy := arr
  let n : Int := arrCopy.length
  (whileLoop (fun s : HeapLoop => decide (s.i ≥ 0)) (heapBuildBody n) (n.toNat + 1)
    { i := n.tdiv 2 - 1, arrCopy := arrCopy, stats := ⟨0, 0⟩ }).bind fun s1 =>
  (whileLoop (fun s : HeapLoop => decide (s.i > 0)) (heapExtractBody n) (n.toNat + 1)
    { i := n - 1, arrCopy := s1.arrCopy, stats := s1.stats }).bind fun s2 =>
  some { arr := arr, arrCopy := s2.arrCopy, stats := s2.stats }

/-! ## IsSorted -/

/-- The variables of the loop of `IsSorted`; `returned` records the
`return false`. -/
structure IsSortedLoop where
  i : Int
  returned : Bool
  deriving DecidableEq, Repr

/-- One iteration of `for i := 1; i < len(arr); i++` in `IsSorted`. -/
def isSortedBody (arr : List Int) (s : IsSortedLoop) : Option IsSortedLoop :=
  (sliceGet arr s.i).bind fun x =>
  (sliceGet arr (s.i - 1)).bind fun y =>
  if x < y then some { i := s.i, returned := true }
  else some { i := s.i + 1, returned := false }

/-- `IsSorted`: false when the loop returned, true when it ran to its end. -/
def IsSorted (arr : List Int) : Option Bool :=
  (whileLoop (fun s : IsSortedLoop => !s.returned && decide (s.i < (arr.length : Int)))
    (isSortedBody arr) (arr.length + 1) { i := 1, returned := false }).bind fun s =>
  some (!s.returned)

/-! ## CompareAlgorithms -/

/-- The outcome of `CompareAlgorithms`: the caller's slice after the six calls,
and the entries of the returned map in the order in which they were stored. -/
structure CompareRun where
  arr : List Int
  results : List (String × SortingStats)
  deriving DecidableEq, Repr

/-- `CompareAlgorithms`: the six algorithms are called one after the other on
the caller's slice. -/
def CompareAlgorithms (arr : List Int) : Option CompareRun :=
  (BubbleSort arr).bind fun r1 =>
  (SelectionSort r1.arr).bind fun r2 =>
  (InsertionSort r2.arr).bind fun r3 =>
  (MergeSort r3.arr).bind fun r4 =>
  (QuickSort r4.arr).bind fun r5 =>
  (HeapSort r5.arr).bind fun r6 =>
  some { arr := r6.arr,
         results := [("Bubble Sort", r1.stats), ("Selection Sort", r2.stats),
           ("Insertion Sort", r3.stats), ("Merge Sort", r4.stats),
           ("Quick Sort", r5.stats), ("Heap Sort", r6.stats)] }

/-! ## Vocabulary for slices -/

/-- The element of a slice at an index, 0 outside the slice. -/
def elem (a : List Int) (i : Int) : Int := a.getD i.toNat 0

/-- The slice with the elements at two indices exchanged. -/
def swapElems (a : List Int) (i j : Int) : List Int :=
  (a.set i.toNat (elem a j)).set j.toNat (elem a i)

/-- The elements at the indices `lo ≤ p < hi` are in non-decreasing order. -/
def SortedOn (a : List Int) (lo hi : Int) : Prop :=
  ∀ p q : Int, lo ≤ p → p ≤ q → q < hi → elem a p ≤ elem a q

/-- The elements at the indices `lo ≤ p < hi` of a slice, as a list. -/
def segment (a : List Int) (lo hi : Int) : List Int :=
  (a.take hi.toNat).drop lo.toNat

/-- The invariant of the inner loop of `SelectionSort`: `minIdx` points at a
smallest element among the indices `i ≤ q < j`. -/
def SelectionInnerInv (a : List Int) (i : Int) (t : SelectionInner) : Prop :=
  i + 1 ≤ t.j ∧ t.j ≤ a.length ∧ i ≤ t.minIdx ∧ t.minIdx < t.j ∧
  ∀ q, i ≤ q → q < t.j → elem a t.minIdx ≤ elem a q

/-- The invariant of the outer loop of `SelectionSort`. -/
def SelectionInv (arr : List Int) (s : SelectionOuter) : Prop :=
  s.arrCopy.length = arr.length ∧ s.arrCopy.Perm arr ∧ 0 ≤ s.i ∧
  (s.i ≤ (arr.length : Int) - 1 ∨ s.i = 0) ∧
  SortedOn s.arrCopy 0 s.i ∧
  ∀ p q, 0 ≤ p → p < s.i → s.i ≤ q → q < arr.length → elem s.arrCopy p ≤ elem s.arrCopy q

/-- The invariant of the inner loop of `BubbleSort` in pass `i`, started on the
slice `a0`: the element at `j` is a largest one among the indices up to `j`, the
elements from `n - i` on are untouched, and as long as nothing was swapped the
elements up to `j` are in order. -/
def BubbleInnerInv (a0 : List Int) (i : Int) (t : BubbleInner) : Prop :=
  t.arrCopy.length = a0.length ∧ t.arrCopy.Perm a0 ∧ 0 ≤ t.j ∧
  t.j ≤ (a0.length : Int) - i - 1 ∧
  (∀ p, 0 ≤ p → p ≤ t.j → elem t.arrCopy p ≤ elem t.arrCopy t.j) ∧
  (∀ q, (a0.length : Int) - i ≤ q → q < a0.length → elem t.arrCopy q = elem a0 q) ∧
  (t.swapped = false → SortedOn t.arrCopy 0 (t.j + 1))

/-- The invariant of the outer loop of `BubbleSort`: the last `i` elements are
in order and not smaller than any element before them; after the `break` the
whole slice is in order. -/
def BubbleInv (arr : List Int) (s : BubbleOuter) : Prop :=
  s.arrCopy.length = arr.length ∧ s.arrCopy.Perm arr ∧ 0 ≤ s.i ∧
  (s.i ≤ (arr.length : Int) - 1 ∨ s.i = 0) ∧
  SortedOn s.arrCopy ((arr.length : Int) - s.i) arr.length ∧
  (∀ p q, 0 ≤ p → p < (arr.length : Int) - s.i → (arr.length : Int) - s.i ≤ q →
    q < arr.length → elem s.arrCopy p ≤ elem s.arrCopy q) ∧
  (s.broke = true → SortedOn s.arrCopy 0 arr.length)

/-- The invariant of the inner loop of `InsertionSort` while it inserts
`key = a0[i]`: the elements up to `j` are untouched, the elements from `j + 2` to
`i` are the old ones moved one place up and are all greater than `key`, and
writing `key` at `j + 1` would give a permutation of `a0`. -/
def InsertionInnerInv (a0 : List Int) (i key : Int) (t : InsertionInner) : Prop :=
  t.arrCopy.length = a0.length ∧ -1 ≤ t.j ∧ t.j ≤ i - 1 ∧
  (t.arrCopy.set (t.j + 1).toNat key).Perm a0 ∧
  (∀ p, 0 ≤ p → p ≤ t.j → elem t.arrCopy p = elem a0 p) ∧
  (∀ q, t.j + 2 ≤ q → q ≤ i → elem t.arrCopy q = elem a0 (q - 1) ∧ key < elem t.arrCopy q) ∧
  (t.broke = true → 0 ≤ t.j ∧ elem t.arrCopy t.j ≤ key)

/-- The invariant of the outer loop of `InsertionSort`: the first `i` elements
are in order. -/
def InsertionInv (arr : List Int) (s : InsertionOuter) : Prop :=
  s.arrCopy.length = arr.length ∧ s.arrCopy.Perm arr ∧ 1 ≤ s.i ∧
  (s.i ≤ arr.length ∨ s.i = 1) ∧ SortedOn s.arrCopy 0 s.i

/-- The state of `InsertionSort` after the first `k` iterations of its outer
loop, that is after the indices 1 to `k` have been processed. -/
def insertionSortAfter (arr : List Int) : Nat → Option InsertionOuter
  | 0 => some { i := 1, arrCopy := arr, stats := ⟨0, 0⟩ }
  | k + 1 => (insertionSortAfter arr k).bind (insertionOuterBody arr.length)

/-- The comparison `leftArr[i] <= rightArr[j]` of `merge`, as a boolean switch. -/
def leBool (x y : Int) : Bool := decide (x ≤ y)

/-- The invariant of the copy loops of `merge`: the first `i` elements of the
new slice are the elements of `arr` from `off` on. -/
def MergeCopyInv (arr : List Int) (off n1 : Int) (c : MergeCopy) : Prop :=
  (c.dst.length : Int) = n1 ∧ 0 ≤ c.i ∧ c.i ≤ n1 ∧
  ∀ k, 0 ≤ k → k < c.i → elem c.dst k = elem arr (off + k)

/-- The invariant of the three merging loops of `merge`, started on `a0` with
the copies `L` and `R`: outside the merged range nothing has changed, and the
elements written so far are a list `M` that, followed by the merge of what is
left of `L` and `R`, is the merge of `L` and `R`. -/
def MergeInv (a0 L R : List Int) (left : Int) (s : MergeLoop) : Prop :=
  s.arr.length = a0.length ∧ 0 ≤ s.i ∧ s.i ≤ L.length ∧ 0 ≤ s.j ∧ s.j ≤ R.length ∧
  s.k = left + s.i + s.j ∧
  (∀ p, 0 ≤ p → (p < left ∨ left + L.length + R.length ≤ p) → elem s.arr p = elem a0 p) ∧
  ∃ M : List Int, (M.length : Int) = s.i + s.j ∧
    M ++ List.merge (L.drop s.i.toNat) (R.drop s.j.toNat) leBool = List.merge L R leBool ∧
    ∀ p, left ≤ p → p < s.k → elem s.arr p = elem M (p - left)

/-- The invariant of the two loops of `merge` that copy what is left: one of
the two copies is used up. -/
def MergeRestInv (a0 L R : List Int) (left : Int) (s : MergeLoop) : Prop :=
  MergeInv a0 L R left s ∧ (s.i = L.length ∨ s.j = R.length)

/-- The invariant of the loop of `partition` on the range from `low` to `high`
with pivot `arr[high]`: the elements from `low` to `i` are smaller than the
pivot, the elements after `i` and before `j` are not, the pivot is still at
`high`, and nothing outside the range has changed. -/
def PartitionInv (a0 : List Int) (low high pivot : Int) (s : PartitionLoop) : Prop :=
  s.arr.length = a0.length ∧ s.arr.Perm a0 ∧ low - 1 ≤ s.i ∧ s.i < s.j ∧ low ≤ s.j ∧
  s.j ≤ high ∧ elem s.arr high = pivot ∧
  (∀ p, low ≤ p → p ≤ s.i → elem s.arr p < pivot) ∧
  (∀ p, s.i < p → p < s.j → pivot ≤ elem s.arr p) ∧
  (∀ p, 0 ≤ p → (p < low ∨ high < p) → elem s.arr p = elem a0 p)

/-- The max-heap property of the first `n` elements at every node from `lo` on:
no child is greater than its parent. -/
def HeapFrom (a : List Int) (n lo : Int) : Prop :=
  ∀ p : Int, lo ≤ p → p < n →
    (2 * p + 1 < n → elem a (2 * p + 1) ≤ elem a p) ∧
    (2 * p + 2 < n → elem a (2 * p + 2) ≤ elem a p)

/-- The state in which `heapify` runs at node `i`: every node from `lo` on other
than `i` dominates its children, and the parent of `i`, when it is one of these
nodes, dominates the children of `i`. -/
def HeapExcept (a : List Int) (n lo i : Int) : Prop :=
  (∀ p : Int, lo ≤ p → p < n → p ≠ i →
    (2 * p + 1 < n → elem a (2 * p + 1) ≤ elem a p) ∧
    (2 * p + 2 < n → elem a (2 * p + 2) ≤ elem a p)) ∧
  (∀ p : Int, lo ≤ p → (i = 2 * p + 1 ∨ i = 2 * p + 2) →
    (2 * i + 1 < n → elem a (2 * i + 1) ≤ elem a p) ∧
    (2 * i + 2 < n → elem a (2 * i + 2) ≤ elem a p))

/-- The invariant of the first loop of `HeapSort`: the nodes after `i` are heap
ordered. -/
def HeapBuildInv (arr : List Int) (s : HeapLoop) : Prop :=
  s.arrCopy.length = arr.length ∧ s.arrCopy.Perm arr ∧ -1 ≤ s.i ∧ s.i < arr.length ∧
  HeapFrom s.arrCopy arr.length (s.i + 1)

/-- The invariant of the second loop of `HeapSort`: the first `i + 1` elements
form a max-heap, the elements after them are in order and not smaller than any
of the first `i + 1`. -/
def HeapExtractInv (arr : List Int) (s : HeapLoop) : Prop :=
  s.arrCopy.length = arr.length ∧ s.arrCopy.Perm arr ∧ -1 ≤ s.i ∧
  s.i ≤ (arr.length : Int) - 1 ∧ HeapFrom s.arrCopy (s.i + 1) 0 ∧
  SortedOn s.arrCopy (s.i + 1) arr.length ∧
  ∀ p q : Int, 0 ≤ p → p ≤ s.i → s.i < q → q < arr.length →
    elem s.arrCopy p ≤ elem s.arrCopy q

/-- The invariant of the loop of `IsSorted`: every adjacent pair before `i` is
in order, and the loop has returned only on a pair that is out of order. -/
def IsSortedInv (arr : List Int) (s : IsSortedLoop) : Prop :=
  1 ≤ s.i ∧ (s.i ≤ arr.length ∨ s.i = 1) ∧
  (∀ q : Int, 1 ≤ q → q < s.i → elem arr (q - 1) ≤ elem arr q) ∧
  (s.returned = true → s.i < arr.length ∧ elem arr s.i < elem arr (s.i - 1))

/-- The slice of `TestSortingAlgorithms_Consistency`. -/
def consistencyArr : List Int := [64, 34, 25, 12, 22, 11, 90, 5, 77, 30]

/-- The slice `expected` of `TestSortingAlgorithms_Consistency`. -/
def consistencyExpected : List Int := [5, 11, 12, 22, 25, 30, 34, 64, 77, 90]

/-- The six sort functions, in the order in which `CompareAlgorithms` calls them. -/
def sortFunctions : List (List Int → Option SortRun) :=
  [BubbleSort, SelectionSort, InsertionSort, MergeSort, QuickSort, HeapSort]

/-! ## LevelOrderTraversal -/

/-- The variables of the loop of `LevelOrderTraversal`. -/
structure LevelOrderLoop where
  queue : List TreeNode
  result : List Int
  deriving DecidableEq, Repr

/-- One iteration of `for len(queue) > 0` in `LevelOrderTraversal`: `queue[0]`
faults on an empty queue and `node.Value` faults on the nil pointer. -/
def levelOrderBody (s : LevelOrderLoop) : Option LevelOrderLoop :=
  match s.queue with
  | [] => none
  | node :: queue =>
    match node with
    | .nil => none
    | .node l x r =>
      let result := s.result ++ [x]
      let queue := if l ≠ .nil then queue ++ [l] else queue
      let queue := if r ≠ .nil then queue ++ [r] else queue
      some { queue := queue, result := result }

/-- `LevelOrderTraversal`; the loop runs once for every node of the tree. -/
def BinarySearchTree.LevelOrderTraversal (bst : BinarySearchTree) : Option (List Int) :=
  if bst.Root = .nil then some []
  else
    (whileLoop (fun s : LevelOrderLoop => decide (s.queue.length > 0)) levelOrderBody
      ((values bst.Root).length + 1) { queue := [bst.Root], result := [] }).bind fun s =>
    some s.result

/-- The values of the nodes at depth `d` of a tree, left to right. -/
def atDepth : TreeNode → Nat → List Int
  | .nil, _ => []
  | .node _ x _, 0 => [x]
  | .node l _ r, d + 1 => atDepth l d ++ atDepth r d

/-- The number of levels of a tree. -/
def levels : TreeNode → Nat
  | .nil => 0
  | .node l _ r => 1 + max (levels l) (levels r)

/-- The values at depth `d` of the trees of a queue, in queue order. -/
def queueAtDepth (q : List TreeNode) (d : Nat) : List Int :=
  q.flatMap fun t => atDepth t d

/-- The non-nil children of the nodes of a queue, in queue order. -/
def queueChildren : List TreeNode → List TreeNode
  | [] => []
  | .nil :: q => queueChildren q
  | .node l _ r :: q =>
    (if l ≠ .nil then [l] else []) ++ (if r ≠ .nil then [r] else []) ++ queueChildren q

/-- The number of nodes of the trees of a queue. -/
def queueSize (q : List TreeNode) : Nat :=
  (q.map fun t => (values t).length).sum

/-- The largest number of levels among the trees of a queue. -/
def queueLevels : List TreeNode → Nat
  | [] => 0
  | t :: q => max (levels t) (queueLevels q)

/-! ## Vocabulary for the statistics -/

/-- The number of inversions of a slice: the pairs of indices `i < j` with
`arr[i] > arr[j]`. -/
def inversions : List Int → Nat
  | [] => 0
  | x :: xs => xs.countP (fun y => decide (x > y)) + inversions xs

/-! ## Basic facts about the embedding -/

theorem inorderHelper_eq (t : TreeNode) (result : List Int) :
    inorderHelper t result = result ++ values t := by
  induction t generalizing result with
  | nil => simp [inorderHelper, values]
  | node l x r ihl ihr => simp [inorderHelper, values, ihl, ihr]

theorem mem_values_insertNode (t : TreeNode) (v y : Int) :
    y ∈ values (insertNode t v) ↔ y = v ∨ y ∈ values t := by
  induction t with
  | nil => simp [insertNode, values]
  | node l x r ihl ihr =>
    unfold insertNode
    split_ifs with h1 h2
    · simp only [values, List.mem_append, List.mem_cons, ihl]; tauto
    · simp only [values, List.mem_append, List.mem_cons, ihr]; tauto
    · have hv : v = x := le_antisymm (not_lt.mp h2) (not_lt.mp h1)
      subst hv
      simp only [values, List.mem_append, List.mem_cons]; tauto

theorem ordered_insertNode (t : TreeNode) (v : Int) (h : Ordered t) :
    Ordered (insertNode t v) := by
  induction t with
  | nil => simp [insertNode, Ordered, values]
  | node l x r ihl ihr =>
    obtain ⟨hl, hr, ol, or_⟩ := h
    unfold insertNode
    split_ifs with h1 h2
    · refine ⟨?_, hr, ihl ol, or_⟩
      intro y hy
      rcases (mem_values_insertNode l v y).mp hy with rfl | hy'
      · exact h1
      · exact hl y hy'
    · refine ⟨hl, ?_, ol, ihr or_⟩
      intro y hy
      rcases (mem_values_insertNode r v y).mp hy with rfl | hy'
      · exact h2
      · exact hr y hy'
    · exact ⟨hl, hr, ol, or_⟩

theorem sorted_values_of_ordered (t : TreeNode) (h : Ordered t) :
    List.Sorted (· < ·) (values t) := by
  induction t with
  | nil => simp [values]
  | node l x r ihl ihr =>
    obtain ⟨hl, hr, ol, or_⟩ := h
    simp only [values, List.Sorted, List.pairwise_append, List.pairwise_cons,
      List.mem_cons]
    refine ⟨ihl ol, ⟨hr, ihr or_⟩, ?_⟩
    intro a ha b hb
    rcases hb with rfl | hb
    · exact hl a ha
    · exact lt_trans (hl a ha) (hr b hb)

theorem searchNode_iff_mem (t : TreeNode) (v : Int) (h : Ordered t) :
    searchNode t v = true ↔ v ∈ values t := by
  induction t with
  | nil => simp [searchNode, values]
  | node l x r ihl ihr =>
    obtain ⟨hl, hr, ol, or_⟩ := h
    unfold searchNode
    simp only [values, List.mem_append, List.mem_cons]
    split_ifs with h1 h2
    · simp [h1]
    · rw [ihl ol]
      constructor
      · intro hm; exact Or.inl hm
      · rintro (hm | hm | hm)
        · exact hm
        · exact absurd hm h1
        · exact absurd (hr v hm) (not_lt.mpr (le_of_lt h2))
    · rw [ihr or_]
      constructor
      · intro hm; exact Or.inr (Or.inr hm)
      · rintro (hm | hm | hm)
        · exact absurd (hl v hm) h2
        · exact absurd hm h1
        · exact hm

theorem mem_values_insertAll (xs : List Int) (bst : BinarySearchTree) (y : Int) :
    y ∈ values (insertAll bst xs).Root ↔ y ∈ xs ∨ y ∈ values bst.Root := by
  induction xs generalizing bst with
  | nil => simp [insertAll]
  | cons x xs ih =>
    have := ih (bst.Insert x)
    simp only [insertAll, List.foldl_cons] at this ⊢
    rw [this]
    simp only [BinarySearchTree.Insert, mem_values_insertNode, List.mem_cons]
    tauto

theorem ordered_insertAll (xs : List Int) (bst : BinarySearchTree) (h : Ordered bst.Root) :
    Ordered (insertAll bst xs).Root := by
  induction xs generalizing bst with
  | nil => simpa [insertAll] using h
  | cons x xs ih =>
    have := ih (bst.Insert x) (ordered_insertNode bst.Root x h)
    simpa only [insertAll, List.foldl_cons] using this

/-! ## Facts about `findMin` and `deleteNode` -/

theorem findMin_node (l : TreeNode) (x : Int) (r : TreeNode) :
    ∃ m rm, findMin (.node l x r) = some (.node .nil m rm) ∧
      m ∈ values (.node l x r) ∧
      (Ordered (.node l x r) → ∀ y ∈ values (.node l x r), m ≤ y) := by
  induction l generalizing x r with
  | nil =>
    refine ⟨x, r, by simp [findMin], by simp [values], ?_⟩
    rintro ⟨-, hr, -, -⟩ y hy
    simp only [values, List.nil_append, List.mem_cons] at hy
    rcases hy with rfl | hy
    · exact le_refl _
    · exact le_of_lt (hr y hy)
  | node ll lx lr ihl _ =>
    obtain ⟨m, rm, hf, hm, hmin⟩ := ihl lx lr
    refine ⟨m, rm, by simpa [findMin] using hf, ?_, ?_⟩
    · simp only [values, List.mem_append, List.mem_cons] at hm ⊢
      exact Or.inl hm
    · rintro ⟨hl, hr, ol, -⟩ y hy
      have hmx : m < x := hl m hm
      rw [values, List.mem_append, List.mem_cons] at hy
      rcases hy with hy | rfl | hy
      · exact hmin ol y hy
      · exact le_of_lt hmx
      · exact le_of_lt (lt_trans hmx (hr y hy))

theorem findMin_of_ne_nil (t : TreeNode) (h : t ≠ .nil) :
    ∃ m rm, findMin t = some (.node .nil m rm) ∧ m ∈ values t ∧
      (Ordered t → ∀ y ∈ values t, m ≤ y) := by
  cases t with
  | nil => exact absurd rfl h
  | node l x r => exact findMin_node l x r

theorem deleteNode_inv (l : TreeNode) (x : Int) (r : TreeNode) (v : Int) (t' : TreeNode)
    (h : deleteNode (.node l x r) v = some t') :
    (v < x ∧ ∃ l', deleteNode l v = some l' ∧ t' = .node l' x r) ∨
    (x < v ∧ ∃ r', deleteNode r v = some r' ∧ t' = .node l x r') ∨
    (v = x ∧ l = .nil ∧ t' = r) ∨
    (v = x ∧ l ≠ .nil ∧ r = .nil ∧ t' = l) ∨
    (v = x ∧ l ≠ .nil ∧ r ≠ .nil ∧ ∃ m rm r', findMin r = some (.node .nil m rm) ∧
      deleteNode r m = some r' ∧ t' = .node l m r') := by
  unfold deleteNode at h
  split_ifs at h with h1 h2 h3 h4
  · left
    obtain ⟨l', hl', rfl⟩ := Option.map_eq_some'.mp h
    exact ⟨h1, l', hl', rfl⟩
  · right; left
    obtain ⟨r', hr', rfl⟩ := Option.map_eq_some'.mp h
    exact ⟨h2, r', hr', rfl⟩
  · right; right; left
    have hv : v = x := le_antisymm (not_lt.mp h2) (not_lt.mp h1)
    exact ⟨hv, h3, (Option.some.inj h).symm⟩
  · right; right; right; left
    have hv : v = x := le_antisymm (not_lt.mp h2) (not_lt.mp h1)
    exact ⟨hv, h3, h4, (Option.some.inj h).symm⟩
  · right; right; right; right
    have hv : v = x := le_antisymm (not_lt.mp h2) (not_lt.mp h1)
    obtain ⟨m, rm, hf, -, -⟩ := findMin_of_ne_nil r h4
    simp only [hf, Option.some_bind, TreeNode.Value?] at h
    obtain ⟨r', hr', rfl⟩ := Option.map_eq_some'.mp h
    exact ⟨hv, h3, h4, m, rm, r', hf, hr', rfl⟩

theorem deleteNode_isSome (t : TreeNode) (v : Int) : ∃ t', deleteNode t v = some t' := by
  induction t generalizing v with
  | nil => exact ⟨.nil, by simp [deleteNode]⟩
  | node l x r ihl ihr =>
    unfold deleteNode
    split_ifs with h1 h2 h3 h4
    · obtain ⟨l', hl'⟩ := ihl v
      exact ⟨_, by rw [hl']; rfl⟩
    · obtain ⟨r', hr'⟩ := ihr v
      exact ⟨_, by rw [hr']; rfl⟩
    · exact ⟨r, rfl⟩
    · exact ⟨l, rfl⟩
    · obtain ⟨m, rm, hf, -, -⟩ := findMin_of_ne_nil r h4
      obtain ⟨r', hr'⟩ := ihr m
      exact ⟨.node l m r', by simp [hf, TreeNode.Value?, hr']⟩

theorem mem_values_deleteNode (t : TreeNode) (v : Int) (t' : TreeNode) (y : Int)
    (ho : Ordered t) (h : deleteNode t v = some t') :
    y ∈ values t' ↔ y ∈ values t ∧ y ≠ v := by
  induction t generalizing v t' with
  | nil =>
    simp only [deleteNode, Option.some.injEq] at h
    subst h
    simp [values]
  | node l x r ihl ihr =>
    obtain ⟨hl, hr, ol, or_⟩ := ho
    have hly : y ∈ values l → y < x := hl y
    have hry : y ∈ values r → x < y := hr y
    simp only [values, List.mem_append, List.mem_cons]
    rcases deleteNode_inv l x r v t' h with
      ⟨h1, l', hl', rfl⟩ | ⟨h1, r', hr', rfl⟩ | ⟨rfl, rfl, rfl⟩ | ⟨rfl, -, rfl, rfl⟩ |
      ⟨rfl, -, -, m, rm, r', hf, hr', rfl⟩
    · simp only [values, List.mem_append, List.mem_cons, ihl v l' ol hl']
      constructor
      · rintro (⟨a, b⟩ | a | a)
        · exact ⟨Or.inl a, b⟩
        · exact ⟨Or.inr (Or.inl a), by omega⟩
        · exact ⟨Or.inr (Or.inr a), by have := hry a; omega⟩
      · rintro ⟨a | a | a, b⟩
        · exact Or.inl ⟨a, b⟩
        · exact Or.inr (Or.inl a)
        · exact Or.inr (Or.inr a)
    · simp only [values, List.mem_append, List.mem_cons, ihr v r' or_ hr']
      constructor
      · rintro (a | a | ⟨a, b⟩)
        · exact ⟨Or.inl a, by have := hly a; omega⟩
        · exact ⟨Or.inr (Or.inl a), by omega⟩
        · exact ⟨Or.inr (Or.inr a), b⟩
      · rintro ⟨a | a | a, b⟩
        · exact Or.inl a
        · exact Or.inr (Or.inl a)
        · exact Or.inr (Or.inr ⟨a, b⟩)
    · simp only [values, List.not_mem_nil, false_or]
      constructor
      · intro a; exact ⟨Or.inr a, by have := hry a; omega⟩
      · rintro ⟨a | a, b⟩
        · exact absurd a b
        · exact a
    · simp only [values, List.not_mem_nil, or_false]
      constructor
      · intro a; exact ⟨Or.inl a, by have := hly a; omega⟩
      · rintro ⟨a | a, b⟩
        · exact a
        · exact absurd a b
    · obtain ⟨m', rm', hf', hm, -⟩ := findMin_of_ne_nil r (by rintro rfl; simp [findMin] at hf)
      rw [hf] at hf'
      simp only [Option.some.injEq, TreeNode.node.injEq, true_and] at hf'
      obtain ⟨rfl, rfl⟩ := hf'
      have hxm : v < m := hr m hm
      simp only [values, List.mem_append, List.mem_cons, ihr m r' or_ hr']
      constructor
      · rintro (a | a | ⟨a, -⟩)
        · exact ⟨Or.inl a, by have := hly a; omega⟩
        · exact ⟨Or.inr (Or.inr (a ▸ hm)), by omega⟩
        · exact ⟨Or.inr (Or.inr a), by have := hry a; omega⟩
      · rintro ⟨a | a | a, b⟩
        · exact Or.inl a
        · exact absurd a b
        · by_cases hym : y = m
          · exact Or.inr (Or.inl hym)
          · exact Or.inr (Or.inr ⟨a, hym⟩)

theorem ordered_deleteNode (t : TreeNode) (v : Int) (t' : TreeNode)
    (ho : Ordered t) (h : deleteNode t v = some t') : Ordered t' := by
  induction t generalizing v t' with
  | nil =>
    simp only [deleteNode, Option.some.injEq] at h
    subst h
    trivial
  | node l x r ihl ihr =>
    obtain ⟨hl, hr, ol, or_⟩ := ho
    rcases deleteNode_inv l x r v t' h with
      ⟨h1, l', hl', rfl⟩ | ⟨h1, r', hr', rfl⟩ | ⟨rfl, rfl, rfl⟩ | ⟨rfl, -, rfl, rfl⟩ |
      ⟨rfl, -, -, m, rm, r', hf, hr', rfl⟩
    · refine ⟨?_, hr, ihl v l' ol hl', or_⟩
      intro y hy
      exact hl y ((mem_values_deleteNode l v l' y ol hl').mp hy).1
    · refine ⟨hl, ?_, ol, ihr v r' or_ hr'⟩
      intro y hy
      exact hr y ((mem_values_deleteNode r v r' y or_ hr').mp hy).1
    · exact or_
    · exact ol
    · obtain ⟨m', rm', hf', hm, hmin⟩ :=
        findMin_of_ne_nil r (by rintro rfl; simp [findMin] at hf)
      rw [hf] at hf'
      simp only [Option.some.injEq, TreeNode.node.injEq, true_and] at hf'
      obtain ⟨rfl, rfl⟩ := hf'
      have hxm : v < m := hr m hm
      refine ⟨?_, ?_, ol, ihr m r' or_ hr'⟩
      · intro y hy
        exact lt_trans (hl y hy) hxm
      · intro y hy
        obtain ⟨hyr, hne⟩ := (mem_values_deleteNode r m r' y or_ hr').mp hy
        exact lt_of_le_of_ne (hmin or_ y hyr) (Ne.symm hne)

theorem searchNode_deleteNode (t : TreeNode) (v : Int) (t' : TreeNode)
    (ho : Ordered t) (h : deleteNode t v = some t') : searchNode t' v = false := by
  have ho' := ordered_deleteNode t v t' ho h
  cases hs : searchNode t' v with
  | false => rfl
  | true =>
    have hm := (searchNode_iff_mem t' v ho').mp hs
    exact absurd rfl ((mem_values_deleteNode t v t' v ho h).mp hm).2

theorem sizeHelper_deleteNode (t : TreeNode) (v : Int) (t' : TreeNode)
    (ho : Ordered t) (h : deleteNode t v = some t') :
    sizeHelper t' = if searchNode t v = true then sizeHelper t - 1 else sizeHelper t := by
  induction t generalizing v t' with
  | nil =>
    simp only [deleteNode, Option.some.injEq] at h
    subst h
    simp [searchNode]
  | node l x r ihl ihr =>
    obtain ⟨hl, hr, ol, or_⟩ := ho
    rcases deleteNode_inv l x r v t' h with
      ⟨h1, l', hl', rfl⟩ | ⟨h1, r', hr', rfl⟩ | ⟨rfl, rfl, rfl⟩ | ⟨rfl, -, rfl, rfl⟩ |
      ⟨rfl, -, -, m, rm, r', hf, hr', rfl⟩
    · have hne : v ≠ x := ne_of_lt h1
      simp only [sizeHelper, searchNode, if_neg hne, if_pos h1, ihl v l' ol hl']
      split_ifs <;> ring
    · have hne : v ≠ x := ne_of_gt h1
      have hnlt : ¬ v < x := not_lt.mpr (le_of_lt h1)
      simp only [sizeHelper, searchNode, if_neg hne, if_neg hnlt, ihr v r' or_ hr']
      split_ifs <;> ring
    · simp [sizeHelper, searchNode]
    · simp [sizeHelper, searchNode]
    · obtain ⟨m', rm', hf', hm, -⟩ := findMin_of_ne_nil r (by rintro rfl; simp [findMin] at hf)
      rw [hf] at hf'
      simp only [Option.some.injEq, TreeNode.node.injEq, true_and] at hf'
      obtain ⟨rfl, rfl⟩ := hf'
      have hsr : searchNode r m = true := (searchNode_iff_mem r m or_).mpr hm
      simp only [sizeHelper, searchNode, if_true, ihr m r' or_ hr', hsr]
      ring

theorem insertNode_of_search_true (t : TreeNode) (v : Int) (h : searchNode t v = true) :
    insertNode t v = t := by
  induction t with
  | nil => simp [searchNode] at h
  | node l x r ihl ihr =>
    unfold searchNode at h
    unfold insertNode
    split_ifs at h with h1 h2
    · subst h1
      simp
    · rw [if_pos h2, ihl h]
    · have h3 : v > x := lt_of_le_of_ne (not_lt.mp h2) (Ne.symm h1)
      rw [if_neg h2, if_pos h3, ihr h]

theorem insertNode_of_search_false (t : TreeNode) (v : Int) (h : searchNode t v = false) :
    ∃ p, subtreeAt t p = some .nil ∧ insertNode t v = replaceAt t p (.node .nil v .nil) := by
  induction t with
  | nil => exact ⟨[], rfl, rfl⟩
  | node l x r ihl ihr =>
    unfold searchNode at h
    unfold insertNode
    split_ifs at h with h1 h2
    · obtain ⟨p, hp, he⟩ := ihl h
      exact ⟨Dir.L :: p, by simpa [subtreeAt] using hp, by rw [if_pos h2, he]; rfl⟩
    · have h3 : v > x := lt_of_le_of_ne (not_lt.mp h2) (Ne.symm h1)
      obtain ⟨p, hp, he⟩ := ihr h
      exact ⟨Dir.R :: p, by simpa [subtreeAt] using hp, by rw [if_neg h2, if_pos h3, he]; rfl⟩

theorem sizeHelper_insertNode (t : TreeNode) (v : Int) :
    sizeHelper (insertNode t v) = if searchNode t v = true then sizeHelper t else sizeHelper t + 1 := by
  induction t with
  | nil => simp [insertNode, searchNode, sizeHelper]
  | node l x r ihl ihr =>
    unfold insertNode searchNode
    by_cases h1 : v = x
    · subst h1
      simp
    · by_cases h2 : v < x
      · simp only [if_neg h1, if_pos h2, sizeHelper, ihl]
        split_ifs <;> ring
      · have h3 : v > x := lt_of_le_of_ne (not_lt.mp h2) (Ne.symm h1)
        simp only [if_neg h1, if_neg h2, if_pos h3, sizeHelper, ihr]
        split_ifs <;> ring

theorem deleteNode_of_search_false (t : TreeNode) (v : Int) (h : searchNode t v = false) :
    deleteNode t v = some t := by
  induction t with
  | nil => rfl
  | node l x r ihl ihr =>
    unfold searchNode at h
    unfold deleteNode
    split_ifs at h with h1 h2
    · rw [if_pos h2, ihl h]; rfl
    · have h3 : v > x := lt_of_le_of_ne (not_lt.mp h2) (Ne.symm h1)
      rw [if_neg h2, if_pos h3, ihr h]; rfl

theorem mem_values_of_subtreeAt (t : TreeNode) (p : List Dir) (s : TreeNode)
    (h : subtreeAt t p = some s) : ∀ y ∈ values s, y ∈ values t := by
  induction p generalizing t with
  | nil =>
    simp only [subtreeAt, Option.some.injEq] at h
    subst h
    exact fun y hy => hy
  | cons d p ih =>
    cases t with
    | nil => simp [subtreeAt] at h
    | node l x r =>
      intro y hy
      simp only [values, List.mem_append, List.mem_cons]
      cases d with
      | L => exact Or.inl (ih l (by simpa [subtreeAt] using h) y hy)
      | R => exact Or.inr (Or.inr (ih r (by simpa [subtreeAt] using h) y hy))

theorem deleteNode_at_path (t : TreeNode) (p : List Dir) (l : TreeNode) (v : Int)
    (r s : TreeNode) (ho : Ordered t) (hp : subtreeAt t p = some (.node l v r))
    (hs : deleteNode (.node l v r) v = some s) :
    deleteNode t v = some (replaceAt t p s) := by
  induction p generalizing t with
  | nil =>
    simp only [subtreeAt, Option.some.injEq] at hp
    subst hp
    simpa [replaceAt] using hs
  | cons d p ih =>
    cases t with
    | nil => simp [subtreeAt] at hp
    | node tl x tr =>
      obtain ⟨hl, hr, ol, or_⟩ := ho
      have hv : v ∈ values (.node l v r) := by simp [values]
      cases d with
      | L =>
        have hp' : subtreeAt tl p = some (.node l v r) := by simpa [subtreeAt] using hp
        have h1 : v < x := hl v (mem_values_of_subtreeAt tl p _ hp' v hv)
        unfold deleteNode
        rw [if_pos h1, ih tl ol hp']
        rfl
      | R =>
        have hp' : subtreeAt tr p = some (.node l v r) := by simpa [subtreeAt] using hp
        have h1 : x < v := hr v (mem_values_of_subtreeAt tr p _ hp' v hv)
        unfold deleteNode
        rw [if_neg (not_lt.mpr (le_of_lt h1)), if_pos h1, ih tr or_ hp']
        rfl

theorem ordered_of_reachable (bst : BinarySearchTree) (h : Reachable bst) :
    Ordered bst.Root := by
  induction h with
  | new => trivial
  | insert v _ ih => exact ordered_insertNode _ v ih
  | @delete b b' v _ hd ih =>
    obtain ⟨root, hroot, rfl⟩ := Option.map_eq_some'.mp hd
    exact ordered_deleteNode b.Root v root ih hroot

/-! ## Facts about height, balance and size -/

theorem float64_of_small (n : Int) (h : n.natAbs < 2 ^ 53) : float64 n = n := by
  unfold float64
  simp only [h, if_true]

theorem log2_two_pow_53_add_1 : Nat.log2 9007199254740993 = 53 := by norm_num [Nat.log2]

theorem log2_two_pow_53_add_3 : Nat.log2 9007199254740995 = 53 := by norm_num [Nat.log2]

theorem log2_max_int : Nat.log2 9223372036854775807 = 62 := by norm_num [Nat.log2]

/-- Above `2^53` the conversion really rounds: `2^53 + 1` goes down to `2^53`,
`2^53 + 3` goes up to `2^53 + 4`, and the largest `int` becomes `2^63`. -/
theorem float64_rounds_above :
    float64 9007199254740993 = 9007199254740992 ∧
    float64 9007199254740995 = 9007199254740996 ∧
    float64 (-9007199254740993) = -9007199254740992 ∧
    float64 9223372036854775807 = 9223372036854775808 := by
  refine ⟨?_, ?_, ?_, ?_⟩
  · have hs : Int.sign 9007199254740993 = 1 := Int.sign_eq_one_of_pos (by norm_num)
    have hn : Int.natAbs 9007199254740993 = 9007199254740993 := rfl
    simp only [float64, hn, log2_two_pow_53_add_1, hs]
    norm_num
  · have hs : Int.sign 9007199254740995 = 1 := Int.sign_eq_one_of_pos (by norm_num)
    have hn : Int.natAbs 9007199254740995 = 9007199254740995 := rfl
    simp only [float64, hn, log2_two_pow_53_add_3, hs]
    norm_num
  · have hs : Int.sign (-9007199254740993) = -1 := Int.sign_eq_neg_one_of_neg (by norm_num)
    have hn : Int.natAbs (-9007199254740993) = 9007199254740993 := rfl
    simp only [float64, hn, log2_two_pow_53_add_1, hs]
    norm_num
  · have hs : Int.sign 9223372036854775807 = 1 := Int.sign_eq_one_of_pos (by norm_num)
    have hn : Int.natAbs 9223372036854775807 = 9223372036854775807 := rfl
    simp only [float64, hn, log2_max_int, hs]
    norm_num

theorem sizeHelper_nonneg (t : TreeNode) : 0 ≤ sizeHelper t := by
  induction t with
  | nil => simp [sizeHelper]
  | node l x r ihl ihr => simp only [sizeHelper]; omega

theorem heightRef_bounds (t : TreeNode) : -1 ≤ heightRef t ∧ heightRef t < sizeHelper t := by
  induction t with
  | nil => simp [heightRef, sizeHelper]
  | node l x r ihl ihr =>
    have := sizeHelper_nonneg l
    have := sizeHelper_nonneg r
    simp only [heightRef, sizeHelper]
    omega

theorem heightHelper_eq_heightRef (t : TreeNode) (h : sizeHelper t < 2 ^ 53) :
    heightHelper t = heightRef t := by
  induction t with
  | nil => rfl
  | node l x r ihl ihr =>
    have hl0 := sizeHelper_nonneg l
    have hr0 := sizeHelper_nonneg r
    have hlb := heightRef_bounds l
    have hrb := heightRef_bounds r
    simp only [sizeHelper] at h
    have el := ihl (by omega)
    have er := ihr (by omega)
    simp only [heightHelper, heightRef, intOfFloat64, mathMax, el, er]
    rw [float64_of_small (heightRef l) (by omega), float64_of_small (heightRef r) (by omega)]

theorem isBalancedHelper_eq (t : TreeNode) (h : sizeHelper t < 2 ^ 53) :
    isBalancedHelper t = if Balanced t then heightRef t + 1 else -1 := by
  induction t with
  | nil => simp [isBalancedHelper, Balanced, heightRef]
  | node l x r ihl ihr =>
    have hl0 := sizeHelper_nonneg l
    have hr0 := sizeHelper_nonneg r
    have hlb := heightRef_bounds l
    have hrb := heightRef_bounds r
    simp only [sizeHelper] at h
    have el := ihl (by omega)
    have er := ihr (by omega)
    have hl := heightHelper_eq_heightRef l (by omega)
    have hr := heightHelper_eq_heightRef r (by omega)
    simp only [isBalancedHelper, Balanced, heightRef, intOfFloat64, mathMax, mathAbs, hl, hr]
    by_cases bl : Balanced l
    · by_cases br : Balanced r
      · rw [el, er, if_pos bl, if_pos br]
        rw [float64_of_small (heightRef l + 1 - (heightRef r + 1)) (by omega),
          float64_of_small (heightRef l + 1) (by omega),
          float64_of_small (heightRef r + 1) (by omega)]
        have e1 : heightRef l + 1 - (heightRef r + 1) = heightRef l - heightRef r := by ring
        rw [e1, if_neg (by omega), if_neg (by omega)]
        by_cases hd : |heightRef l - heightRef r| ≤ 1
        · rw [if_neg (not_lt.mpr hd), if_pos ⟨hd, bl, br⟩]
          rcases le_total (heightRef l) (heightRef r) with hle | hle
          · rw [max_eq_right hle, max_eq_right (by omega)]; ring
          · rw [max_eq_left hle, max_eq_left (by omega)]; ring
        · rw [if_pos (not_le.mp hd), if_neg (fun hb => hd hb.1)]
      · rw [el, er, if_pos bl, if_neg br]
        rw [if_neg (by omega), if_pos rfl, if_neg (fun hb => br hb.2.2)]
    · rw [el, if_neg bl, if_pos rfl, if_neg (fun hb => bl hb.2.1)]

theorem ordered_of_subtreeAt (t : TreeNode) (p : List Dir) (s : TreeNode)
    (ho : Ordered t) (h : subtreeAt t p = some s) : Ordered s := by
  induction p generalizing t with
  | nil =>
    simp only [subtreeAt, Option.some.injEq] at h
    subst h
    exact ho
  | cons d p ih =>
    cases t with
    | nil => simp [subtreeAt] at h
    | node l x r =>
      obtain ⟨-, -, ol, or_⟩ := ho
      cases d with
      | L => exact ih l ol (by simpa [subtreeAt] using h)
      | R => exact ih r or_ (by simpa [subtreeAt] using h)

/-! ## The claims -/

/-- C1: after inserting the elements of any finite sequence `xs` one by one into
the empty tree, `InorderTraversal` is strictly ascending, holds exactly the
values of `xs`, and so is the sorted list of the distinct values of `xs`. -/
theorem inorder_insertAll_sorted_distinct (xs : List Int) :
    List.Sorted (· < ·) (insertAll NewBinarySearchTree xs).InorderTraversal ∧
    (∀ v, v ∈ (insertAll NewBinarySearchTree xs).InorderTraversal ↔ v ∈ xs) ∧
    (insertAll NewBinarySearchTree xs).InorderTraversal = xs.toFinset.sort (· ≤ ·) := by
  have ho : Ordered (insertAll NewBinarySearchTree xs).Root :=
    ordered_insertAll xs NewBinarySearchTree trivial
  have he : (insertAll NewBinarySearchTree xs).InorderTraversal
      = values (insertAll NewBinarySearchTree xs).Root := by
    simp [BinarySearchTree.InorderTraversal, inorderHelper_eq]
  have hs := sorted_values_of_ordered _ ho
  have hm : ∀ v, v ∈ values (insertAll NewBinarySearchTree xs).Root ↔ v ∈ xs := by
    intro v
    rw [mem_values_insertAll]
    simp [NewBinarySearchTree, values]
  rw [he]
  refine ⟨hs, hm, ?_⟩
  have hfin : (values (insertAll NewBinarySearchTree xs).Root).toFinset = xs.toFinset := by
    ext v
    simp [hm v]
  rw [← hfin]
  exact ((List.toFinset_sort (· ≤ ·) hs.nodup).mpr hs.le_of_lt).symm

/-- C2: the ordering invariant holds for the empty tree, is preserved by
`Insert v` and by `Delete v` (which always returns) for every `v`, and so holds
for every tree reachable from `NewBinarySearchTree` by `Insert` and `Delete`. -/
theorem ordered_invariant :
    Ordered NewBinarySearchTree.Root ∧
    (∀ (bst : BinarySearchTree) (v : Int), Ordered bst.Root → Ordered (bst.Insert v).Root) ∧
    (∀ (bst : BinarySearchTree) (v : Int), Ordered bst.Root →
      ∃ bst', bst.Delete v = some bst' ∧ Ordered bst'.Root) ∧
    (∀ bst : BinarySearchTree, Reachable bst → Ordered bst.Root) := by
  refine ⟨trivial, fun bst v h => ordered_insertNode bst.Root v h, ?_, ordered_of_reachable⟩
  intro bst v h
  obtain ⟨t', ht'⟩ := deleteNode_isSome bst.Root v
  exact ⟨{ Root := t' }, by simp [BinarySearchTree.Delete, ht'],
    ordered_deleteNode bst.Root v t' h ht'⟩

/-- C2, at the test tree: inserting 65 keeps it ordered, and deleting the root
value 50 (a node with two children) returns an ordered tree. -/
theorem ordered_invariant_witness :
    Ordered sampleTree.Root ∧ Ordered (sampleTree.Insert 65).Root ∧
    ∃ bst', sampleTree.Delete 50 = some bst' ∧ Ordered bst'.Root :=
  ⟨by decide, ordered_invariant.2.1 sampleTree 65 (by decide),
    ordered_invariant.2.2.1 sampleTree 50 (by decide)⟩

/-- C3: after inserting the elements of `xs` into the empty tree, `Search v` is
true exactly when `v` occurs in `xs`; on the empty tree `Search v` is false. -/
theorem search_insertAll_iff (xs : List Int) (v : Int) :
    ((insertAll NewBinarySearchTree xs).Search v = true ↔ v ∈ xs) ∧
    NewBinarySearchTree.Search v = false := by
  refine ⟨?_, rfl⟩
  have ho : Ordered (insertAll NewBinarySearchTree xs).Root :=
    ordered_insertAll xs NewBinarySearchTree trivial
  rw [BinarySearchTree.Search, searchNode_iff_mem _ v ho, mem_values_insertAll]
  simp [NewBinarySearchTree, values]

/-- C4: on an ordered tree `Delete v` returns, and afterwards `Search v` is
false, wherever `v` was stored. -/
theorem search_after_delete (bst : BinarySearchTree) (v : Int) (ho : Ordered bst.Root) :
    ∃ bst', bst.Delete v = some bst' ∧ bst'.Search v = false := by
  obtain ⟨t', ht'⟩ := deleteNode_isSome bst.Root v
  exact ⟨{ Root := t' }, by simp [BinarySearchTree.Delete, ht'],
    searchNode_deleteNode bst.Root v t' ho ht'⟩

/-- C4, at the test tree: 30 sits in a node with two children, and is not found
after `Delete 30`. -/
theorem search_after_delete_witness :
    Ordered sampleTree.Root ∧ sampleTree.Search 30 = true ∧
    ∃ bst', sampleTree.Delete 30 = some bst' ∧ bst'.Search 30 = false :=
  ⟨by decide, by decide, search_after_delete sampleTree 30 (by decide)⟩

/-- C5: on an ordered tree `Delete v` returns, and `Size` afterwards is `Size`
before minus one when `Search v` was true and equal to it when `Search v` was
false. -/
theorem size_after_delete (bst : BinarySearchTree) (v : Int) (ho : Ordered bst.Root) :
    ∃ bst', bst.Delete v = some bst' ∧
      (bst.Search v = true → bst'.Size = bst.Size - 1) ∧
      (bst.Search v = false → bst'.Size = bst.Size) := by
  obtain ⟨t', ht'⟩ := deleteNode_isSome bst.Root v
  have hsz := sizeHelper_deleteNode bst.Root v t' ho ht'
  refine ⟨{ Root := t' }, by simp [BinarySearchTree.Delete, ht'], ?_, ?_⟩
  · intro hs
    simp only [BinarySearchTree.Search] at hs
    simpa [BinarySearchTree.Size, hs] using hsz
  · intro hs
    simp only [BinarySearchTree.Search] at hs
    simpa [BinarySearchTree.Size, hs] using hsz

/-- C5, at the test tree: 70 is stored, so deleting it takes the size from 7 to
6. -/
theorem size_after_delete_witness :
    Ordered sampleTree.Root ∧ sampleTree.Size = 7 ∧
    ∃ bst', sampleTree.Delete 70 = some bst' ∧
      (sampleTree.Search 70 = true → bst'.Size = sampleTree.Size - 1) ∧
      (sampleTree.Search 70 = false → bst'.Size = sampleTree.Size) :=
  ⟨by decide, by decide, size_after_delete sampleTree 70 (by decide)⟩

/-- C6: when `Search v` is true, `Insert v` returns the very same tree; when
`Search v` is false, `Insert v` replaces exactly one nil position by a leaf
holding `v`, everything else kept, and `Size` grows by exactly one. -/
theorem insert_effect (bst : BinarySearchTree) (v : Int) :
    (bst.Search v = true → bst.Insert v = bst ∧ (bst.Insert v).Size = bst.Size) ∧
    (bst.Search v = false →
      (∃ p, subtreeAt bst.Root p = some .nil ∧
        (bst.Insert v).Root = replaceAt bst.Root p (.node .nil v .nil)) ∧
      (bst.Insert v).Size = bst.Size + 1) := by
  constructor
  · intro hs
    have he : bst.Insert v = bst := by
      simp only [BinarySearchTree.Search] at hs
      simp [BinarySearchTree.Insert, insertNode_of_search_true bst.Root v hs]
    exact ⟨he, by rw [he]⟩
  · intro hs
    simp only [BinarySearchTree.Search] at hs
    refine ⟨insertNode_of_search_false bst.Root v hs, ?_⟩
    simp [BinarySearchTree.Size, BinarySearchTree.Insert, sizeHelper_insertNode, hs]

/-- C6, at the test tree: 50 is stored and inserting it again changes nothing;
65 is not stored and inserting it adds one node. -/
theorem insert_effect_witness :
    (sampleTree.Search 50 = true ∧ sampleTree.Insert 50 = sampleTree) ∧
    (sampleTree.Search 65 = false ∧ (sampleTree.Insert 65).Size = sampleTree.Size + 1) :=
  ⟨⟨by decide, ((insert_effect sampleTree 50).1 (by decide)).1⟩,
    ⟨by decide, ((insert_effect sampleTree 65).2 (by decide)).2⟩⟩

/-- C7: when `Search v` is false, `Delete v` returns the very same tree; on the
empty tree `Delete v` returns the empty tree. -/
theorem delete_absent_noop (bst : BinarySearchTree) (v : Int) (hs : bst.Search v = false) :
    bst.Delete v = some bst ∧ NewBinarySearchTree.Delete v = some NewBinarySearchTree := by
  simp only [BinarySearchTree.Search] at hs
  exact ⟨by simp [BinarySearchTree.Delete, deleteNode_of_search_false bst.Root v hs], rfl⟩

/-- C7, at the test tree: 999 is not stored and deleting it changes nothing. -/
theorem delete_absent_noop_witness :
    sampleTree.Search 999 = false ∧ sampleTree.Delete 999 = some sampleTree :=
  ⟨by decide, (delete_absent_noop sampleTree 999 (by decide)).1⟩

/-- C8: in an ordered tree, let the node at path `p` hold `v`.  If both its
children are present, `Delete v` keeps the node at `p`, keeps its left subtree,
stores the value of `findMin` of its right subtree (the minimum of that
subtree), and its right subtree becomes the old one with that value deleted.
If its left child is nil the node is replaced by its right subtree, and if its
right child is nil by its left subtree.  The rest of the tree is unchanged. -/
theorem delete_at_found_node (bst : BinarySearchTree) (p : List Dir) (l : TreeNode)
    (v : Int) (r : TreeNode) (ho : Ordered bst.Root)
    (hp : subtreeAt bst.Root p = some (.node l v r)) :
    (l ≠ .nil → r ≠ .nil →
      ∃ minNode m r', findMin r = some minNode ∧ minNode.Value? = some m ∧
        m ∈ values r ∧ (∀ y ∈ values r, m ≤ y) ∧ deleteNode r m = some r' ∧
        bst.Delete v = some { Root := replaceAt bst.Root p (.node l m r') }) ∧
    (l = .nil → bst.Delete v = some { Root := replaceAt bst.Root p r }) ∧
    (r = .nil → bst.Delete v = some { Root := replaceAt bst.Root p l }) := by
  have hsub : Ordered (.node l v r) := ordered_of_subtreeAt bst.Root p _ ho hp
  have key : ∀ s, deleteNode (.node l v r) v = some s →
      bst.Delete v = some { Root := replaceAt bst.Root p s } := by
    intro s hs
    simp [BinarySearchTree.Delete, deleteNode_at_path bst.Root p l v r s ho hp hs]
  refine ⟨?_, ?_, ?_⟩
  · intro hl hr
    obtain ⟨m, rm, hf, hm, hmin⟩ := findMin_of_ne_nil r hr
    obtain ⟨r', hr'⟩ := deleteNode_isSome r m
    refine ⟨.node .nil m rm, m, r', hf, rfl, hm, hmin hsub.2.2.2, hr', key _ ?_⟩
    unfold deleteNode
    simp [hl, hr, hf, TreeNode.Value?, hr']
  · intro hl
    apply key
    unfold deleteNode
    simp [hl]
  · intro hr
    apply key
    unfold deleteNode
    by_cases hl : l = .nil
    · simp [hl, hr]
    · simp [hl, hr]

/-- C8, at the test tree: the node at the left child of the root holds 30 and
has the children 20 and 40; `Delete 30` keeps it in place with the value 40. -/
theorem delete_at_found_node_witness :
    Ordered sampleTree.Root ∧
    subtreeAt sampleTree.Root [Dir.L] = some (.node (.node .nil 20 .nil) 30 (.node .nil 40 .nil)) ∧
    ∃ minNode m r', findMin (.node .nil 40 .nil) = some minNode ∧ minNode.Value? = some m ∧
      m ∈ values (.node .nil 40 .nil) ∧ (∀ y ∈ values (.node .nil 40 .nil), m ≤ y) ∧
      deleteNode (.node .nil 40 .nil) m = some r' ∧
      sampleTree.Delete 30 =
        some { Root := replaceAt sampleTree.Root [Dir.L] (.node (.node .nil 20 .nil) m r') } :=
  ⟨by decide, by decide,
    (delete_at_found_node sampleTree [Dir.L] (.node .nil 20 .nil) 30 (.node .nil 40 .nil)
      (by decide) (by decide)).1 (by decide) (by decide)⟩

/-- C9: for every tree of fewer than `2^53` nodes (the range in which `float64`
holds every height exactly), `Height` equals the reference height: -1 for the
empty tree, 0 for a single node, else one more than the larger subtree height. -/
theorem height_eq_reference (bst : BinarySearchTree) (hsize : bst.Size < 2 ^ 53) :
    bst.Height = heightRef bst.Root ∧
    NewBinarySearchTree.Height = -1 ∧
    (∀ x : Int, (NewBinarySearchTree.Insert x).Height = 0) := by
  refine ⟨heightHelper_eq_heightRef bst.Root hsize, by decide, ?_⟩
  intro x
  simp only [BinarySearchTree.Height, BinarySearchTree.Insert, NewBinarySearchTree, insertNode,
    heightHelper, intOfFloat64, mathMax]
  rw [float64_of_small (-1) (by decide)]
  simp

/-- C9, at the test trees: the balanced tree of 7 nodes has height 2 and the
skewed tree of 5 nodes has height 4. -/
theorem height_eq_reference_witness :
    sampleTree.Size < 2 ^ 53 ∧ sampleTree.Height = heightRef sampleTree.Root ∧
    sampleTree.Height = 2 ∧ skewedTree.Height = 4 :=
  ⟨by decide, (height_eq_reference sampleTree (by decide)).1, by decide, by decide⟩

/-- C10: for every tree of fewer than `2^53` nodes, `IsBalanced` is true exactly
when at every node the heights of the two subtrees differ by at most 1; on a
balanced tree `isBalancedHelper` returns `Height + 1`, which is not negative,
and it returns the sentinel -1 only on an unbalanced tree.  `IsBalanced` is true
for the tree built from 50, 30, 70, 20, 40, 60, 80 and false for the tree built
from 1, 2, 3, 4, 5. -/
theorem isBalanced_iff_balanced (bst : BinarySearchTree) (hsize : bst.Size < 2 ^ 53) :
    (bst.IsBalanced = true ↔ Balanced bst.Root) ∧
    (Balanced bst.Root →
      isBalancedHelper bst.Root = bst.Height + 1 ∧ 0 ≤ isBalancedHelper bst.Root) ∧
    (isBalancedHelper bst.Root = -1 ↔ ¬ Balanced bst.Root) ∧
    (insertAll NewBinarySearchTree [50, 30, 70, 20, 40, 60, 80]).IsBalanced = true ∧
    (insertAll NewBinarySearchTree [1, 2, 3, 4, 5]).IsBalanced = false := by
  have hb := isBalancedHelper_eq bst.Root hsize
  have hh := heightHelper_eq_heightRef bst.Root hsize
  have hbd := heightRef_bounds bst.Root
  refine ⟨?_, ?_, ?_, by decide, by decide⟩
  · simp only [BinarySearchTree.IsBalanced, bne_iff_ne, ne_eq]
    by_cases hbal : Balanced bst.Root
    · rw [hb, if_pos hbal]
      exact ⟨fun _ => hbal, fun _ => by omega⟩
    · rw [hb, if_neg hbal]
      exact ⟨fun h => absurd rfl h, fun h => absurd h hbal⟩
  · intro hbal
    rw [hb, if_pos hbal, BinarySearchTree.Height, hh]
    exact ⟨rfl, by omega⟩
  · by_cases hbal : Balanced bst.Root
    · rw [hb, if_pos hbal]
      exact ⟨fun h => by omega, fun h => absurd hbal h⟩
    · rw [hb, if_neg hbal]
      exact ⟨fun _ => hbal, fun _ => rfl⟩

/-- C10, at the test trees: the tree of 7 nodes is balanced and `IsBalanced`
says so; the skewed tree is not balanced. -/
theorem isBalanced_iff_balanced_witness :
    sampleTree.Size < 2 ^ 53 ∧ (sampleTree.IsBalanced = true ↔ Balanced sampleTree.Root) ∧
    Balanced sampleTree.Root ∧ ¬ Balanced skewedTree.Root :=
  ⟨by decide, (isBalanced_iff_balanced sampleTree (by decide)).1, by decide, by decide⟩

/-! ## Loops and slices: basic facts -/

/-- The loop rule: an invariant kept by the body, with a measure the body
decreases and more fuel than the measure, holds when the loop ends, and then the
condition is false. -/
theorem whileLoop_rule {σ : Type} (cond : σ → Bool) (body : σ → Option σ)
    (Inv : σ → Prop) (μ : σ → Nat)
    (hstep : ∀ s, Inv s → cond s = true → ∃ s', body s = some s' ∧ Inv s' ∧ μ s' < μ s)
    (fuel : Nat) (s : σ) (hinv : Inv s) (hfuel : μ s < fuel) :
    ∃ s', whileLoop cond body fuel s = some s' ∧ Inv s' ∧ cond s' = false := by
  induction fuel generalizing s with
  | zero => omega
  | succ fuel ih =>
    unfold whileLoop
    by_cases hc : cond s = true
    · obtain ⟨s1, hb, hi1, hm1⟩ := hstep s hinv hc
      obtain ⟨s2, hl, hi2, hc2⟩ := ih s1 hi1 (by omega)
      exact ⟨s2, by simp [hc, hb, hl], hi2, hc2⟩
    · exact ⟨s, by simp [hc], hinv, by simpa using hc⟩

theorem sliceGet_of_lt (a : List Int) (i : Int) (h0 : 0 ≤ i) (h1 : i < a.length) :
    sliceGet a i = some (elem a i) := by
  have hlt : i.toNat < a.length := by omega
  simp [sliceGet, elem, h0, List.getD_eq_getElem _ _ hlt, List.getElem?_eq_getElem hlt]

theorem sliceSet_of_lt (a : List Int) (i v : Int) (h0 : 0 ≤ i) (h1 : i < a.length) :
    sliceSet a i v = some (a.set i.toNat v) := by
  simp [sliceSet, h0, h1]

theorem elem_eq_getElem (a : List Int) (i : Int) (h : i.toNat < a.length) :
    elem a i = a[i.toNat] := by
  unfold elem
  exact List.getD_eq_getElem _ _ h

theorem elem_natCast (a : List Int) (k : Nat) (h : k < a.length) : elem a (k : Int) = a[k] := by
  unfold elem
  exact List.getD_eq_getElem _ _ h

theorem elem_set (a : List Int) (i v k : Int) (h0 : 0 ≤ i) (h1 : i < a.length) (hk : 0 ≤ k) :
    elem (a.set i.toNat v) k = if k = i then v else elem a k := by
  by_cases hki : k = i
  · subst hki
    have hlt : k.toNat < (a.set k.toNat v).length := by simp; omega
    rw [elem_eq_getElem _ _ hlt]
    simp
  · have hne : i.toNat ≠ k.toNat := by omega
    unfold elem
    simp [hki, List.getD_eq_getElem?_getD, List.getElem?_set_ne hne]

theorem sliceSwap_of_lt (a : List Int) (i j : Int) (hi0 : 0 ≤ i) (hi1 : i < a.length)
    (hj0 : 0 ≤ j) (hj1 : j < a.length) : sliceSwap a i j = some (swapElems a i j) := by
  unfold sliceSwap swapElems
  rw [sliceGet_of_lt a j hj0 hj1, sliceGet_of_lt a i hi0 hi1]
  simp only [Option.some_bind]
  rw [sliceSet_of_lt a i _ hi0 hi1]
  simp only [Option.some_bind]
  rw [sliceSet_of_lt _ j _ hj0 (by simpa using hj1)]

theorem length_swapElems (a : List Int) (i j : Int) : (swapElems a i j).length = a.length := by
  simp [swapElems]

theorem elem_swapElems (a : List Int) (i j k : Int) (hi0 : 0 ≤ i) (hi1 : i < a.length)
    (hj0 : 0 ≤ j) (hj1 : j < a.length) (hk : 0 ≤ k) :
    elem (swapElems a i j) k =
      if k = j then elem a i else if k = i then elem a j else elem a k := by
  unfold swapElems
  rw [elem_set _ j _ k hj0 (by simpa using hj1) hk]
  by_cases hkj : k = j
  · simp [hkj]
  · rw [if_neg hkj, if_neg hkj, elem_set a i _ k hi0 hi1 hk]

theorem elem_swapElems_left (a : List Int) (i j : Int) (hi0 : 0 ≤ i) (hi1 : i < a.length)
    (hj0 : 0 ≤ j) (hj1 : j < a.length) : elem (swapElems a i j) i = elem a j := by
  rw [elem_swapElems a i j i hi0 hi1 hj0 hj1 hi0]
  by_cases h : i = j
  · rw [if_pos h, h]
  · rw [if_neg h, if_pos rfl]

theorem elem_swapElems_right (a : List Int) (i j : Int) (hi0 : 0 ≤ i) (hi1 : i < a.length)
    (hj0 : 0 ≤ j) (hj1 : j < a.length) : elem (swapElems a i j) j = elem a i := by
  rw [elem_swapElems a i j j hi0 hi1 hj0 hj1 hj0, if_pos rfl]

theorem elem_swapElems_other (a : List Int) (i j k : Int) (hi0 : 0 ≤ i) (hi1 : i < a.length)
    (hj0 : 0 ≤ j) (hj1 : j < a.length) (hk : 0 ≤ k) (hki : k ≠ i) (hkj : k ≠ j) :
    elem (swapElems a i j) k = elem a k := by
  rw [elem_swapElems a i j k hi0 hi1 hj0 hj1 hk, if_neg hkj, if_neg hki]

theorem swapElems_perm (a : List Int) (i j : Int) (hi0 : 0 ≤ i) (hi1 : i < a.length)
    (_hj0 : 0 ≤ j) (hj1 : j < a.length) : (swapElems a i j).Perm a := by
  have hi : i.toNat < a.length := by omega
  have hj : j.toNat < a.length := by omega
  have ei : elem a i = a[i.toNat] := elem_eq_getElem a i hi
  have ej : elem a j = a[j.toNat] := elem_eq_getElem a j hj
  rw [List.perm_iff_count]
  intro b
  unfold swapElems
  rw [List.count_set _ _ _ _ (by simpa using hj), List.count_set _ _ _ _ hi, ei, ej]
  have hci : (if a[i.toNat] == b then 1 else 0) ≤ a.count b := by
    by_cases h : a[i.toNat] == b
    · simp only [h, if_true]
      have : a[i.toNat] = b := by simpa using h
      exact List.count_pos_iff.mpr (this ▸ List.getElem_mem hi)
    · simp [h]
  by_cases hij : i.toNat = j.toNat
  · have : a[i.toNat] = a[j.toNat] := by simp [hij]
    simp only [List.getElem_set, hij, if_true, this] at hci ⊢
    split_ifs at hci ⊢ <;> omega
  · simp only [List.getElem_set, hij, if_false]
    split_ifs at hci ⊢ <;> omega

theorem sorted_of_sortedOn (a : List Int) (h : SortedOn a 0 a.length) :
    List.Sorted (· ≤ ·) a := by
  unfold List.Sorted
  rw [List.pairwise_iff_getElem]
  intro i j hi hj hij
  have := h (i : Int) (j : Int) (by omega) (by omega) (by omega)
  rwa [elem_natCast a i hi, elem_natCast a j hj] at this

theorem sortedOn_of_sorted (a : List Int) (h : List.Sorted (· ≤ ·) a) :
    SortedOn a 0 a.length := by
  intro p q hp hpq hq
  have hp' : p.toNat < a.length := by omega
  have hq' : q.toNat < a.length := by omega
  rw [elem_eq_getElem a p hp', elem_eq_getElem a q hq']
  rcases Nat.lt_or_ge p.toNat q.toNat with hlt | hge
  · exact (List.pairwise_iff_getElem.mp h) _ _ hp' hq' hlt
  · have : p.toNat = q.toNat := by omega
    simp [this]

theorem split_segment (a : List Int) (lo hi : Int) (hlh : lo ≤ hi) :
    a = a.take lo.toNat ++ segment a lo hi ++ a.drop hi.toNat := by
  unfold segment
  have h : lo.toNat ≤ hi.toNat := by omega
  conv_lhs => rw [← List.take_append_drop hi.toNat a]
  congr 1
  conv_lhs => rw [← List.take_append_drop lo.toNat (a.take hi.toNat)]
  rw [List.take_take, min_eq_left h]

theorem length_segment (a : List Int) (lo hi : Int) (h0 : 0 ≤ lo) (hlh : lo ≤ hi)
    (h1 : hi ≤ a.length) : ((segment a lo hi).length : Int) = hi - lo := by
  unfold segment
  simp only [List.length_drop, List.length_take]
  omega

theorem elem_segment (a : List Int) (lo hi k : Int) (h0 : 0 ≤ lo) (h1 : hi ≤ a.length)
    (hk0 : 0 ≤ k) (hk1 : k < hi - lo) : elem (segment a lo hi) k = elem a (lo + k) := by
  have hl : k.toNat < (segment a lo hi).length := by
    have := length_segment a lo hi h0 (by omega) h1
    omega
  have hl2 : (lo + k).toNat < a.length := by omega
  rw [elem_eq_getElem _ _ hl, elem_eq_getElem _ _ hl2]
  unfold segment
  simp only [List.getElem_drop, List.getElem_take]
  congr 1
  omega

theorem mem_segment_iff (a : List Int) (lo hi : Int) (h0 : 0 ≤ lo) (hlh : lo ≤ hi)
    (h1 : hi ≤ a.length) (x : Int) :
    x ∈ segment a lo hi ↔ ∃ p, lo ≤ p ∧ p < hi ∧ elem a p = x := by
  have hlen := length_segment a lo hi h0 hlh h1
  constructor
  · intro hx
    obtain ⟨n, hn, rfl⟩ := List.mem_iff_getElem.mp hx
    refine ⟨lo + n, by omega, by omega, ?_⟩
    rw [← elem_segment a lo hi n h0 h1 (by omega) (by omega), elem_natCast _ _ hn]
  · rintro ⟨p, hp0, hp1, rfl⟩
    have hl : (p - lo).toNat < (segment a lo hi).length := by omega
    have := elem_segment a lo hi (p - lo) h0 h1 (by omega) (by omega)
    rw [show lo + (p - lo) = p by ring] at this
    rw [← this, elem_eq_getElem _ _ hl]
    exact List.getElem_mem _

theorem segment_perm (a a' : List Int) (lo hi : Int) (h0 : 0 ≤ lo) (hlh : lo ≤ hi)
    (h1 : hi ≤ a.length) (hlen : a'.length = a.length) (hperm : a'.Perm a)
    (hout : ∀ p, 0 ≤ p → p < a.length → (p < lo ∨ hi ≤ p) → elem a' p = elem a p) :
    (segment a' lo hi).Perm (segment a lo hi) := by
  have ht : a'.take lo.toNat = a.take lo.toNat := by
    apply List.ext_getElem
    · simp [hlen]
    · intro n hn1 hn2
      simp only [List.length_take] at hn1 hn2
      simp only [List.getElem_take]
      have := hout n (by omega) (by omega) (Or.inl (by omega))
      rwa [elem_natCast a' n (by omega), elem_natCast a n (by omega)] at this
  have hd : a'.drop hi.toNat = a.drop hi.toNat := by
    apply List.ext_getElem
    · simp [hlen]
    · intro n hn1 hn2
      simp only [List.length_drop] at hn1 hn2
      simp only [List.getElem_drop]
      have := hout (hi.toNat + n : Nat) (by omega) (by omega) (Or.inr (by omega))
      rwa [elem_natCast a' _ (by omega), elem_natCast a _ (by omega)] at this
  have e1 := split_segment a lo hi hlh
  have e2 := split_segment a' lo hi hlh
  rw [e1, e2, ht, hd] at hperm
  exact (List.perm_append_left_iff _).mp ((List.perm_append_right_iff _).mp hperm)

theorem range_transfer (a a' : List Int) (lo hi : Int) (h0 : 0 ≤ lo) (hlh : lo ≤ hi)
    (h1 : hi ≤ a.length) (hlen : a'.length = a.length) (hperm : a'.Perm a)
    (hout : ∀ p, 0 ≤ p → p < a.length → (p < lo ∨ hi ≤ p) → elem a' p = elem a p)
    (P : Int → Prop) (hP : ∀ p, lo ≤ p → p < hi → P (elem a p)) :
    ∀ p, lo ≤ p → p < hi → P (elem a' p) := by
  intro p hp0 hp1
  have hm : elem a' p ∈ segment a' lo hi :=
    (mem_segment_iff a' lo hi h0 hlh (by omega) _).mpr ⟨p, hp0, hp1, rfl⟩
  have hm2 := (segment_perm a a' lo hi h0 hlh h1 hlen hperm hout).mem_iff.mp hm
  obtain ⟨q, hq0, hq1, hq⟩ := (mem_segment_iff a lo hi h0 hlh h1 _).mp hm2
  rw [← hq]
  exact hP q hq0 hq1

theorem ext_elem (a b : List Int) (hlen : a.length = b.length)
    (h : ∀ k : Int, 0 ≤ k → k < a.length → elem a k = elem b k) : a = b := by
  apply List.ext_getElem hlen
  intro n h1 h2
  have := h n (by omega) (by omega)
  rwa [elem_natCast a n h1, elem_natCast b n h2] at this

theorem whileLoop_of_cond {σ : Type} (cond : σ → Bool) (body : σ → Option σ) (fuel : Nat)
    (s : σ) (hc : cond s = true) :
    whileLoop cond body (fuel + 1) s = (body s).bind (whileLoop cond body fuel) := by
  simp [whileLoop, hc]

theorem whileLoop_of_not_cond {σ : Type} (cond : σ → Bool) (body : σ → Option σ) (fuel : Nat)
    (s : σ) (hc : cond s = false) : whileLoop cond body (fuel + 1) s = some s := by
  simp [whileLoop, hc]

/-! ## SelectionSort is correct -/

theorem selectionInner_step (a : List Int) (i : Int) (t : SelectionInner) (hi0 : 0 ≤ i)
    (hinv : SelectionInnerInv a i t) (hj : t.j < a.length) :
    ∃ t', selectionInnerBody a t = some t' ∧ SelectionInnerInv a i t' ∧ t'.j = t.j + 1 := by
  obtain ⟨h1, h2, h3, h4, h5⟩ := hinv
  simp only [selectionInnerBody, sliceGet_of_lt a t.j (by omega) hj,
    sliceGet_of_lt a t.minIdx (by omega) (by omega), Option.some_bind]
  by_cases hlt : elem a t.j < elem a t.minIdx
  · rw [if_pos hlt]
    refine ⟨_, rfl, ⟨?_, ?_, ?_, ?_, ?_⟩, rfl⟩
    · show i + 1 ≤ t.j + 1
      omega
    · show t.j + 1 ≤ a.length
      omega
    · show i ≤ t.j
      omega
    · show t.j < t.j + 1
      omega
    · intro q hq1 hq2
      have hq2' : q < t.j + 1 := hq2
      show elem a t.j ≤ elem a q
      by_cases hqj : q = t.j
      · rw [hqj]
      · have := h5 q hq1 (by omega)
        omega
  · rw [if_neg hlt]
    refine ⟨_, rfl, ⟨?_, ?_, ?_, ?_, ?_⟩, rfl⟩
    · show i + 1 ≤ t.j + 1
      omega
    · show t.j + 1 ≤ a.length
      omega
    · exact h3
    · show t.minIdx < t.j + 1
      omega
    · intro q hq1 hq2
      have hq2' : q < t.j + 1 := hq2
      show elem a t.minIdx ≤ elem a q
      by_cases hqj : q = t.j
      · rw [hqj]; omega
      · exact h5 q hq1 (by omega)

theorem selectionInner_spec (a : List Int) (i : Int) (st : SortingStats)
    (hi0 : 0 ≤ i) (hi1 : i < a.length) :
    ∃ t, whileLoop (fun t : SelectionInner => decide (t.j < (a.length : Int)))
        (selectionInnerBody a) ((a.length : Int).toNat + 1)
        { j := i + 1, minIdx := i, stats := st } = some t ∧
      i ≤ t.minIdx ∧ t.minIdx < a.length ∧
      ∀ q, i ≤ q → q < a.length → elem a t.minIdx ≤ elem a q := by
  obtain ⟨t, ht, ⟨h1, h2, h3, h4, h5⟩, hc⟩ := whileLoop_rule
    (fun t : SelectionInner => decide (t.j < (a.length : Int))) (selectionInnerBody a)
    (SelectionInnerInv a i) (fun t => ((a.length : Int) - t.j).toNat)
    (by
      intro t hinv hc
      have hj : t.j < a.length := by simpa using hc
      obtain ⟨t', e1, e2, e3⟩ := selectionInner_step a i t hi0 hinv hj
      refine ⟨t', e1, e2, ?_⟩
      show ((a.length : Int) - t'.j).toNat < ((a.length : Int) - t.j).toNat
      omega)
    ((a.length : Int).toNat + 1) { j := i + 1, minIdx := i, stats := st }
    ⟨le_refl _, by show i + 1 ≤ (a.length : Int); omega, le_refl _,
      by show i < i + 1; omega, by
      intro q hq1 hq2
      have hq2' : q < i + 1 := hq2
      have : q = i := by omega
      rw [this]⟩
    (by show ((a.length : Int) - (i + 1)).toNat < (a.length : Int).toNat + 1; omega)
  have hj : ¬ t.j < a.length := by simpa using hc
  have hjn : t.j = a.length := by omega
  exact ⟨t, ht, h3, by omega, fun q hq1 hq2 => h5 q hq1 (by omega)⟩

theorem selectionOuter_step (arr : List Int) (s : SelectionOuter) (hinv : SelectionInv arr s)
    (hc : s.i < (arr.length : Int) - 1) :
    ∃ s', selectionOuterBody arr.length s = some s' ∧ SelectionInv arr s' ∧ s'.i = s.i + 1 := by
  obtain ⟨hlen, hperm, hi0, -, hsorted, hle⟩ := hinv
  obtain ⟨t, ht, hm1, hm2, hmin⟩ :=
    selectionInner_spec s.arrCopy s.i s.stats hi0 (by omega)
  rw [hlen] at ht hm2
  unfold selectionOuterBody
  rw [ht]
  simp only [Option.some_bind]
  by_cases hne : t.minIdx ≠ s.i
  · rw [if_pos hne, sliceSwap_of_lt s.arrCopy s.i t.minIdx hi0 (by omega) (by omega) (by omega)]
    simp only [Option.some_bind]
    have hel : ∀ k, 0 ≤ k → elem (swapElems s.arrCopy s.i t.minIdx) k =
        if k = t.minIdx then elem s.arrCopy s.i else
          if k = s.i then elem s.arrCopy t.minIdx else elem s.arrCopy k :=
      fun k hk => elem_swapElems s.arrCopy s.i t.minIdx k hi0 (by omega) (by omega) (by omega) hk
    refine ⟨_, rfl, ⟨by simp [length_swapElems, hlen],
      (swapElems_perm s.arrCopy s.i t.minIdx hi0 (by omega) (by omega) (by omega)).trans hperm,
      by simp; omega, by simp; omega, ?_, ?_⟩, rfl⟩
    · intro p q hp hpq hq
      simp only at hq ⊢
      rw [hel p (by omega), hel q (by omega)]
      have hpm : p ≠ t.minIdx := by omega
      have hqm : q ≠ t.minIdx := by omega
      rw [if_neg hpm, if_neg hqm]
      by_cases hqi : q = s.i
      · rw [if_pos hqi]
        by_cases hpi : p = s.i
        · rw [if_pos hpi]
        · rw [if_neg hpi]
          exact hle p t.minIdx hp (by omega) hm1 hm2
      · rw [if_neg hqi, if_neg (by omega)]
        exact hsorted p q hp hpq (by omega)
    · intro p q hp hpi hq hqn
      simp only at hpi hq ⊢
      rw [hel p (by omega), hel q (by omega)]
      have hpm : p ≠ t.minIdx := by omega
      have hqi : q ≠ s.i := by omega
      rw [if_neg hpm, if_neg hqi]
      by_cases hpi' : p = s.i
      · rw [if_pos hpi']
        by_cases hqm : q = t.minIdx
        · rw [if_pos hqm]
          exact hmin s.i (le_refl _) (by omega)
        · rw [if_neg hqm]
          exact hmin q (by omega) (by rw [hlen]; omega)
      · rw [if_neg hpi']
        by_cases hqm : q = t.minIdx
        · rw [if_pos hqm]
          exact hle p s.i hp (by omega) (le_refl _) (by omega)
        · rw [if_neg hqm]
          exact hle p q hp (by omega) (by omega) hqn
  · have heq : t.minIdx = s.i := by simpa using hne
    rw [if_neg hne]
    refine ⟨_, rfl, ⟨hlen, hperm, by simp; omega, by simp; omega, ?_, ?_⟩, rfl⟩
    · intro p q hp hpq hq
      simp only at hq ⊢
      by_cases hqi : q = s.i
      · by_cases hpi : p = s.i
        · rw [hqi, hpi]
        · rw [hqi]
          exact hle p s.i hp (by omega) (le_refl _) (by omega)
      · exact hsorted p q hp hpq (by omega)
    · intro p q hp hpi hq hqn
      simp only at hpi hq ⊢
      by_cases hpi' : p = s.i
      · rw [hpi', ← heq]
        exact hmin q (by omega) (by rw [hlen]; omega)
      · exact hle p q hp (by omega) (by omega) hqn

theorem selectionSort_spec (arr : List Int) :
    ∃ run, SelectionSort arr = some run ∧ run.arr = arr ∧ run.arrCopy.Perm arr ∧
      List.Sorted (· ≤ ·) run.arrCopy := by
  obtain ⟨s, hs, ⟨hlen, hperm, hi0, hi1, hsorted, hle⟩, hc⟩ := whileLoop_rule
    (fun s : SelectionOuter => decide (s.i < (arr.length : Int) - 1))
    (selectionOuterBody arr.length) (SelectionInv arr)
    (fun s => ((arr.length : Int) - s.i).toNat)
    (by
      intro s hinv hc
      have hc' : s.i < (arr.length : Int) - 1 := by simpa using hc
      obtain ⟨s', h1, h2, h3⟩ := selectionOuter_step arr s hinv hc'
      refine ⟨s', h1, h2, ?_⟩
      show ((arr.length : Int) - s'.i).toNat < ((arr.length : Int) - s.i).toNat
      omega)
    ((arr.length : Int).toNat + 1) { i := 0, arrCopy := arr, stats := ⟨0, 0⟩ }
    ⟨rfl, List.Perm.refl _, le_refl _, Or.inr rfl, fun p q hp hpq hq => by simp only at hq; omega,
      fun p q hp hpi => by simp only at hpi; omega⟩
    (by show ((arr.length : Int) - 0).toNat < (arr.length : Int).toNat + 1; omega)
  have hc' : ¬ s.i < (arr.length : Int) - 1 := by simpa using hc
  refine ⟨{ arr := arr, arrCopy := s.arrCopy, stats := s.stats }, ?_, rfl, hperm, ?_⟩
  · simp only [SelectionSort]
    rw [hs]
    rfl
  · apply sorted_of_sortedOn
    intro p q hp hpq hq
    rw [hlen] at hq
    by_cases hqi : q < s.i
    · exact hsorted p q hp hpq hqi
    · have hqeq : q = s.i := by omega
      by_cases hpi : p < s.i
      · exact hle p q hp hpi (by omega) hq
      · have : p = q := by omega
        rw [this]

/-! ## BubbleSort is correct -/

theorem bubbleInner_step (a0 : List Int) (i : Int) (t : BubbleInner) (hi0 : 0 ≤ i)
    (hinv : BubbleInnerInv a0 i t) (hj : t.j < (a0.length : Int) - i - 1) :
    ∃ t', bubbleInnerBody t = some t' ∧ BubbleInnerInv a0 i t' ∧ t'.j = t.j + 1 := by
  obtain ⟨hlen, hperm, hj0, hj1, hmax, hsuf, hsorted⟩ := hinv
  have hjl : t.j < t.arrCopy.length := by omega
  have hjl' : t.j + 1 < t.arrCopy.length := by omega
  simp only [bubbleInnerBody, sliceGet_of_lt t.arrCopy t.j hj0 hjl,
    sliceGet_of_lt t.arrCopy (t.j + 1) (by omega) hjl', Option.some_bind]
  by_cases hgt : elem t.arrCopy t.j > elem t.arrCopy (t.j + 1)
  · rw [if_pos hgt, sliceSwap_of_lt t.arrCopy t.j (t.j + 1) hj0 hjl (by omega) hjl']
    simp only [Option.some_bind]
    have hel : ∀ k, 0 ≤ k → elem (swapElems t.arrCopy t.j (t.j + 1)) k =
        if k = t.j + 1 then elem t.arrCopy t.j else
          if k = t.j then elem t.arrCopy (t.j + 1) else elem t.arrCopy k :=
      fun k hk => elem_swapElems t.arrCopy t.j (t.j + 1) k hj0 hjl (by omega) hjl' hk
    refine ⟨_, rfl, ⟨?_, ?_, ?_, ?_, ?_, ?_, ?_⟩, rfl⟩
    · show (swapElems t.arrCopy t.j (t.j + 1)).length = a0.length
      rw [length_swapElems, hlen]
    · exact (swapElems_perm t.arrCopy t.j (t.j + 1) hj0 hjl (by omega) hjl').trans hperm
    · show 0 ≤ t.j + 1
      omega
    · show t.j + 1 ≤ (a0.length : Int) - i - 1
      omega
    · intro p hp0 hp1
      have hp1' : p ≤ t.j + 1 := hp1
      show elem (swapElems t.arrCopy t.j (t.j + 1)) p ≤
        elem (swapElems t.arrCopy t.j (t.j + 1)) (t.j + 1)
      rw [hel p hp0, hel (t.j + 1) (by omega), if_pos rfl]
      by_cases h1 : p = t.j + 1
      · rw [if_pos h1]
      · rw [if_neg h1]
        by_cases h2 : p = t.j
        · rw [if_pos h2]; omega
        · rw [if_neg h2]
          exact hmax p hp0 (by omega)
    · intro q hq0 hq1
      show elem (swapElems t.arrCopy t.j (t.j + 1)) q = elem a0 q
      rw [hel q (by omega), if_neg (by omega), if_neg (by omega)]
      exact hsuf q hq0 hq1
    · intro h
      exact absurd h (by simp)
  · rw [if_neg hgt]
    have hle : elem t.arrCopy t.j ≤ elem t.arrCopy (t.j + 1) := not_lt.mp hgt
    refine ⟨_, rfl, ⟨hlen, hperm, ?_, ?_, ?_, hsuf, ?_⟩, rfl⟩
    · show 0 ≤ t.j + 1
      omega
    · show t.j + 1 ≤ (a0.length : Int) - i - 1
      omega
    · intro p hp0 hp1
      have hp1' : p ≤ t.j + 1 := hp1
      show elem t.arrCopy p ≤ elem t.arrCopy (t.j + 1)
      by_cases h1 : p = t.j + 1
      · rw [h1]
      · exact le_trans (hmax p hp0 (by omega)) hle
    · intro hsw p q hp hpq hq
      have hq' : q < t.j + 1 + 1 := hq
      show elem t.arrCopy p ≤ elem t.arrCopy q
      by_cases h1 : q = t.j + 1
      · rw [h1]
        by_cases h2 : p = t.j + 1
        · rw [h2]
        · exact le_trans (hmax p hp (by omega)) hle
      · exact hsorted hsw p q hp hpq (by omega)

theorem bubbleInner_spec (a0 : List Int) (i : Int) (st : SortingStats) (hi0 : 0 ≤ i)
    (hi1 : i < (a0.length : Int) - 1) :
    ∃ t, whileLoop (fun t : BubbleInner => decide (t.j < (a0.length : Int) - i - 1))
        bubbleInnerBody ((a0.length : Int).toNat + 1)
        { j := 0, arrCopy := a0, stats := st, swapped := false } = some t ∧
      BubbleInnerInv a0 i t ∧ t.j = (a0.length : Int) - i - 1 := by
  obtain ⟨t, ht, hinv, hc⟩ := whileLoop_rule
    (fun t : BubbleInner => decide (t.j < (a0.length : Int) - i - 1)) bubbleInnerBody
    (BubbleInnerInv a0 i) (fun t => ((a0.length : Int) - t.j).toNat)
    (by
      intro t hinv hc
      have hj : t.j < (a0.length : Int) - i - 1 := by simpa using hc
      obtain ⟨t', e1, e2, e3⟩ := bubbleInner_step a0 i t hi0 hinv hj
      refine ⟨t', e1, e2, ?_⟩
      show ((a0.length : Int) - t'.j).toNat < ((a0.length : Int) - t.j).toNat
      omega)
    ((a0.length : Int).toNat + 1) { j := 0, arrCopy := a0, stats := st, swapped := false }
    ⟨rfl, List.Perm.refl _, le_refl _, by show (0 : Int) ≤ (a0.length : Int) - i - 1; omega,
      by
        intro p hp0 hp1
        have hp1' : p ≤ 0 := hp1
        have : p = 0 := by omega
        rw [this],
      fun q _ _ => rfl,
      by
        intro _ p q hp hpq hq
        have hq' : q < 0 + 1 := hq
        have h1 : p = 0 := by omega
        have h2 : q = 0 := by omega
        rw [h1, h2]⟩
    (by show ((a0.length : Int) - 0).toNat < (a0.length : Int).toNat + 1; omega)
  have hj : ¬ t.j < (a0.length : Int) - i - 1 := by simpa using hc
  have := hinv.2.2.2.1
  exact ⟨t, ht, hinv, by omega⟩

theorem bubbleOuter_step (arr : List Int) (s : BubbleOuter) (hinv : BubbleInv arr s)
    (hc : s.i < (arr.length : Int) - 1) :
    ∃ s', bubbleOuterBody arr.length s = some s' ∧ BubbleInv arr s' ∧
      ((s'.broke = true ∧ s'.i = s.i) ∨ (s'.broke = false ∧ s'.i = s.i + 1)) := by
  obtain ⟨hlen, hperm, hi0, -, hsuf, hle, -⟩ := hinv
  obtain ⟨t, ht, ⟨tlen, tperm, tj0, -, tmax, tsuf, tsorted⟩, tj⟩ :=
    bubbleInner_spec s.arrCopy s.i s.stats hi0 (by omega)
  rw [hlen] at ht tlen tsuf tj
  unfold bubbleOuterBody
  rw [ht]
  simp only [Option.some_bind]
  -- the elements below `n - i` are elements that were below `n - i` before the pass
  have htrans : ∀ q, (arr.length : Int) - s.i ≤ q → q < arr.length →
      ∀ p, 0 ≤ p → p < (arr.length : Int) - s.i → elem t.arrCopy p ≤ elem s.arrCopy q := by
    intro q hq0 hq1
    exact range_transfer s.arrCopy t.arrCopy 0 ((arr.length : Int) - s.i) (le_refl _) (by omega)
      (by omega) (by omega) tperm
      (fun p hp0 hp1 hp2 => tsuf p (by omega) (by omega))
      (fun x => x ≤ elem s.arrCopy q) (fun p hp0 hp1 => hle p q hp0 hp1 hq0 hq1)
  have hsuf' : SortedOn t.arrCopy ((arr.length : Int) - (s.i + 1)) arr.length := by
    intro p q hp hpq hq
    by_cases hp1 : p = (arr.length : Int) - s.i - 1
    · by_cases hq1 : q = p
      · rw [hq1]
      · rw [tsuf q (by omega) hq]
        exact htrans q (by omega) hq p (by omega) (by omega)
    · rw [tsuf p (by omega) (by omega), tsuf q (by omega) hq]
      exact hsuf p q (by omega) hpq hq
  have hle' : ∀ p q, 0 ≤ p → p < (arr.length : Int) - (s.i + 1) →
      (arr.length : Int) - (s.i + 1) ≤ q → q < arr.length →
      elem t.arrCopy p ≤ elem t.arrCopy q := by
    intro p q hp0 hp1 hq0 hq1
    by_cases hq : q = (arr.length : Int) - s.i - 1
    · have := tmax p hp0 (by omega)
      rw [tj] at this
      rw [hq]
      exact this
    · rw [tsuf q (by omega) hq1]
      exact htrans q (by omega) hq1 p hp0 (by omega)
  by_cases hsw : t.swapped = true
  · simp only [hsw, Bool.not_true, Bool.false_eq_true, if_false]
    refine ⟨_, rfl, ⟨by rw [tlen], tperm.trans hperm, ?_, ?_, hsuf', hle', ?_⟩,
      Or.inr ⟨rfl, rfl⟩⟩
    · show 0 ≤ s.i + 1
      omega
    · left
      show s.i + 1 ≤ (arr.length : Int) - 1
      omega
    · intro h
      exact absurd h (by simp)
  · have hsw' : t.swapped = false := by simpa using hsw
    simp only [hsw', Bool.not_false, if_true]
    have hall : SortedOn t.arrCopy 0 arr.length := by
      have hpre := tsorted hsw'
      rw [tj] at hpre
      intro p q hp hpq hq
      by_cases hq1 : q < (arr.length : Int) - s.i
      · exact hpre p q hp hpq (by omega)
      · by_cases hp1 : p < (arr.length : Int) - s.i
        · rw [tsuf q (by omega) hq]
          exact htrans q (by omega) hq p hp hp1
        · rw [tsuf p (by omega) (by omega), tsuf q (by omega) hq]
          exact hsuf p q (by omega) hpq hq
    refine ⟨_, rfl, ⟨by rw [tlen], tperm.trans hperm, hi0, Or.inl ?_, ?_, ?_,
      fun _ => hall⟩, Or.inl ⟨rfl, rfl⟩⟩
    · show s.i ≤ (arr.length : Int) - 1
      omega
    · intro p q hp hpq hq
      have hp' : (arr.length : Int) - s.i ≤ p := hp
      exact hall p q (by omega) hpq hq
    · intro p q hp0 _ _ hq1
      by_cases hpq : p ≤ q
      · exact hall p q hp0 hpq hq1
      · omega

theorem bubbleSort_spec (arr : List Int) :
    ∃ run, BubbleSort arr = some run ∧ run.arr = arr ∧ run.arrCopy.Perm arr ∧
      List.Sorted (· ≤ ·) run.arrCopy := by
  obtain ⟨s, hs, ⟨hlen, hperm, hi0, hi1, hsuf, hle, hbroke⟩, hc⟩ := whileLoop_rule
    (fun s : BubbleOuter => !s.broke && decide (s.i < (arr.length : Int) - 1))
    (bubbleOuterBody arr.length) (BubbleInv arr)
    (fun s => if s.broke = true ∨ (arr.length : Int) - 1 ≤ s.i then 0
      else ((arr.length : Int) - 1 - s.i).toNat + 1)
    (by
      intro s hinv hc
      simp only [Bool.and_eq_true, Bool.not_eq_true', decide_eq_true_eq] at hc
      obtain ⟨s', h1, h2, h3⟩ := bubbleOuter_step arr s hinv hc.2
      refine ⟨s', h1, h2, ?_⟩
      show (if s'.broke = true ∨ (arr.length : Int) - 1 ≤ s'.i then 0
          else ((arr.length : Int) - 1 - s'.i).toNat + 1) <
        (if s.broke = true ∨ (arr.length : Int) - 1 ≤ s.i then 0
          else ((arr.length : Int) - 1 - s.i).toNat + 1)
      have hnot : ¬ (s.broke = true ∨ (arr.length : Int) - 1 ≤ s.i) := by
        rintro (h | h)
        · rw [hc.1] at h
          exact absurd h (by simp)
        · omega
      rw [if_neg hnot]
      rcases h3 with ⟨hb, hi⟩ | ⟨hb, hi⟩
      · rw [if_pos (Or.inl hb)]
        omega
      · by_cases h : (arr.length : Int) - 1 ≤ s'.i
        · rw [if_pos (Or.inr h)]
          omega
        · rw [if_neg (by
            rintro (h' | h')
            · rw [hb] at h'
              exact absurd h' (by simp)
            · exact h h')]
          omega)
    ((arr.length : Int).toNat + 1) { i := 0, arrCopy := arr, stats := ⟨0, 0⟩, broke := false }
    ⟨rfl, List.Perm.refl _, le_refl _, Or.inr rfl,
      fun p q hp hpq hq => by
        have hp' : (arr.length : Int) - 0 ≤ p := hp
        omega,
      fun p q hp hp1 hq hq1 => by
        have hq' : (arr.length : Int) - 0 ≤ q := hq
        omega,
      fun h => absurd h (by simp)⟩
    (by
      show (if false = true ∨ (arr.length : Int) - 1 ≤ 0 then 0
          else ((arr.length : Int) - 1 - 0).toNat + 1) < (arr.length : Int).toNat + 1
      by_cases h : (arr.length : Int) - 1 ≤ 0
      · rw [if_pos (Or.inr h)]
        omega
      · rw [if_neg (by
          rintro (h' | h')
          · exact absurd h' (by simp)
          · exact h h')]
        omega)
  refine ⟨{ arr := arr, arrCopy := s.arrCopy, stats := s.stats }, ?_, rfl, hperm, ?_⟩
  · simp only [BubbleSort]
    rw [hs]
    rfl
  · apply sorted_of_sortedOn
    rw [hlen]
    by_cases hb : s.broke = true
    · exact hbroke hb
    · have hb' : s.broke = false := by simpa using hb
      simp only [hb', Bool.not_false, Bool.true_and, decide_eq_false_iff_not] at hc
      intro p q hp hpq hq
      by_cases hq1 : q < (arr.length : Int) - s.i
      · have hpq' : p = q := by omega
        rw [hpq']
      · by_cases hp1 : p < (arr.length : Int) - s.i
        · exact hle p q hp hp1 (by omega) hq
        · exact hsuf p q (by omega) hpq hq

/-! ## InsertionSort is correct -/

theorem insertionInner_step (a0 : List Int) (i key : Int) (t : InsertionInner)
    (hi1 : i < a0.length) (hinv : InsertionInnerInv a0 i key t) (hj : 0 ≤ t.j) :
    ∃ t', insertionInnerBody key t = some t' ∧ InsertionInnerInv a0 i key t' ∧
      ((t'.broke = true ∧ t'.j = t.j) ∨ (t'.broke = false ∧ t'.j = t.j - 1)) := by
  obtain ⟨hlen, hj0, hj1, hperm, hpre, hshift, -⟩ := hinv
  have hjl : t.j < t.arrCopy.length := by omega
  have hjl' : t.j + 1 < t.arrCopy.length := by omega
  simp only [insertionInnerBody, sliceGet_of_lt t.arrCopy t.j hj hjl, Option.some_bind]
  by_cases hgt : elem t.arrCopy t.j > key
  · rw [if_pos hgt, sliceSet_of_lt t.arrCopy (t.j + 1) _ (by omega) hjl']
    simp only [Option.some_bind]
    have hel : ∀ k, 0 ≤ k → elem (t.arrCopy.set (t.j + 1).toNat (elem t.arrCopy t.j)) k =
        if k = t.j + 1 then elem t.arrCopy t.j else elem t.arrCopy k :=
      fun k hk => elem_set t.arrCopy (t.j + 1) _ k (by omega) hjl' hk
    refine ⟨_, rfl, ⟨?_, ?_, ?_, ?_, ?_, ?_, ?_⟩, Or.inr ⟨rfl, rfl⟩⟩
    · show (t.arrCopy.set (t.j + 1).toNat (elem t.arrCopy t.j)).length = a0.length
      rw [List.length_set, hlen]
    · show -1 ≤ t.j - 1
      omega
    · show t.j - 1 ≤ i - 1
      omega
    · show ((t.arrCopy.set (t.j + 1).toNat (elem t.arrCopy t.j)).set (t.j - 1 + 1).toNat
        key).Perm a0
      have hb1 : t.j < (t.arrCopy.set (t.j + 1).toNat key).length := by
        rw [List.length_set]; exact hjl
      have hb2 : t.j + 1 < (t.arrCopy.set (t.j + 1).toNat key).length := by
        rw [List.length_set]; exact hjl'
      have heq : (t.arrCopy.set (t.j + 1).toNat (elem t.arrCopy t.j)).set (t.j - 1 + 1).toNat key
          = swapElems (t.arrCopy.set (t.j + 1).toNat key) t.j (t.j + 1) := by
        apply ext_elem
        · simp [length_swapElems]
        · intro k hk0 hk1
          simp only [List.length_set] at hk1
          rw [elem_swapElems _ t.j (t.j + 1) k hj hb1 (by omega) hb2 hk0,
            elem_set _ (t.j - 1 + 1) key k (by omega) (by rw [List.length_set]; omega) hk0,
            hel k hk0,
            elem_set t.arrCopy (t.j + 1) key t.j (by omega) hjl' hj,
            elem_set t.arrCopy (t.j + 1) key (t.j + 1) (by omega) hjl' (by omega),
            elem_set t.arrCopy (t.j + 1) key k (by omega) hjl' hk0]
          by_cases h1 : k = t.j + 1
          · have h2 : ¬ k = t.j - 1 + 1 := by omega
            rw [if_neg h2, if_pos h1, if_pos h1, if_neg (by omega)]
          · by_cases h2 : k = t.j
            · rw [if_pos (by omega), if_neg h1, if_pos h2, if_pos rfl]
            · rw [if_neg (by omega), if_neg h1, if_neg h1, if_neg h2, if_neg h1]
      rw [heq]
      exact (swapElems_perm _ t.j (t.j + 1) hj hb1 (by omega) hb2).trans hperm
    · intro p hp0 hp1
      have hp1' : p ≤ t.j - 1 := hp1
      show elem (t.arrCopy.set (t.j + 1).toNat (elem t.arrCopy t.j)) p = elem a0 p
      rw [hel p hp0, if_neg (by omega)]
      exact hpre p hp0 (by omega)
    · intro q hq0 hq1
      have hq0' : t.j - 1 + 2 ≤ q := hq0
      show elem (t.arrCopy.set (t.j + 1).toNat (elem t.arrCopy t.j)) q = elem a0 (q - 1) ∧
        key < elem (t.arrCopy.set (t.j + 1).toNat (elem t.arrCopy t.j)) q
      rw [hel q (by omega)]
      by_cases h1 : q = t.j + 1
      · rw [if_pos h1]
        refine ⟨?_, hgt⟩
        rw [hpre t.j hj (le_refl _), h1]
        congr 1
        omega
      · rw [if_neg h1]
        exact hshift q (by omega) hq1
    · intro h
      exact absurd h (by simp)
  · rw [if_neg hgt]
    refine ⟨_, rfl, ⟨hlen, hj0, hj1, hperm, hpre, hshift, ?_⟩, Or.inl ⟨rfl, rfl⟩⟩
    intro _
    exact ⟨hj, not_lt.mp hgt⟩

theorem insertionInner_spec (a0 : List Int) (i : Int) (st : SortingStats) (hi0 : 1 ≤ i)
    (hi1 : i < a0.length) :
    ∃ t, whileLoop (fun t : InsertionInner => !t.broke && decide (t.j ≥ 0))
        (insertionInnerBody (elem a0 i)) ((a0.length : Int).toNat + 1)
        { j := i - 1, arrCopy := a0, stats := st, broke := false } = some t ∧
      InsertionInnerInv a0 i (elem a0 i) t ∧ (t.broke = true ∨ t.j = -1) := by
  obtain ⟨t, ht, hinv, hc⟩ := whileLoop_rule
    (fun t : InsertionInner => !t.broke && decide (t.j ≥ 0)) (insertionInnerBody (elem a0 i))
    (InsertionInnerInv a0 i (elem a0 i))
    (fun t => if t.broke = true then 0 else (t.j + 2).toNat)
    (by
      intro t hinv hc
      simp only [Bool.and_eq_true, Bool.not_eq_true', decide_eq_true_eq] at hc
      obtain ⟨t', e1, e2, e3⟩ := insertionInner_step a0 i _ t hi1 hinv hc.2
      refine ⟨t', e1, e2, ?_⟩
      show (if t'.broke = true then 0 else (t'.j + 2).toNat) <
        (if t.broke = true then 0 else (t.j + 2).toNat)
      have h1 : (if t.broke = true then 0 else (t.j + 2).toNat) = (t.j + 2).toNat :=
        if_neg (by rw [hc.1]; simp)
      rw [h1]
      rcases e3 with ⟨hb, hj⟩ | ⟨hb, hj⟩
      · rw [if_pos hb]
        omega
      · rw [if_neg (by rw [hb]; simp)]
        omega)
    ((a0.length : Int).toNat + 1) { j := i - 1, arrCopy := a0, stats := st, broke := false }
    ⟨rfl, by show (-1 : Int) ≤ i - 1; omega, le_refl _,
      by
        show (a0.set (i - 1 + 1).toNat (elem a0 i)).Perm a0
        have : a0.set (i - 1 + 1).toNat (elem a0 i) = a0 := by
          apply ext_elem
          · simp
          · intro k hk0 hk1
            simp only [List.length_set] at hk1
            rw [elem_set a0 (i - 1 + 1) _ k (by omega) (by omega) hk0]
            by_cases h : k = i - 1 + 1
            · rw [if_pos h, h]
              congr 1
              omega
            · rw [if_neg h]
        rw [this],
      fun p _ _ => rfl,
      by
        intro q hq0 hq1
        have hq0' : i - 1 + 2 ≤ q := hq0
        omega,
      fun h => absurd h (by simp)⟩
    (by
      show (if false = true then 0 else (i - 1 + 2).toNat) < (a0.length : Int).toNat + 1
      rw [if_neg (by simp)]
      omega)
  refine ⟨t, ht, hinv, ?_⟩
  by_cases hb : t.broke = true
  · exact Or.inl hb
  · right
    have hb' : t.broke = false := by simpa using hb
    simp only [hb', Bool.not_false, Bool.true_and, decide_eq_false_iff_not] at hc
    have := hinv.2.1
    omega

theorem insertionOuter_step (arr : List Int) (s : InsertionOuter) (hinv : InsertionInv arr s)
    (hc : s.i < arr.length) :
    ∃ s', insertionOuterBody arr.length s = some s' ∧ InsertionInv arr s' ∧ s'.i = s.i + 1 := by
  obtain ⟨hlen, hperm, hi0, -, hsorted⟩ := hinv
  obtain ⟨t, ht, ⟨tlen, tj0, tj1, tperm, tpre, tshift, tbroke⟩, tend⟩ :=
    insertionInner_spec s.arrCopy s.i s.stats hi0 (by omega)
  rw [hlen] at ht
  have hjl : t.j + 1 < t.arrCopy.length := by omega
  unfold insertionOuterBody
  rw [sliceGet_of_lt s.arrCopy s.i (by omega) (by omega)]
  simp only [Option.some_bind]
  rw [ht]
  simp only [Option.some_bind]
  rw [sliceSet_of_lt t.arrCopy (t.j + 1) _ (by omega) hjl]
  simp only [Option.some_bind]
  have hel : ∀ k, 0 ≤ k → elem (t.arrCopy.set (t.j + 1).toNat (elem s.arrCopy s.i)) k =
      if k = t.j + 1 then elem s.arrCopy s.i else elem t.arrCopy k :=
    fun k hk => elem_set t.arrCopy (t.j + 1) _ k (by omega) hjl hk
  refine ⟨_, rfl, ⟨?_, tperm.trans hperm, ?_, ?_, ?_⟩, rfl⟩
  · show (t.arrCopy.set (t.j + 1).toNat (elem s.arrCopy s.i)).length = arr.length
    rw [List.length_set, tlen, hlen]
  · show 1 ≤ s.i + 1
    omega
  · left
    show s.i + 1 ≤ arr.length
    omega
  · intro p q hp hpq hq
    have hq' : q < s.i + 1 := hq
    show elem (t.arrCopy.set (t.j + 1).toNat (elem s.arrCopy s.i)) p ≤
      elem (t.arrCopy.set (t.j + 1).toNat (elem s.arrCopy s.i)) q
    rw [hel p hp, hel q (by omega)]
    by_cases hq1 : q = t.j + 1
    · rw [if_pos hq1]
      by_cases hp1 : p = t.j + 1
      · rw [if_pos hp1]
      · rw [if_neg hp1]
        rcases tend with hb | hj
        · obtain ⟨h0, h1⟩ := tbroke hb
          rw [tpre p hp (by omega)]
          rw [tpre t.j h0 (le_refl _)] at h1
          exact le_trans (hsorted p t.j hp (by omega) (by omega)) h1
        · omega
    · rw [if_neg hq1]
      by_cases hp1 : p = t.j + 1
      · rw [if_pos hp1]
        exact le_of_lt (tshift q (by omega) (by omega)).2
      · rw [if_neg hp1]
        by_cases hq2 : q ≤ t.j
        · rw [tpre p hp (by omega), tpre q (by omega) hq2]
          exact hsorted p q hp hpq (by omega)
        · rw [(tshift q (by omega) (by omega)).1]
          by_cases hp2 : p ≤ t.j
          · rw [tpre p hp hp2]
            exact hsorted p (q - 1) hp (by omega) (by omega)
          · rw [(tshift p (by omega) (by omega)).1]
            exact hsorted (p - 1) (q - 1) (by omega) (by omega) (by omega)

theorem insertionSort_spec (arr : List Int) :
    ∃ run, InsertionSort arr = some run ∧ run.arr = arr ∧ run.arrCopy.Perm arr ∧
      List.Sorted (· ≤ ·) run.arrCopy := by
  obtain ⟨s, hs, ⟨hlen, hperm, hi0, hi1, hsorted⟩, hc⟩ := whileLoop_rule
    (fun s : InsertionOuter => decide (s.i < (arr.length : Int)))
    (insertionOuterBody arr.length) (InsertionInv arr)
    (fun s => ((arr.length : Int) + 1 - s.i).toNat)
    (by
      intro s hinv hc
      have hc' : s.i < (arr.length : Int) := by simpa using hc
      obtain ⟨s', h1, h2, h3⟩ := insertionOuter_step arr s hinv hc'
      refine ⟨s', h1, h2, ?_⟩
      show ((arr.length : Int) + 1 - s'.i).toNat < ((arr.length : Int) + 1 - s.i).toNat
      omega)
    ((arr.length : Int).toNat + 1) { i := 1, arrCopy := arr, stats := ⟨0, 0⟩ }
    ⟨rfl, List.Perm.refl _, le_refl _, Or.inr rfl, fun p q hp hpq hq => by
      have hq' : q < 1 := hq
      have h1 : p = 0 := by omega
      have h2 : q = 0 := by omega
      rw [h1, h2]⟩
    (by show ((arr.length : Int) + 1 - 1).toNat < (arr.length : Int).toNat + 1; omega)
  have hc' : ¬ s.i < (arr.length : Int) := by simpa using hc
  refine ⟨{ arr := arr, arrCopy := s.arrCopy, stats := s.stats }, ?_, rfl, hperm, ?_⟩
  · simp only [InsertionSort]
    rw [hs]
    rfl
  · apply sorted_of_sortedOn
    intro p q hp hpq hq
    have hq' : q < (s.arrCopy.length : Int) := hq
    exact hsorted p q hp hpq (by omega)


theorem insertionSortAfter_spec (arr : List Int) (k : Nat) (hk : (k : Int) < arr.length) :
    ∃ s, insertionSortAfter arr k = some s ∧ InsertionInv arr s ∧ s.i = (k : Int) + 1 := by
  induction k with
  | zero =>
    refine ⟨{ i := 1, arrCopy := arr, stats := ⟨0, 0⟩ }, rfl,
      ⟨rfl, List.Perm.refl _, le_refl _, Or.inr rfl, ?_⟩, rfl⟩
    intro p q hp hpq hq
    have hq' : q < 1 := hq
    have h1 : p = 0 := by omega
    have h2 : q = 0 := by omega
    rw [h1, h2]
  | succ k ih =>
    obtain ⟨s, hs, hinv, hi⟩ := ih (by omega)
    obtain ⟨s', h1, h2, h3⟩ := insertionOuter_step arr s hinv (by omega)
    refine ⟨s', ?_, h2, ?_⟩
    · simp only [insertionSortAfter, hs, Option.some_bind, h1]
    · rw [h3, hi]
      push_cast
      ring

theorem insertionSort_loop_eq_after (arr : List Int) (k : Nat) (hk : (k : Int) < arr.length) :
    whileLoop (fun s : InsertionOuter => decide (s.i < (arr.length : Int)))
        (insertionOuterBody arr.length) (arr.length + 1)
        { i := 1, arrCopy := arr, stats := ⟨0, 0⟩ } =
      (insertionSortAfter arr k).bind
        (whileLoop (fun s : InsertionOuter => decide (s.i < (arr.length : Int)))
          (insertionOuterBody arr.length) (arr.length + 1 - k)) := by
  induction k with
  | zero => simp [insertionSortAfter]
  | succ k ih =>
    rw [ih (by omega)]
    obtain ⟨s, hs, -, hi⟩ := insertionSortAfter_spec arr k (by omega)
    have hfuel : arr.length + 1 - k = (arr.length + 1 - (k + 1)) + 1 := by omega
    simp only [insertionSortAfter, hs, Option.some_bind]
    rw [hfuel, whileLoop_of_cond _ _ _ s (by
      show decide (s.i < (arr.length : Int)) = true
      rw [decide_eq_true_eq]
      omega)]

theorem insertionSort_eq_after (arr : List Int) (hn : 1 ≤ arr.length) :
    ∃ s, insertionSortAfter arr (arr.length - 1) = some s ∧
      InsertionSort arr = some { arr := arr, arrCopy := s.arrCopy, stats := s.stats } := by
  obtain ⟨s, hs, -, hi⟩ := insertionSortAfter_spec arr (arr.length - 1) (by omega)
  refine ⟨s, hs, ?_⟩
  have hfuel : arr.length + 1 - (arr.length - 1) = 1 + 1 := by omega
  have hcast : (arr.length : Int).toNat + 1 = arr.length + 1 := by omega
  simp only [InsertionSort]
  rw [hcast, insertionSort_loop_eq_after arr (arr.length - 1) (by omega), hs]
  simp only [Option.some_bind]
  rw [hfuel, whileLoop_of_not_cond _ _ _ s (by
    show decide (s.i < (arr.length : Int)) = false
    rw [decide_eq_false_iff_not]
    omega)]
  rfl

/-! ## MergeSort is correct -/

theorem mergeCopy_spec (arr : List Int) (off n1 : Int) (h0 : 0 ≤ off) (hn : 0 ≤ n1)
    (h1 : off + n1 ≤ arr.length) (fuel : Nat) (hf : n1.toNat < fuel) :
    ∃ c, whileLoop (fun s : MergeCopy => decide (s.i < n1)) (mergeCopyBody arr off) fuel
        { i := 0, dst := List.replicate n1.toNat 0 } = some c ∧
      c.dst = segment arr off (off + n1) := by
  obtain ⟨c, hc, ⟨hlen, hi0, hi1, hel⟩, hcond⟩ := whileLoop_rule
    (fun s : MergeCopy => decide (s.i < n1)) (mergeCopyBody arr off)
    (MergeCopyInv arr off n1) (fun s => (n1 - s.i).toNat)
    (by
      intro s hinv hc
      obtain ⟨hlen, hi0, hi1, hel⟩ := hinv
      have hlt : s.i < n1 := by simpa using hc
      have hdl : s.i < s.dst.length := by omega
      simp only [mergeCopyBody, sliceGet_of_lt arr (off + s.i) (by omega) (by omega),
        Option.some_bind, sliceSet_of_lt s.dst s.i _ hi0 hdl]
      refine ⟨_, rfl, ⟨?_, ?_, ?_, ?_⟩, ?_⟩
      · show (((s.dst.set s.i.toNat (elem arr (off + s.i))).length : Nat) : Int) = n1
        rw [List.length_set]
        exact hlen
      · show 0 ≤ s.i + 1
        omega
      · show s.i + 1 ≤ n1
        omega
      · intro k hk0 hk1
        have hk1' : k < s.i + 1 := hk1
        show elem (s.dst.set s.i.toNat (elem arr (off + s.i))) k = elem arr (off + k)
        rw [elem_set s.dst s.i _ k hi0 hdl hk0]
        by_cases h : k = s.i
        · rw [if_pos h, h]
        · rw [if_neg h]
          exact hel k hk0 (by omega)
      · show (n1 - (s.i + 1)).toNat < (n1 - s.i).toNat
        omega)
    fuel { i := 0, dst := List.replicate n1.toNat 0 }
    ⟨by show (((List.replicate n1.toNat (0 : Int)).length : Nat) : Int) = n1
        rw [List.length_replicate]; omega,
      le_refl _, hn, fun k hk0 hk1 => by
        have hk1' : k < 0 := hk1
        omega⟩
    (by show (n1 - 0).toNat < fuel; simpa using hf)
  refine ⟨c, hc, ?_⟩
  have hci : ¬ c.i < n1 := by simpa using hcond
  have hseg := length_segment arr off (off + n1) h0 (by omega) h1
  apply ext_elem
  · omega
  · intro k hk0 hk1
    rw [hel k hk0 (by omega), elem_segment arr off (off + n1) k h0 h1 hk0 (by omega)]

theorem elem_append_left (M N : List Int) (q : Int) (h0 : 0 ≤ q) (h1 : q < M.length) :
    elem (M ++ N) q = elem M q := by
  have h2 : q.toNat < M.length := by omega
  have h3 : q.toNat < (M ++ N).length := by simp; omega
  rw [elem_eq_getElem _ _ h3, elem_eq_getElem _ _ h2, List.getElem_append_left h2]

theorem elem_append_singleton (M : List Int) (x : Int) :
    elem (M ++ [x]) (M.length : Int) = x := by
  have h3 : (M.length : Int).toNat < (M ++ [x]).length := by simp
  rw [elem_eq_getElem _ _ h3]
  simp

theorem drop_eq_elem_cons (L : List Int) (i : Int) (h0 : 0 ≤ i) (h1 : i < L.length) :
    L.drop i.toNat = elem L i :: L.drop (i + 1).toNat := by
  have h2 : i.toNat < L.length := by omega
  rw [elem_eq_getElem _ _ h2, show (i + 1).toNat = i.toNat + 1 by omega]
  exact List.drop_eq_getElem_cons h2

/-- Writing the next element of the merge keeps the invariant. -/
theorem mergeInv_write (a0 L R : List Int) (left : Int) (s : MergeLoop) (x i' j' : Int)
    (st : SortingStats) (h0 : 0 ≤ left) (hfit : left + L.length + R.length ≤ a0.length)
    (hinv : MergeInv a0 L R left s)
    (hi : 0 ≤ i' ∧ i' ≤ L.length) (hj : 0 ≤ j' ∧ j' ≤ R.length)
    (hsum : i' + j' = s.i + s.j + 1)
    (hdec : List.merge (L.drop s.i.toNat) (R.drop s.j.toNat) leBool =
      x :: List.merge (L.drop i'.toNat) (R.drop j'.toNat) leBool) :
    ∃ a, sliceSet s.arr s.k x = some a ∧
      MergeInv a0 L R left { i := i', j := j', k := s.k + 1, arr := a, stats := st } := by
  obtain ⟨hlen, hi0, hi1, hj0, hj1, hk, hout, M, hM, hmerge, hel⟩ := hinv
  have hkl : s.k < s.arr.length := by omega
  refine ⟨_, sliceSet_of_lt s.arr s.k x (by omega) hkl, ?_, hi.1, hi.2, hj.1, hj.2, ?_, ?_,
    M ++ [x], ?_, ?_, ?_⟩
  · show (s.arr.set s.k.toNat x).length = a0.length
    rw [List.length_set, hlen]
  · show s.k + 1 = left + i' + j'
    omega
  · intro p hp0 hp1
    show elem (s.arr.set s.k.toNat x) p = elem a0 p
    rw [elem_set s.arr s.k x p (by omega) hkl hp0, if_neg (by omega)]
    exact hout p hp0 hp1
  · show (((M ++ [x]).length : Nat) : Int) = i' + j'
    rw [List.length_append, List.length_singleton]
    push_cast
    omega
  · show (M ++ [x]) ++ List.merge (L.drop i'.toNat) (R.drop j'.toNat) leBool =
      List.merge L R leBool
    rw [← hmerge, hdec, List.append_assoc]
    rfl
  · intro p hp0 hp1
    have hp1' : p < s.k + 1 := hp1
    show elem (s.arr.set s.k.toNat x) p = elem (M ++ [x]) (p - left)
    rw [elem_set s.arr s.k x p (by omega) hkl (by omega)]
    by_cases h : p = s.k
    · rw [if_pos h]
      have : p - left = (M.length : Int) := by omega
      rw [this, elem_append_singleton]
    · rw [if_neg h, elem_append_left M [x] (p - left) (by omega) (by omega)]
      exact hel p hp0 (by omega)

theorem mergeMain_step (a0 L R : List Int) (left : Int) (s : MergeLoop) (h0 : 0 ≤ left)
    (hfit : left + L.length + R.length ≤ a0.length) (hinv : MergeInv a0 L R left s)
    (hi : s.i < L.length) (hj : s.j < R.length) :
    ∃ s', mergeMainBody L R s = some s' ∧ MergeInv a0 L R left s' ∧
      s'.i + s'.j = s.i + s.j + 1 := by
  have hi0 := hinv.2.1
  have hj0 := hinv.2.2.2.1
  simp only [mergeMainBody, sliceGet_of_lt L s.i hi0 hi, sliceGet_of_lt R s.j hj0 hj,
    Option.some_bind]
  have hL := drop_eq_elem_cons L s.i hi0 hi
  have hR := drop_eq_elem_cons R s.j hj0 hj
  by_cases hle : elem L s.i ≤ elem R s.j
  · rw [if_pos hle]
    obtain ⟨a, ha, hinv'⟩ := mergeInv_write a0 L R left s (elem L s.i) (s.i + 1) s.j
      s.stats.incComparisons h0 hfit hinv ⟨by omega, by omega⟩ ⟨hj0, by omega⟩ (by omega)
      (by
        rw [hL, hR, List.cons_merge_cons_pos _ _ _ (by simpa [leBool] using hle), ← hR])
    rw [ha]
    exact ⟨_, rfl, hinv', by show s.i + 1 + s.j = s.i + s.j + 1; omega⟩
  · rw [if_neg hle]
    obtain ⟨a, ha, hinv'⟩ := mergeInv_write a0 L R left s (elem R s.j) s.i (s.j + 1)
      s.stats.incComparisons h0 hfit hinv ⟨hi0, by omega⟩ ⟨by omega, by omega⟩ (by omega)
      (by
        rw [hL, hR, List.cons_merge_cons_neg _ _ _ (by simpa [leBool] using hle), ← hL])
    rw [ha]
    exact ⟨_, rfl, hinv', by show s.i + (s.j + 1) = s.i + s.j + 1; omega⟩

theorem mergeLeft_step (a0 L R : List Int) (left : Int) (s : MergeLoop) (h0 : 0 ≤ left)
    (hfit : left + L.length + R.length ≤ a0.length) (hinv : MergeRestInv a0 L R left s)
    (hi : s.i < L.length) :
    ∃ s', mergeLeftBody L s = some s' ∧ MergeRestInv a0 L R left s' ∧
      s'.i = s.i + 1 ∧ s'.j = s.j := by
  obtain ⟨hinv, hrest⟩ := hinv
  have hi0 := hinv.2.1
  have hj0 := hinv.2.2.2.1
  have hjn : s.j = R.length := by omega
  simp only [mergeLeftBody, sliceGet_of_lt L s.i hi0 hi, Option.some_bind]
  have hL := drop_eq_elem_cons L s.i hi0 hi
  have hR : R.drop s.j.toNat = [] := by
    apply List.drop_eq_nil_of_le
    omega
  obtain ⟨a, ha, hinv'⟩ := mergeInv_write a0 L R left s (elem L s.i) (s.i + 1) s.j
    s.stats h0 hfit hinv ⟨by omega, by omega⟩ ⟨hj0, by omega⟩ (by omega)
    (by rw [hR, List.merge_right, List.merge_right, hL])
  rw [ha]
  exact ⟨_, rfl, ⟨hinv', Or.inr hjn⟩, rfl, rfl⟩

theorem mergeRight_step (a0 L R : List Int) (left : Int) (s : MergeLoop) (h0 : 0 ≤ left)
    (hfit : left + L.length + R.length ≤ a0.length) (hinv : MergeRestInv a0 L R left s)
    (hin : s.i = L.length) (hj : s.j < R.length) :
    ∃ s', mergeRightBody R s = some s' ∧ MergeRestInv a0 L R left s' ∧
      s'.i = s.i ∧ s'.j = s.j + 1 := by
  obtain ⟨hinv, -⟩ := hinv
  have hi0 := hinv.2.1
  have hj0 := hinv.2.2.2.1
  simp only [mergeRightBody, sliceGet_of_lt R s.j hj0 hj, Option.some_bind]
  have hR := drop_eq_elem_cons R s.j hj0 hj
  have hL : L.drop s.i.toNat = [] := by
    apply List.drop_eq_nil_of_le
    omega
  obtain ⟨a, ha, hinv'⟩ := mergeInv_write a0 L R left s (elem R s.j) s.i (s.j + 1)
    s.stats h0 hfit hinv ⟨hi0, by omega⟩ ⟨by omega, by omega⟩ (by omega)
    (by rw [hL, List.nil_merge, List.nil_merge, hR])
  rw [ha]
  exact ⟨_, rfl, ⟨hinv', Or.inl hin⟩, rfl, rfl⟩

theorem mergeMain_spec (a0 L R : List Int) (left : Int) (st : SortingStats) (h0 : 0 ≤ left)
    (hfit : left + L.length + R.length ≤ a0.length) :
    ∃ s, whileLoop (fun s : MergeLoop => decide (s.i < (L.length : Int)) &&
          decide (s.j < (R.length : Int))) (mergeMainBody L R) (a0.length + 1)
        { i := 0, j := 0, k := left, arr := a0, stats := st } = some s ∧
      MergeRestInv a0 L R left s := by
  obtain ⟨s, hs, hinv, hc⟩ := whileLoop_rule
    (fun s : MergeLoop => decide (s.i < (L.length : Int)) && decide (s.j < (R.length : Int)))
    (mergeMainBody L R) (MergeInv a0 L R left)
    (fun s => ((L.length : Int) + R.length - (s.i + s.j)).toNat)
    (by
      intro s hinv hc
      simp only [Bool.and_eq_true, decide_eq_true_eq] at hc
      obtain ⟨s', e1, e2, e3⟩ := mergeMain_step a0 L R left s h0 hfit hinv hc.1 hc.2
      refine ⟨s', e1, e2, ?_⟩
      show ((L.length : Int) + R.length - (s'.i + s'.j)).toNat <
        ((L.length : Int) + R.length - (s.i + s.j)).toNat
      omega)
    (a0.length + 1) { i := 0, j := 0, k := left, arr := a0, stats := st }
    ⟨rfl, le_refl _, by show (0 : Int) ≤ L.length; omega, le_refl _,
      by show (0 : Int) ≤ R.length; omega, by show left = left + 0 + 0; omega,
      fun p _ _ => rfl, [], rfl, rfl, fun p hp0 hp1 => by
        have hp1' : p < left := hp1
        omega⟩
    (by
      show ((L.length : Int) + R.length - (0 + 0)).toNat < a0.length + 1
      omega)
  refine ⟨s, hs, hinv, ?_⟩
  simp only [Bool.and_eq_false_iff, decide_eq_false_iff_not] at hc
  have := hinv.2.2.1
  have := hinv.2.2.2.2.1
  omega

theorem mergeLeft_spec (a0 L R : List Int) (left : Int) (s : MergeLoop) (h0 : 0 ≤ left)
    (hfit : left + L.length + R.length ≤ a0.length) (hinv : MergeRestInv a0 L R left s) :
    ∃ s', whileLoop (fun s : MergeLoop => decide (s.i < (L.length : Int))) (mergeLeftBody L)
        (a0.length + 1) s = some s' ∧ MergeRestInv a0 L R left s' ∧ s'.i = L.length := by
  obtain ⟨s', hs, hinv', hc⟩ := whileLoop_rule
    (fun s : MergeLoop => decide (s.i < (L.length : Int))) (mergeLeftBody L)
    (MergeRestInv a0 L R left) (fun s => ((L.length : Int) - s.i).toNat)
    (by
      intro s hinv hc
      have hc' : s.i < (L.length : Int) := by simpa using hc
      obtain ⟨s', e1, e2, e3, -⟩ := mergeLeft_step a0 L R left s h0 hfit hinv hc'
      refine ⟨s', e1, e2, ?_⟩
      show ((L.length : Int) - s'.i).toNat < ((L.length : Int) - s.i).toNat
      omega)
    (a0.length + 1) s hinv
    (by
      show ((L.length : Int) - s.i).toNat < a0.length + 1
      have := hinv.1.2.1
      omega)
  have hc' : ¬ s'.i < (L.length : Int) := by simpa using hc
  have := hinv'.1.2.2.1
  exact ⟨s', hs, hinv', by omega⟩

theorem mergeRight_spec (a0 L R : List Int) (left : Int) (s : MergeLoop) (h0 : 0 ≤ left)
    (hfit : left + L.length + R.length ≤ a0.length) (hinv : MergeRestInv a0 L R left s)
    (hi : s.i = L.length) :
    ∃ s', whileLoop (fun s : MergeLoop => decide (s.j < (R.length : Int))) (mergeRightBody R)
        (a0.length + 1) s = some s' ∧ MergeInv a0 L R left s' ∧ s'.i = L.length ∧
      s'.j = R.length := by
  obtain ⟨s', hs, ⟨hinv', hi'⟩, hc⟩ := whileLoop_rule
    (fun s : MergeLoop => decide (s.j < (R.length : Int))) (mergeRightBody R)
    (fun s => MergeRestInv a0 L R left s ∧ s.i = L.length)
    (fun s => ((R.length : Int) - s.j).toNat)
    (by
      intro s hinv hc
      have hc' : s.j < (R.length : Int) := by simpa using hc
      obtain ⟨s', e1, e2, e3, e4⟩ := mergeRight_step a0 L R left s h0 hfit hinv.1 hinv.2 hc'
      refine ⟨s', e1, ⟨e2, by rw [e3]; exact hinv.2⟩, ?_⟩
      show ((R.length : Int) - s'.j).toNat < ((R.length : Int) - s.j).toNat
      omega)
    (a0.length + 1) s ⟨hinv, hi⟩
    (by
      show ((R.length : Int) - s.j).toNat < a0.length + 1
      have := hinv.1.2.2.2.1
      omega)
  have hc' : ¬ s'.j < (R.length : Int) := by simpa using hc
  have := hinv'.1.2.2.2.2.1
  exact ⟨s', hs, hinv'.1, hi', by omega⟩

/-- What `merge` does for `0 ≤ left ≤ mid + 1`, `mid ≤ right < len(arr)`: the
range from `left` to `right` becomes the merge of its two parts, the rest of the
slice is unchanged. -/
theorem merge_spec (arr : List Int) (left mid right : Int) (stats : SortingStats)
    (h0 : 0 ≤ left) (h1 : left ≤ mid + 1) (h2 : mid ≤ right) (h3 : right < arr.length) :
    ∃ r, merge arr left mid right stats = some r ∧ r.1.length = arr.length ∧
      (∀ p, 0 ≤ p → (p < left ∨ right < p) → elem r.1 p = elem arr p) ∧
      segment r.1 left (right + 1) =
        List.merge (segment arr left (mid + 1)) (segment arr (mid + 1) (right + 1)) leBool := by
  have hm1 : makeSlice (mid - left + 1) = some (List.replicate (mid - left + 1).toNat 0) := by
    simp [makeSlice]; omega
  have hm2 : makeSlice (right - mid) = some (List.replicate (right - mid).toNat 0) := by
    simp [makeSlice]; omega
  obtain ⟨cl, hcl, hL⟩ := mergeCopy_spec arr left (mid - left + 1) h0 (by omega) (by omega)
    (arr.length + 1) (by omega)
  obtain ⟨cr, hcr, hR⟩ := mergeCopy_spec arr (mid + 1) (right - mid) (by omega) (by omega)
    (by omega) (arr.length + 1) (by omega)
  rw [show left + (mid - left + 1) = mid + 1 by ring] at hL
  rw [show mid + 1 + (right - mid) = right + 1 by ring] at hR
  have hLlen := length_segment arr left (mid + 1) h0 h1 (by omega)
  have hRlen := length_segment arr (mid + 1) (right + 1) (by omega) (by omega) (by omega)
  rw [← hL] at hLlen
  rw [← hR] at hRlen
  have hfit : left + (cl.dst.length : Int) + cr.dst.length ≤ arr.length := by omega
  obtain ⟨s1, hs1, hinv1⟩ := mergeMain_spec arr cl.dst cr.dst left stats h0 hfit
  obtain ⟨s2, hs2, hinv2, hi2⟩ := mergeLeft_spec arr cl.dst cr.dst left s1 h0 hfit hinv1
  obtain ⟨s3, hs3, hinv3, hi3, hj3⟩ := mergeRight_spec arr cl.dst cr.dst left s2 h0 hfit hinv2 hi2
  have hc1 : (fun s : MergeLoop => decide (s.i < mid - left + 1) && decide (s.j < right - mid))
      = (fun s : MergeLoop => decide (s.i < (cl.dst.length : Int)) &&
          decide (s.j < (cr.dst.length : Int))) := by
    rw [hLlen, hRlen]
    funext s
    congr 2
    · rw [show mid + 1 - left = mid - left + 1 by ring]
    · rw [show right + 1 - (mid + 1) = right - mid by ring]
  have hc2 : (fun s : MergeLoop => decide (s.i < mid - left + 1))
      = (fun s : MergeLoop => decide (s.i < (cl.dst.length : Int))) := by
    rw [hLlen]
    funext s
    rw [show mid + 1 - left = mid - left + 1 by ring]
  have hc3 : (fun s : MergeLoop => decide (s.j < right - mid))
      = (fun s : MergeLoop => decide (s.j < (cr.dst.length : Int))) := by
    rw [hRlen]
    funext s
    rw [show right + 1 - (mid + 1) = right - mid by ring]
  obtain ⟨hlen, -, -, -, -, hk, hout, M, hM, hmerge, hel⟩ := hinv3
  refine ⟨(s3.arr, s3.stats), ?_, hlen, ?_, ?_⟩
  · simp only [merge, hm1, hm2, Option.some_bind, hcl, hcr, hc1, hc2, hc3, hs1, hs2, hs3]
  · intro p hp0 hp1
    exact hout p hp0 (by omega)
  · have hd1 : cl.dst.drop s3.i.toNat = [] := List.drop_eq_nil_of_le (by omega)
    have hd2 : cr.dst.drop s3.j.toNat = [] := List.drop_eq_nil_of_le (by omega)
    rw [hd1, hd2, List.nil_merge, List.append_nil] at hmerge
    show segment s3.arr left (right + 1) =
      List.merge (segment arr left (mid + 1)) (segment arr (mid + 1) (right + 1)) leBool
    rw [← hL, ← hR, ← hmerge]
    have hseg := length_segment s3.arr left (right + 1) h0 (by omega) (by omega)
    apply ext_elem
    · omega
    · intro k hk0 hk1
      rw [elem_segment s3.arr left (right + 1) k h0 (by omega) hk0 (by omega),
        hel (left + k) (by omega) (by omega)]
      congr 1
      omega

theorem segment_congr (a b : List Int) (lo hi : Int) (h0 : 0 ≤ lo) (hlh : lo ≤ hi)
    (ha : hi ≤ a.length) (hb : hi ≤ b.length)
    (h : ∀ p, lo ≤ p → p < hi → elem a p = elem b p) : segment a lo hi = segment b lo hi := by
  have hla := length_segment a lo hi h0 hlh ha
  have hlb := length_segment b lo hi h0 hlh hb
  apply ext_elem
  · omega
  · intro k hk0 hk1
    rw [elem_segment a lo hi k h0 ha hk0 (by omega), elem_segment b lo hi k h0 hb hk0 (by omega)]
    exact h (lo + k) (by omega) (by omega)

theorem segment_append (a : List Int) (lo mid hi : Int) (h0 : 0 ≤ lo) (h1 : lo ≤ mid)
    (h2 : mid ≤ hi) (h3 : hi ≤ a.length) :
    segment a lo hi = segment a lo mid ++ segment a mid hi := by
  have hl := length_segment a lo hi h0 (by omega) h3
  have hl1 := length_segment a lo mid h0 h1 (by omega)
  have hl2 := length_segment a mid hi (by omega) h2 h3
  apply List.ext_getElem
  · rw [List.length_append]
    omega
  · intro n hn1 hn2
    have e1 := elem_segment a lo hi n h0 h3 (by omega) (by omega)
    rw [elem_natCast _ n hn1] at e1
    rw [e1]
    by_cases hlt : n < (segment a lo mid).length
    · rw [List.getElem_append_left hlt]
      have e2 := elem_segment a lo mid n h0 (by omega) (by omega) (by omega)
      rw [elem_natCast _ n hlt] at e2
      rw [e2]
    · have hge : (segment a lo mid).length ≤ n := by omega
      rw [List.getElem_append_right hge]
      have hn3 : n - (segment a lo mid).length < (segment a mid hi).length := by
        rw [List.length_append] at hn2
        omega
      have e3 := elem_segment a mid hi ((n - (segment a lo mid).length : Nat) : Int)
        (by omega) h3 (by omega) (by omega)
      rw [elem_natCast _ _ hn3] at e3
      rw [e3]
      congr 1
      omega

theorem segment_full (a : List Int) : segment a 0 a.length = a := by
  simp [segment]

theorem sorted_merge_leBool (L R : List Int) (hL : List.Sorted (· ≤ ·) L)
    (hR : List.Sorted (· ≤ ·) R) : List.Sorted (· ≤ ·) (List.merge L R leBool) := by
  have h := @List.sorted_merge Int leBool
    (fun a b c hab hbc => by
      simp only [leBool, decide_eq_true_eq] at hab hbc ⊢
      omega)
    (fun a b => by
      simp only [leBool, Bool.or_eq_true, decide_eq_true_eq]
      omega)
    L R
    (List.Pairwise.imp (fun {a b} hab => by simpa [leBool] using hab) hL)
    (List.Pairwise.imp (fun {a b} hab => by simpa [leBool] using hab) hR)
  exact List.Pairwise.imp (fun {a b} hab => by simpa [leBool] using hab) h

theorem sorted_of_length_le_one (l : List Int) (h : l.length ≤ 1) : List.Sorted (· ≤ ·) l := by
  match l, h with
  | [], _ => exact List.sorted_nil
  | [x], _ => exact List.sorted_singleton x

/-- What `mergeSortHelper` does on the range from `left` to `right`: the range
becomes a sorted permutation of itself and the rest of the slice is unchanged. -/
theorem mergeSortHelper_spec (fuel : Nat) (arr : List Int) (left right : Int)
    (stats : SortingStats) (h0 : 0 ≤ left) (h1 : left ≤ right + 1) (h2 : right < arr.length)
    (hf1 : (right - left + 1).toNat ≤ fuel) (hf2 : 1 ≤ fuel) :
    ∃ r, mergeSortHelper fuel arr left right stats = some r ∧ r.1.length = arr.length ∧
      (∀ p, 0 ≤ p → (p < left ∨ right < p) → elem r.1 p = elem arr p) ∧
      (segment r.1 left (right + 1)).Perm (segment arr left (right + 1)) ∧
      List.Sorted (· ≤ ·) (segment r.1 left (right + 1)) := by
  induction fuel generalizing arr left right stats with
  | zero => omega
  | succ fuel ih =>
    unfold mergeSortHelper
    by_cases hlt : left < right
    · rw [if_pos hlt]
      have hdiv : (right - left).tdiv 2 = (right - left) / 2 :=
        Int.tdiv_eq_ediv (by omega) (by omega)
      simp only [hdiv]
      have hm0 : left ≤ left + (right - left) / 2 := by omega
      have hm1 : left + (right - left) / 2 < right := by omega
      generalize left + (right - left) / 2 = mid at hm0 hm1
      obtain ⟨r1, e1, len1, out1, perm1, sorted1⟩ :=
        ih arr left mid stats h0 (by omega) (by omega) (by omega) (by omega)
      obtain ⟨r2, e2, len2, out2, perm2, sorted2⟩ :=
        ih r1.1 (mid + 1) right r1.2 (by omega) (by omega) (by omega) (by omega) (by omega)
      obtain ⟨r3, e3, len3, out3, seg3⟩ :=
        merge_spec r2.1 left mid right r2.2 h0 (by omega) (by omega) (by omega)
      rw [e1]
      simp only [Option.some_bind]
      rw [e2]
      simp only [Option.some_bind]
      rw [e3]
      -- the left half after the second call is the left half after the first call
      have hseg1 : segment r2.1 left (mid + 1) = segment r1.1 left (mid + 1) :=
        segment_congr r2.1 r1.1 left (mid + 1) h0 (by omega) (by omega) (by omega)
          (fun p hp0 hp1 => out2 p (by omega) (Or.inl (by omega)))
      -- the right half before the second call is the right half of `arr`
      have hseg2 : segment r1.1 (mid + 1) (right + 1) = segment arr (mid + 1) (right + 1) :=
        segment_congr r1.1 arr (mid + 1) (right + 1) (by omega) (by omega) (by omega) (by omega)
          (fun p hp0 hp1 => out1 p (by omega) (Or.inr (by omega)))
      refine ⟨r3, rfl, by omega, ?_, ?_, ?_⟩
      · intro p hp0 hp1
        rw [out3 p hp0 hp1, out2 p hp0 (by omega), out1 p hp0 (by omega)]
      · rw [seg3, hseg1, segment_append arr left (mid + 1) (right + 1) h0 (by omega) (by omega)
          (by omega)]
        refine (List.merge_perm_append leBool).trans ?_
        rw [← hseg2]
        exact List.Perm.append perm1 perm2
      · rw [seg3, hseg1]
        exact sorted_merge_leBool _ _ sorted1 sorted2
    · rw [if_neg hlt]
      refine ⟨(arr, stats), rfl, rfl, fun _ _ _ => rfl, List.Perm.refl _, ?_⟩
      apply sorted_of_length_le_one
      have := length_segment arr left (right + 1) h0 h1 (by omega)
      show (segment arr left (right + 1)).length ≤ 1
      omega

theorem mergeSort_spec (arr : List Int) :
    ∃ run, MergeSort arr = some run ∧ run.arr = arr ∧ run.arrCopy.Perm arr ∧
      List.Sorted (· ≤ ·) run.arrCopy := by
  obtain ⟨r, e, len, -, perm, sorted⟩ := mergeSortHelper_spec (arr.length + 1) arr 0
    ((arr.length : Int) - 1) ⟨0, 0⟩ (le_refl _) (by omega) (by omega) (by omega) (by omega)
  rw [show (arr.length : Int) - 1 + 1 = arr.length by ring] at perm sorted
  have hr : segment r.1 0 (arr.length : Int) = r.1 := by
    rw [← len]
    exact segment_full r.1
  rw [hr] at perm sorted
  rw [segment_full] at perm
  refine ⟨{ arr := arr, arrCopy := r.1, stats := r.2 }, ?_, rfl, perm, sorted⟩
  simp only [MergeSort]
  rw [e]
  rfl

/-! ## QuickSort is correct -/

theorem partition_step (a0 : List Int) (low high pivot : Int) (s : PartitionLoop)
    (h0 : 0 ≤ low) (h2 : high < a0.length) (hinv : PartitionInv a0 low high pivot s)
    (hj : s.j < high) :
    ∃ s', partitionBody pivot s = some s' ∧ PartitionInv a0 low high pivot s' ∧
      s'.j = s.j + 1 := by
  obtain ⟨hlen, hperm, hi0, hij, hj0, hj1, hpiv, hlow, hhigh, hout⟩ := hinv
  have hjl : s.j < s.arr.length := by omega
  simp only [partitionBody, sliceGet_of_lt s.arr s.j (by omega) hjl, Option.some_bind]
  by_cases hlt : elem s.arr s.j < pivot
  · rw [if_pos hlt, sliceSwap_of_lt s.arr (s.i + 1) s.j (by omega) (by omega) (by omega) hjl]
    simp only [Option.some_bind]
    have hel : ∀ k, 0 ≤ k → elem (swapElems s.arr (s.i + 1) s.j) k =
        if k = s.j then elem s.arr (s.i + 1) else
          if k = s.i + 1 then elem s.arr s.j else elem s.arr k :=
      fun k hk => elem_swapElems s.arr (s.i + 1) s.j k (by omega) (by omega) (by omega) hjl hk
    refine ⟨_, rfl, ⟨?_, ?_, ?_, ?_, ?_, ?_, ?_, ?_, ?_, ?_⟩, rfl⟩
    · show (swapElems s.arr (s.i + 1) s.j).length = a0.length
      rw [length_swapElems, hlen]
    · exact (swapElems_perm s.arr (s.i + 1) s.j (by omega) (by omega) (by omega) hjl).trans hperm
    · show low - 1 ≤ s.i + 1
      omega
    · show s.i + 1 < s.j + 1
      omega
    · show low ≤ s.j + 1
      omega
    · show s.j + 1 ≤ high
      omega
    · show elem (swapElems s.arr (s.i + 1) s.j) high = pivot
      rw [hel high (by omega), if_neg (by omega), if_neg (by omega)]
      exact hpiv
    · intro p hp0 hp1
      have hp1' : p ≤ s.i + 1 := hp1
      show elem (swapElems s.arr (s.i + 1) s.j) p < pivot
      rw [hel p (by omega)]
      by_cases h1 : p = s.j
      · rw [if_pos h1]
        have : s.i + 1 = s.j := by omega
        rw [this]
        exact hlt
      · rw [if_neg h1]
        by_cases h2 : p = s.i + 1
        · rw [if_pos h2]
          exact hlt
        · rw [if_neg h2]
          exact hlow p hp0 (by omega)
    · intro p hp0 hp1
      have hp0' : s.i + 1 < p := hp0
      have hp1' : p < s.j + 1 := hp1
      show pivot ≤ elem (swapElems s.arr (s.i + 1) s.j) p
      rw [hel p (by omega)]
      by_cases h1 : p = s.j
      · rw [if_pos h1]
        exact hhigh (s.i + 1) (by omega) (by omega)
      · rw [if_neg h1, if_neg (by omega)]
        exact hhigh p (by omega) (by omega)
    · intro p hp0 hp1
      show elem (swapElems s.arr (s.i + 1) s.j) p = elem a0 p
      rw [hel p hp0, if_neg (by omega), if_neg (by omega)]
      exact hout p hp0 hp1
  · rw [if_neg hlt]
    refine ⟨_, rfl, ⟨hlen, hperm, hi0, ?_, ?_, ?_, hpiv, hlow, ?_, hout⟩, rfl⟩
    · show s.i < s.j + 1
      omega
    · show low ≤ s.j + 1
      omega
    · show s.j + 1 ≤ high
      omega
    · intro p hp0 hp1
      have hp1' : p < s.j + 1 := hp1
      show pivot ≤ elem s.arr p
      by_cases h1 : p = s.j
      · rw [h1]
        exact not_lt.mp hlt
      · exact hhigh p hp0 (by omega)

/-- The postcondition of `partition` for `0 ≤ low ≤ high < len(arr)`. -/
theorem partition_spec (arr : List Int) (low high : Int) (stats : SortingStats)
    (h0 : 0 ≤ low) (h1 : low ≤ high) (h2 : high < arr.length) :
    ∃ r, partition arr low high stats = some r ∧ r.1.length = arr.length ∧ r.1.Perm arr ∧
      low ≤ r.2.2 ∧ r.2.2 ≤ high ∧ elem r.1 r.2.2 = elem arr high ∧
      (∀ p, low ≤ p → p < r.2.2 → elem r.1 p < elem arr high) ∧
      (∀ p, r.2.2 < p → p ≤ high → elem arr high ≤ elem r.1 p) ∧
      (∀ p, 0 ≤ p → (p < low ∨ high < p) → elem r.1 p = elem arr p) := by
  obtain ⟨s, hs, ⟨hlen, hperm, hi0, hij, hj0, hj1, hpiv, hlow, hhigh, hout⟩, hc⟩ :=
    whileLoop_rule (fun s : PartitionLoop => decide (s.j < high))
      (partitionBody (elem arr high)) (PartitionInv arr low high (elem arr high))
      (fun s => (high - s.j).toNat)
      (by
        intro s hinv hc
        have hc' : s.j < high := by simpa using hc
        obtain ⟨s', e1, e2, e3⟩ := partition_step arr low high _ s h0 h2 hinv hc'
        refine ⟨s', e1, e2, ?_⟩
        show (high - s'.j).toNat < (high - s.j).toNat
        omega)
      (arr.length + 1) { i := low - 1, j := low, arr := arr, stats := stats }
      ⟨rfl, List.Perm.refl _, le_refl _, by show low - 1 < low; omega, le_refl _, h1, rfl,
        fun p hp0 hp1 => by
          have hp1' : p ≤ low - 1 := hp1
          omega,
        fun p hp0 hp1 => by
          have hp0' : low - 1 < p := hp0
          have hp1' : p < low := hp1
          omega,
        fun p _ _ => rfl⟩
      (by show (high - low).toNat < arr.length + 1; omega)
  have hc' : ¬ s.j < high := by simpa using hc
  have hjh : s.j = high := by omega
  have hil : s.i + 1 < s.arr.length := by omega
  have hhl : high < s.arr.length := by omega
  have hel : ∀ k, 0 ≤ k → elem (swapElems s.arr (s.i + 1) high) k =
      if k = high then elem s.arr (s.i + 1) else
        if k = s.i + 1 then elem s.arr high else elem s.arr k :=
    fun k hk => elem_swapElems s.arr (s.i + 1) high k (by omega) hil (by omega) hhl hk
  refine ⟨(swapElems s.arr (s.i + 1) high, s.stats.incSwaps, s.i + 1), ?_, ?_, ?_, ?_, ?_, ?_,
    ?_, ?_, ?_⟩
  · simp only [partition, sliceGet_of_lt arr high (by omega) h2, Option.some_bind, hs,
      sliceSwap_of_lt s.arr (s.i + 1) high (by omega) hil (by omega) hhl]
  · show (swapElems s.arr (s.i + 1) high).length = arr.length
    rw [length_swapElems, hlen]
  · exact (swapElems_perm s.arr (s.i + 1) high (by omega) hil (by omega) hhl).trans hperm
  · show low ≤ s.i + 1
    omega
  · show s.i + 1 ≤ high
    omega
  · show elem (swapElems s.arr (s.i + 1) high) (s.i + 1) = elem arr high
    rw [hel (s.i + 1) (by omega)]
    by_cases h : s.i + 1 = high
    · rw [if_pos h, h]
      exact hpiv
    · rw [if_neg h, if_pos rfl]
      exact hpiv
  · intro p hp0 hp1
    have hp1' : p < s.i + 1 := hp1
    show elem (swapElems s.arr (s.i + 1) high) p < elem arr high
    rw [hel p (by omega), if_neg (by omega), if_neg (by omega)]
    exact hlow p hp0 (by omega)
  · intro p hp0 hp1
    have hp0' : s.i + 1 < p := hp0
    show elem arr high ≤ elem (swapElems s.arr (s.i + 1) high) p
    rw [hel p (by omega)]
    by_cases h : p = high
    · rw [if_pos h]
      exact hhigh (s.i + 1) (by omega) (by omega)
    · rw [if_neg h, if_neg (by omega)]
      exact hhigh p (by omega) (by omega)
  · intro p hp0 hp1
    show elem (swapElems s.arr (s.i + 1) high) p = elem arr p
    rw [hel p hp0, if_neg (by omega), if_neg (by omega)]
    exact hout p hp0 hp1

/-- What `quickSortHelper` does on the range from `low` to `high`: the range
is put in order by a permutation and the rest of the slice is unchanged. -/
theorem quickSortHelper_spec (fuel : Nat) (arr : List Int) (low high : Int)
    (stats : SortingStats) (h0 : 0 ≤ low) (h1 : low ≤ high + 1) (h2 : high < arr.length)
    (hf1 : (high - low + 1).toNat ≤ fuel) (hf2 : 1 ≤ fuel) :
    ∃ r, quickSortHelper fuel arr low high stats = some r ∧ r.1.length = arr.length ∧
      r.1.Perm arr ∧
      (∀ p, 0 ≤ p → (p < low ∨ high < p) → elem r.1 p = elem arr p) ∧
      SortedOn r.1 low (high + 1) := by
  induction fuel generalizing arr low high stats with
  | zero => omega
  | succ fuel ih =>
    unfold quickSortHelper
    by_cases hlt : low < high
    · rw [if_pos hlt]
      obtain ⟨r0, e0, len0, perm0, pi0, pi1, hpiv, hlo, hhi, out0⟩ :=
        partition_spec arr low high stats h0 (by omega) h2
      obtain ⟨r1, e1, len1, perm1, out1, sorted1⟩ :=
        ih r0.1 low (r0.2.2 - 1) r0.2.1 h0 (by omega) (by omega) (by omega) (by omega)
      obtain ⟨r2, e2, len2, perm2, out2, sorted2⟩ :=
        ih r1.1 (r0.2.2 + 1) high r1.2 (by omega) (by omega) (by omega) (by omega) (by omega)
      rw [e0]
      simp only [Option.some_bind]
      rw [e1]
      simp only [Option.some_bind]
      rw [e2]
      -- after the first call the left part is still below the pivot
      have hlo1 : ∀ p, low ≤ p → p < r0.2.2 → elem r1.1 p < elem arr high :=
        range_transfer r0.1 r1.1 low r0.2.2 h0 pi0 (by omega) len1 perm1
          (fun p hp0 hp1 hp2 => out1 p (by omega) (by omega))
          (fun x => x < elem arr high) hlo
      -- after the second call the right part is still not below the pivot
      have hhi1 : ∀ p, r0.2.2 + 1 ≤ p → p < high + 1 → elem arr high ≤ elem r2.1 p :=
        range_transfer r1.1 r2.1 (r0.2.2 + 1) (high + 1) (by omega) (by omega) (by omega) len2
          perm2 (fun p hp0 hp1 hp2 => out2 p (by omega) (by omega))
          (fun x => elem arr high ≤ x)
          (fun p hp0 hp1 => by
            rw [out1 p (by omega) (Or.inr (by omega))]
            exact hhi p (by omega) (by omega))
      have hleft : ∀ p, low ≤ p → p < r0.2.2 → elem r2.1 p = elem r1.1 p :=
        fun p hp0 hp1 => out2 p (by omega) (Or.inl (by omega))
      have hmid : elem r2.1 r0.2.2 = elem arr high := by
        rw [out2 r0.2.2 (by omega) (Or.inl (by omega)),
          out1 r0.2.2 (by omega) (Or.inr (by omega))]
        exact hpiv
      refine ⟨r2, rfl, by omega, (perm2.trans perm1).trans perm0, ?_, ?_⟩
      · intro p hp0 hp1
        rw [out2 p (by omega) (by omega), out1 p (by omega) (by omega), out0 p hp0 hp1]
      · intro p q hp hpq hq
        by_cases hq1 : q < r0.2.2
        · rw [hleft p hp (by omega), hleft q (by omega) hq1]
          exact sorted1 p q hp hpq (by omega)
        · by_cases hq2 : q = r0.2.2
          · rw [hq2, hmid]
            by_cases hp1 : p = r0.2.2
            · rw [hp1, hmid]
            · rw [hleft p hp (by omega)]
              exact le_of_lt (hlo1 p hp (by omega))
          · by_cases hp1 : p < r0.2.2
            · rw [hleft p hp hp1]
              exact le_trans (le_of_lt (hlo1 p hp hp1)) (hhi1 q (by omega) hq)
            · by_cases hp2 : p = r0.2.2
              · rw [hp2, hmid]
                exact hhi1 q (by omega) hq
              · exact sorted2 p q (by omega) hpq hq
    · rw [if_neg hlt]
      refine ⟨(arr, stats), rfl, rfl, List.Perm.refl _, fun _ _ _ => rfl, ?_⟩
      intro p q hp hpq hq
      have : p = q := by omega
      rw [this]

theorem quickSort_spec (arr : List Int) :
    ∃ run, QuickSort arr = some run ∧ run.arr = arr ∧ run.arrCopy.Perm arr ∧
      List.Sorted (· ≤ ·) run.arrCopy := by
  obtain ⟨r, e, len, perm, -, sorted⟩ := quickSortHelper_spec (arr.length + 1) arr 0
    ((arr.length : Int) - 1) ⟨0, 0⟩ (le_refl _) (by omega) (by omega) (by omega) (by omega)
  refine ⟨{ arr := arr, arrCopy := r.1, stats := r.2 }, ?_, rfl, perm, ?_⟩
  · simp only [QuickSort]
    rw [e]
    rfl
  · apply sorted_of_sortedOn
    show SortedOn r.1 0 r.1.length
    rw [len]
    intro p q hp hpq hq
    exact sorted p q hp hpq (by omega)

/-! ## HeapSort is correct -/

theorem heapifyLargest_spec (arr : List Int) (n i : Int) (stats : SortingStats)
    (h0 : 0 ≤ i) (h1 : i < n) (h2 : n ≤ arr.length) :
    ∃ r, heapifyLargest arr n i stats = some r ∧
      (r.1 = i ∨ (r.1 = 2 * i + 1 ∧ 2 * i + 1 < n) ∨ (r.1 = 2 * i + 2 ∧ 2 * i + 2 < n)) ∧
      elem arr i ≤ elem arr r.1 ∧
      (2 * i + 1 < n → elem arr (2 * i + 1) ≤ elem arr r.1) ∧
      (2 * i + 2 < n → elem arr (2 * i + 2) ≤ elem arr r.1) := by
  have ei := sliceGet_of_lt arr i h0 (by omega)
  by_cases hl : 2 * i + 1 < n
  · have el := sliceGet_of_lt arr (2 * i + 1) (by omega) (by omega)
    by_cases c1 : elem arr (2 * i + 1) > elem arr i
    · by_cases hr : 2 * i + 2 < n
      · have er := sliceGet_of_lt arr (2 * i + 2) (by omega) (by omega)
        by_cases c2 : elem arr (2 * i + 2) > elem arr (2 * i + 1)
        · refine ⟨(2 * i + 2, stats.incComparisons.incComparisons), ?_, ?_, ?_, ?_, ?_⟩
          · simp only [heapifyLargest, if_pos hl, el, ei, Option.some_bind, if_pos c1, if_pos hr,
              er, if_pos c2]
          · exact Or.inr (Or.inr ⟨rfl, hr⟩)
          · show elem arr i ≤ elem arr (2 * i + 2)
            omega
          · intro _
            show elem arr (2 * i + 1) ≤ elem arr (2 * i + 2)
            omega
          · intro _
            exact le_refl _
        · refine ⟨(2 * i + 1, stats.incComparisons.incComparisons), ?_, ?_, ?_, ?_, ?_⟩
          · simp only [heapifyLargest, if_pos hl, el, ei, Option.some_bind, if_pos c1, if_pos hr,
              er, if_neg c2]
          · exact Or.inr (Or.inl ⟨rfl, hl⟩)
          · show elem arr i ≤ elem arr (2 * i + 1)
            omega
          · intro _
            exact le_refl _
          · intro _
            show elem arr (2 * i + 2) ≤ elem arr (2 * i + 1)
            omega
      · refine ⟨(2 * i + 1, stats.incComparisons), ?_, ?_, ?_, ?_, ?_⟩
        · simp only [heapifyLargest, if_pos hl, el, ei, Option.some_bind, if_pos c1, if_neg hr]
        · exact Or.inr (Or.inl ⟨rfl, hl⟩)
        · show elem arr i ≤ elem arr (2 * i + 1)
          omega
        · intro _
          exact le_refl _
        · intro h
          exact absurd h hr
    · by_cases hr : 2 * i + 2 < n
      · have er := sliceGet_of_lt arr (2 * i + 2) (by omega) (by omega)
        by_cases c2 : elem arr (2 * i + 2) > elem arr i
        · refine ⟨(2 * i + 2, stats.incComparisons.incComparisons), ?_, ?_, ?_, ?_, ?_⟩
          · simp only [heapifyLargest, if_pos hl, el, ei, Option.some_bind, if_neg c1, if_pos hr,
              er, if_pos c2]
          · exact Or.inr (Or.inr ⟨rfl, hr⟩)
          · show elem arr i ≤ elem arr (2 * i + 2)
            omega
          · intro _
            show elem arr (2 * i + 1) ≤ elem arr (2 * i + 2)
            omega
          · intro _
            exact le_refl _
        · refine ⟨(i, stats.incComparisons.incComparisons), ?_, ?_, ?_, ?_, ?_⟩
          · simp only [heapifyLargest, if_pos hl, el, ei, Option.some_bind, if_neg c1, if_pos hr,
              er, if_neg c2]
          · exact Or.inl rfl
          · exact le_refl _
          · intro _
            show elem arr (2 * i + 1) ≤ elem arr i
            omega
          · intro _
            show elem arr (2 * i + 2) ≤ elem arr i
            omega
      · refine ⟨(i, stats.incComparisons), ?_, ?_, ?_, ?_, ?_⟩
        · simp only [heapifyLargest, if_pos hl, el, ei, Option.some_bind, if_neg c1, if_neg hr]
        · exact Or.inl rfl
        · exact le_refl _
        · intro _
          show elem arr (2 * i + 1) ≤ elem arr i
          omega
        · intro h
          exact absurd h hr
  · have hr : ¬ 2 * i + 2 < n := by omega
    refine ⟨(i, stats), ?_, ?_, ?_, ?_, ?_⟩
    · simp only [heapifyLargest, if_neg hl, Option.some_bind, if_neg hr]
    · exact Or.inl rfl
    · exact le_refl _
    · intro h
      exact absurd h hl
    · intro h
      exact absurd h hr

/-- The postcondition of `heapify`: called at a node `i` whose subtrees are heap
ordered, it returns, permutes the slice inside the range from `i` to `n` only,
and leaves every node from `lo` on heap ordered. -/
theorem heapify_spec (fuel : Nat) : ∀ (arr : List Int) (n lo i : Int) (stats : SortingStats),
    0 ≤ lo → lo ≤ i → i < n → n ≤ arr.length → (n - i).toNat ≤ fuel →
    HeapExcept arr n lo i →
    ∃ r, heapify fuel arr n i stats = some r ∧ r.1.length = arr.length ∧ r.1.Perm arr ∧
      (∀ p : Int, 0 ≤ p → (p < i ∨ n ≤ p) → elem r.1 p = elem arr p) ∧
      HeapFrom r.1 n lo := by
  induction fuel with
  | zero =>
    intro arr n lo i stats h0 h1 h2 h3 hf _
    omega
  | succ fuel ih =>
    intro arr n lo i stats h0 h1 h2 h3 hf hex
    obtain ⟨hex1, hex2⟩ := hex
    obtain ⟨r, er, hr, hri, hrl, hrr⟩ := heapifyLargest_spec arr n i stats (by omega) h2 h3
    by_cases hne : r.1 ≠ i
    · have hlt : i < r.1 ∧ r.1 < n := by omega
      have hswap := sliceSwap_of_lt arr i r.1 (by omega) (by omega) (by omega) (by omega)
      have hsi : elem (swapElems arr i r.1) i = elem arr r.1 :=
        elem_swapElems_left arr i r.1 (by omega) (by omega) (by omega) (by omega)
      have hsl : elem (swapElems arr i r.1) r.1 = elem arr i :=
        elem_swapElems_right arr i r.1 (by omega) (by omega) (by omega) (by omega)
      have hso : ∀ k, 0 ≤ k → k ≠ i → k ≠ r.1 → elem (swapElems arr i r.1) k = elem arr k :=
        fun k hk h1 h2 =>
          elem_swapElems_other arr i r.1 k (by omega) (by omega) (by omega) (by omega) hk h1 h2
      have hex' : HeapExcept (swapElems arr i r.1) n lo r.1 := by
        constructor
        · intro p hp0 hp1 hpne
          by_cases hpi : p = i
          · rw [hpi, hsi]
            constructor
            · intro hc
              by_cases hc1 : 2 * i + 1 = r.1
              · rw [hc1, hsl]
                exact hri
              · rw [hso (2 * i + 1) (by omega) (by omega) hc1]
                exact hrl hc
            · intro hc
              by_cases hc1 : 2 * i + 2 = r.1
              · rw [hc1, hsl]
                exact hri
              · rw [hso (2 * i + 2) (by omega) (by omega) hc1]
                exact hrr hc
          · have hp := hex1 p hp0 hp1 hpi
            rw [hso p (by omega) hpi hpne]
            constructor
            · intro hc
              by_cases hci : 2 * p + 1 = i
              · rw [hci, hsi]
                rcases hr with hr | hr | hr
                · exact absurd hr hne
                · rw [hr.1]
                  exact (hex2 p hp0 (Or.inl hci.symm)).1 hr.2
                · rw [hr.1]
                  exact (hex2 p hp0 (Or.inl hci.symm)).2 hr.2
              · rw [hso (2 * p + 1) (by omega) hci (by omega)]
                exact hp.1 hc
            · intro hc
              by_cases hci : 2 * p + 2 = i
              · rw [hci, hsi]
                rcases hr with hr | hr | hr
                · exact absurd hr hne
                · rw [hr.1]
                  exact (hex2 p hp0 (Or.inr hci.symm)).1 hr.2
                · rw [hr.1]
                  exact (hex2 p hp0 (Or.inr hci.symm)).2 hr.2
              · rw [hso (2 * p + 2) (by omega) hci (by omega)]
                exact hp.2 hc
        · intro p hp0 hpar
          have hpi : p = i := by omega
          rw [hpi, hsi]
          have hl := hex1 r.1 (by omega) (by omega) hne
          constructor
          · intro hc
            rw [hso (2 * r.1 + 1) (by omega) (by omega) (by omega)]
            exact hl.1 hc
          · intro hc
            rw [hso (2 * r.1 + 2) (by omega) (by omega) (by omega)]
            exact hl.2 hc
      obtain ⟨r2, e2, len2, perm2, out2, heap2⟩ := ih (swapElems arr i r.1) n lo r.1
        r.2.incSwaps h0 (by omega) (by omega) (by rw [length_swapElems]; exact h3) (by omega) hex'
      refine ⟨r2, ?_, ?_, ?_, ?_, heap2⟩
      · simp only [heapify, er, Option.some_bind, if_pos hne, hswap]
        exact e2
      · rw [len2, length_swapElems]
      · exact perm2.trans (swapElems_perm arr i r.1 (by omega) (by omega) (by omega) (by omega))
      · intro p hp0 hp1
        rw [out2 p hp0 (by omega), hso p hp0 (by omega) (by omega)]
    · have heq : r.1 = i := not_not.mp hne
      rw [heq] at hri hrl hrr
      refine ⟨(arr, r.2), ?_, rfl, List.Perm.refl _, fun _ _ _ => rfl, ?_⟩
      · simp only [heapify, er, Option.some_bind, if_neg hne]
      · intro p hp0 hp1
        by_cases hpi : p = i
        · subst hpi
          exact ⟨hrl, hrr⟩
        · exact hex1 p hp0 hp1 hpi

/-- The root of a max-heap is a largest element of it. -/
theorem heap_root_max (a : List Int) (n : Int) (h : HeapFrom a n 0) :
    ∀ k : Nat, (k : Int) < n → elem a k ≤ elem a 0 := by
  intro k
  induction k using Nat.strong_induction_on with
  | _ k ih =>
    intro hk
    by_cases hk0 : k = 0
    · subst hk0
      exact le_refl _
    · have hq := ih ((k - 1) / 2) (by omega) (by omega)
      have hp := h (((k - 1) / 2 : Nat) : Int) (by omega) (by omega)
      rcases Nat.even_or_odd (k - 1) with he | ho
      · have e : (k : Int) = 2 * (((k - 1) / 2 : Nat) : Int) + 1 := by
          obtain ⟨m, hm⟩ := he
          omega
        have := hp.1 (by omega)
        rw [← e] at this
        exact le_trans this hq
      · have e : (k : Int) = 2 * (((k - 1) / 2 : Nat) : Int) + 2 := by
          obtain ⟨m, hm⟩ := ho
          omega
        have := hp.2 (by omega)
        rw [← e] at this
        exact le_trans this hq

theorem heapBuild_step (arr : List Int) (s : HeapLoop) (hinv : HeapBuildInv arr s)
    (hi : 0 ≤ s.i) :
    ∃ s', heapBuildBody arr.length s = some s' ∧ HeapBuildInv arr s' ∧ s'.i = s.i - 1 := by
  obtain ⟨hlen, hperm, hi0, hi1, hheap⟩ := hinv
  have hin : s.i < (arr.length : Int) := hi1
  have hex : HeapExcept s.arrCopy arr.length s.i s.i := by
    constructor
    · intro p hp0 hp1 hpne
      exact hheap p (by omega) hp1
    · intro p hp0 hpar
      omega
  obtain ⟨r, e, len, perm, -, heap⟩ := heapify_spec ((arr.length : Int).toNat + 1) s.arrCopy
    arr.length s.i s.i s.stats hi (le_refl _) hin (by omega) (by omega) hex
  refine ⟨{ i := s.i - 1, arrCopy := r.1, stats := r.2 }, ?_, ⟨?_, ?_, ?_, ?_, ?_⟩, rfl⟩
  · simp only [heapBuildBody, e, Option.some_bind]
  · show r.1.length = arr.length
    rw [len, hlen]
  · exact perm.trans hperm
  · show -1 ≤ s.i - 1
    omega
  · show s.i - 1 < (arr.length : Int)
    omega
  · show HeapFrom r.1 arr.length (s.i - 1 + 1)
    have : s.i - 1 + 1 = s.i := by omega
    rw [this]
    exact heap

theorem heapExtract_step (arr : List Int) (s : HeapLoop) (hinv : HeapExtractInv arr s)
    (hi : 0 < s.i) :
    ∃ s', heapExtractBody arr.length s = some s' ∧ HeapExtractInv arr s' ∧ s'.i = s.i - 1 := by
  obtain ⟨hlen, hperm, hi0, hi1, hheap, hsorted, hle⟩ := hinv
  have hswap := sliceSwap_of_lt s.arrCopy 0 s.i (le_refl _) (by omega) (by omega) (by omega)
  have hs0 : elem (swapElems s.arrCopy 0 s.i) 0 = elem s.arrCopy s.i :=
    elem_swapElems_left s.arrCopy 0 s.i (le_refl _) (by omega) (by omega) (by omega)
  have hsi : elem (swapElems s.arrCopy 0 s.i) s.i = elem s.arrCopy 0 :=
    elem_swapElems_right s.arrCopy 0 s.i (le_refl _) (by omega) (by omega) (by omega)
  have hso : ∀ k, 0 ≤ k → k ≠ 0 → k ≠ s.i →
      elem (swapElems s.arrCopy 0 s.i) k = elem s.arrCopy k :=
    fun k hk h1 h2 =>
      elem_swapElems_other s.arrCopy 0 s.i k (le_refl _) (by omega) (by omega) (by omega) hk h1 h2
  have hmax : ∀ p : Int, 0 ≤ p → p ≤ s.i → elem s.arrCopy p ≤ elem s.arrCopy 0 := by
    intro p hp0 hp1
    have := heap_root_max s.arrCopy (s.i + 1) hheap p.toNat (by omega)
    rw [Int.toNat_of_nonneg hp0] at this
    exact this
  have hex : HeapExcept (swapElems s.arrCopy 0 s.i) s.i 0 0 := by
    constructor
    · intro p hp0 hp1 hpne
      have hp := hheap p hp0 (by omega)
      constructor
      · intro hc
        rw [hso (2 * p + 1) (by omega) (by omega) (by omega), hso p hp0 hpne (by omega)]
        exact hp.1 (by omega)
      · intro hc
        rw [hso (2 * p + 2) (by omega) (by omega) (by omega), hso p hp0 hpne (by omega)]
        exact hp.2 (by omega)
    · intro p hp0 hpar
      omega
  obtain ⟨r, e, len, perm, out, heap⟩ := heapify_spec ((arr.length : Int).toNat + 1)
    (swapElems s.arrCopy 0 s.i) s.i 0 0 s.stats.incSwaps (le_refl _) (le_refl _) hi
    (by rw [length_swapElems]; omega) (by omega) hex
  have hlen1 : (swapElems s.arrCopy 0 s.i).length = s.arrCopy.length := length_swapElems _ _ _
  refine ⟨{ i := s.i - 1, arrCopy := r.1, stats := r.2 }, ?_, ⟨?_, ?_, ?_, ?_, ?_, ?_, ?_⟩, rfl⟩
  · simp only [heapExtractBody, hswap, e, Option.some_bind]
  · show r.1.length = arr.length
    rw [len, hlen1, hlen]
  · exact (perm.trans (swapElems_perm s.arrCopy 0 s.i (le_refl _) (by omega) (by omega)
      (by omega))).trans hperm
  · show -1 ≤ s.i - 1
    omega
  · show s.i - 1 ≤ (arr.length : Int) - 1
    omega
  · show HeapFrom r.1 (s.i - 1 + 1) 0
    have : s.i - 1 + 1 = s.i := by omega
    rw [this]
    exact heap
  · show SortedOn r.1 (s.i - 1 + 1) arr.length
    intro p q hp hpq hq
    have hp' : s.i - 1 + 1 ≤ p := hp
    rw [out p (by omega) (Or.inr (by omega)), out q (by omega) (Or.inr (by omega))]
    by_cases hpi : p = s.i
    · rw [hpi, hsi]
      by_cases hqi : q = s.i
      · rw [hqi, hsi]
      · rw [hso q (by omega) (by omega) hqi]
        exact hle 0 q (le_refl _) (by omega) (by omega) hq
    · rw [hso p (by omega) (by omega) hpi, hso q (by omega) (by omega) (by omega)]
      exact hsorted p q (by omega) hpq hq
  · intro p q hp0 hp1 hq0 hq1
    have hp1' : p ≤ s.i - 1 := hp1
    have hq0' : s.i - 1 < q := hq0
    show elem r.1 p ≤ elem r.1 q
    have hq : elem r.1 q = elem (swapElems s.arrCopy 0 s.i) q :=
      out q (by omega) (Or.inr (by omega))
    rw [hq]
    have hall : ∀ p : Int, 0 ≤ p → p < s.i →
        elem (swapElems s.arrCopy 0 s.i) p ≤ elem (swapElems s.arrCopy 0 s.i) q := by
      intro p hp0 hp1
      by_cases hqi : q = s.i
      · rw [hqi, hsi]
        by_cases hp : p = 0
        · rw [hp, hs0]
          exact hmax s.i (by omega) (le_refl _)
        · rw [hso p hp0 hp (by omega)]
          exact hmax p hp0 (by omega)
      · rw [hso q (by omega) (by omega) hqi]
        by_cases hp : p = 0
        · rw [hp, hs0]
          exact hle s.i q (by omega) (le_refl _) (by omega) hq1
        · rw [hso p hp0 hp (by omega)]
          exact hle p q hp0 (by omega) (by omega) hq1
    exact range_transfer (swapElems s.arrCopy 0 s.i) r.1 0 s.i (le_refl _) (by omega)
      (by rw [hlen1]; omega) len perm
      (fun p _ _ hp2 => out p (by omega) (Or.inr (by omega)))
      (fun x => x ≤ elem (swapElems s.arrCopy 0 s.i) q) hall p hp0 (by omega)

/-- The run of `HeapSort` returns, leaves the caller's slice alone, and its
working copy ends as a sorted permutation of the input. -/
theorem heapSort_spec (arr : List Int) :
    ∃ run, HeapSort arr = some run ∧ run.arr = arr ∧ run.arrCopy.Perm arr ∧
      List.Sorted (· ≤ ·) run.arrCopy := by
  have hinit : HeapBuildInv arr
      { i := (arr.length : Int).tdiv 2 - 1, arrCopy := arr, stats := ⟨0, 0⟩ } := by
    have hd : (arr.length : Int).tdiv 2 = (arr.length : Int) / 2 :=
      Int.tdiv_eq_ediv (by omega) (by omega)
    refine ⟨rfl, List.Perm.refl _, ?_, ?_, ?_⟩
    · show -1 ≤ (arr.length : Int).tdiv 2 - 1
      omega
    · show (arr.length : Int).tdiv 2 - 1 < (arr.length : Int)
      omega
    · show HeapFrom arr arr.length ((arr.length : Int).tdiv 2 - 1 + 1)
      intro p hp0 hp1
      constructor
      · intro hc
        omega
      · intro hc
        omega
  obtain ⟨s1, e1, inv1, c1⟩ := whileLoop_rule (fun s : HeapLoop => decide (s.i ≥ 0))
    (heapBuildBody arr.length) (HeapBuildInv arr) (fun s => (s.i + 1).toNat)
    (by
      intro s hinv hc
      have hi : 0 ≤ s.i := by simpa using hc
      obtain ⟨s', e, inv, hi'⟩ := heapBuild_step arr s hinv hi
      refine ⟨s', e, inv, ?_⟩
      show (s'.i + 1).toNat < (s.i + 1).toNat
      omega)
    ((arr.length : Int).toNat + 1) _ hinit
    (by
      show ((arr.length : Int).tdiv 2 - 1 + 1).toNat < (arr.length : Int).toNat + 1
      have hd : (arr.length : Int).tdiv 2 = (arr.length : Int) / 2 :=
        Int.tdiv_eq_ediv (by omega) (by omega)
      omega)
  obtain ⟨hlen1, hperm1, hi0, hi1, hheap1⟩ := inv1
  have hneg : s1.i = -1 := by
    have : ¬ (s1.i ≥ 0) := by simpa using c1
    omega
  rw [hneg] at hheap1
  have hinit2 : HeapExtractInv arr
      { i := (arr.length : Int) - 1, arrCopy := s1.arrCopy, stats := s1.stats } := by
    refine ⟨hlen1, hperm1, ?_, le_refl _, ?_, ?_, ?_⟩
    · show -1 ≤ (arr.length : Int) - 1
      omega
    · show HeapFrom s1.arrCopy ((arr.length : Int) - 1 + 1) 0
      have : (arr.length : Int) - 1 + 1 = arr.length := by omega
      rw [this]
      exact hheap1
    · intro p q hp hpq hq
      have hp' : (arr.length : Int) - 1 + 1 ≤ p := hp
      omega
    · intro p q hp0 hp1 hq0 hq1
      have hq0' : (arr.length : Int) - 1 < q := hq0
      omega
  obtain ⟨s2, e2, inv2, c2⟩ := whileLoop_rule (fun s : HeapLoop => decide (s.i > 0))
    (heapExtractBody arr.length) (HeapExtractInv arr) (fun s => (s.i + 1).toNat)
    (by
      intro s hinv hc
      have hi : 0 < s.i := by simpa using hc
      obtain ⟨s', e, inv, hi'⟩ := heapExtract_step arr s hinv hi
      refine ⟨s', e, inv, ?_⟩
      show (s'.i + 1).toNat < (s.i + 1).toNat
      omega)
    ((arr.length : Int).toNat + 1) _ hinit2
    (by
      show ((arr.length : Int) - 1 + 1).toNat < (arr.length : Int).toNat + 1
      omega)
  obtain ⟨hlen2, hperm2, hj0, hj1, -, hsorted2, hle2⟩ := inv2
  have hle0 : s2.i ≤ 0 := by
    have : ¬ (s2.i > 0) := by simpa using c2
    omega
  refine ⟨{ arr := arr, arrCopy := s2.arrCopy, stats := s2.stats }, ?_, rfl, hperm2, ?_⟩
  · simp only [HeapSort]
    rw [e1]
    simp only [Option.some_bind]
    rw [e2]
    rfl
  · apply sorted_of_sortedOn
    show SortedOn s2.arrCopy 0 s2.arrCopy.length
    rw [hlen2]
    intro p q hp hpq hq
    by_cases hp1 : s2.i + 1 ≤ p
    · exact hsorted2 p q hp1 hpq hq
    · by_cases hq1 : q = p
      · rw [hq1]
      · exact hle2 p q hp (by omega) (by omega) hq

/-! ## IsSorted decides sortedness -/

theorem isSorted_step (arr : List Int) (s : IsSortedLoop) (hinv : IsSortedInv arr s)
    (hi : s.i < arr.length) :
    ∃ s', isSortedBody arr s = some s' ∧ IsSortedInv arr s' ∧
      (s'.returned = true ∨ s'.i = s.i + 1) := by
  obtain ⟨h1, h2, h3, h4⟩ := hinv
  simp only [isSortedBody, sliceGet_of_lt arr s.i (by omega) hi,
    sliceGet_of_lt arr (s.i - 1) (by omega) (by omega), Option.some_bind]
  by_cases hlt : elem arr s.i < elem arr (s.i - 1)
  · rw [if_pos hlt]
    exact ⟨_, rfl, ⟨h1, h2, h3, fun _ => ⟨hi, hlt⟩⟩, Or.inl rfl⟩
  · rw [if_neg hlt]
    refine ⟨_, rfl, ⟨?_, ?_, ?_, ?_⟩, Or.inr rfl⟩
    · show 1 ≤ s.i + 1
      omega
    · show s.i + 1 ≤ (arr.length : Int) ∨ s.i + 1 = 1
      omega
    · intro q hq0 hq1
      have hq1' : q < s.i + 1 := hq1
      by_cases hq : q = s.i
      · rw [hq]
        exact not_lt.mp hlt
      · exact h3 q hq0 (by omega)
    · intro h
      have h' : false = true := h
      exact absurd h' (by decide)

/-- The run of `IsSorted` returns, and returns true exactly when every adjacent
pair of the slice is in order. -/
theorem isSorted_spec (arr : List Int) :
    ∃ b, IsSorted arr = some b ∧
      (b = true ↔ ∀ q : Int, 1 ≤ q → q < arr.length → elem arr (q - 1) ≤ elem arr q) := by
  obtain ⟨s, e, inv, c⟩ := whileLoop_rule
    (fun s : IsSortedLoop => !s.returned && decide (s.i < (arr.length : Int)))
    (isSortedBody arr) (IsSortedInv arr)
    (fun s => if s.returned = true ∨ (arr.length : Int) ≤ s.i then 0
      else ((arr.length : Int) - s.i).toNat)
    (by
      intro s hinv hc
      have hc' : s.returned = false ∧ s.i < (arr.length : Int) := by simpa using hc
      obtain ⟨s', e, inv, hs⟩ := isSorted_step arr s hinv hc'.2
      refine ⟨s', e, inv, ?_⟩
      have hm : (if s.returned = true ∨ (arr.length : Int) ≤ s.i then 0
          else ((arr.length : Int) - s.i).toNat) = ((arr.length : Int) - s.i).toNat := by
        apply if_neg
        rw [hc'.1]
        intro h
        rcases h with h | h
        · exact absurd h (by decide)
        · omega
      show (if s'.returned = true ∨ (arr.length : Int) ≤ s'.i then 0
          else ((arr.length : Int) - s'.i).toNat) <
        (if s.returned = true ∨ (arr.length : Int) ≤ s.i then 0
          else ((arr.length : Int) - s.i).toNat)
      rw [hm]
      by_cases h : s'.returned = true ∨ (arr.length : Int) ≤ s'.i
      · rw [if_pos h]
        omega
      · rw [if_neg h]
        rcases hs with hs | hs
        · exact absurd (Or.inl hs) h
        · omega)
    (arr.length + 1) { i := 1, returned := false }
    ⟨le_refl _, Or.inr rfl, fun q h1 h2 => by
      have h2' : q < 1 := h2
      omega, fun h => by
      have h' : false = true := h
      exact absurd h' (by decide)⟩
    (by
      show (if false = true ∨ (arr.length : Int) ≤ 1 then 0
          else ((arr.length : Int) - 1).toNat) < arr.length + 1
      by_cases h : false = true ∨ (arr.length : Int) ≤ 1
      · rw [if_pos h]
        omega
      · rw [if_neg h]
        omega)
  obtain ⟨h1, h2, h3, h4⟩ := inv
  refine ⟨!s.returned, ?_, ?_⟩
  · simp only [IsSorted]
    rw [e]
    rfl
  · have hc : ¬ (s.returned = false ∧ s.i < (arr.length : Int)) := by simpa using c
    constructor
    · intro hb q hq0 hq1
      have hr : s.returned = false := by simpa using hb
      exact h3 q hq0 (by
        by_contra hn
        exact hc ⟨hr, by omega⟩)
    · intro hall
      cases hret : s.returned with
      | false => rfl
      | true =>
        obtain ⟨hi, hlt⟩ := h4 hret
        exact absurd (hall s.i h1 hi) (not_le.mpr hlt)

/-- The run of `IsSorted` on a slice in non-decreasing order returns true. -/
theorem isSorted_of_sorted (arr : List Int) (h : List.Sorted (· ≤ ·) arr) :
    IsSorted arr = some true := by
  obtain ⟨b, e, hb⟩ := isSorted_spec arr
  have : b = true := hb.mpr (fun q hq0 hq1 =>
    sortedOn_of_sorted arr h (q - 1) q (by omega) (by omega) hq1)
  rw [e, this]

/-! ## LevelOrderTraversal lists the tree by depth -/

theorem atDepth_nil (d : Nat) : atDepth .nil d = [] := by
  cases d <;> rfl

theorem atDepth_of_levels_le (t : TreeNode) : ∀ d, levels t ≤ d → atDepth t d = [] := by
  induction t with
  | nil => intro d _; exact atDepth_nil d
  | node l x r ihl ihr =>
    intro d hd
    simp only [levels] at hd
    cases d with
    | zero => omega
    | succ d =>
      simp only [atDepth]
      rw [ihl d (by omega), ihr d (by omega)]
      rfl

theorem kids_atDepth (l r : TreeNode) (d : Nat) :
    queueAtDepth ((if l ≠ .nil then [l] else []) ++ (if r ≠ .nil then [r] else [])) d =
      atDepth l d ++ atDepth r d := by
  unfold queueAtDepth
  by_cases hl : l = .nil <;> by_cases hr : r = .nil <;>
    simp [hl, hr, atDepth_nil]

theorem queueAtDepth_append (p q : List TreeNode) (d : Nat) :
    queueAtDepth (p ++ q) d = queueAtDepth p d ++ queueAtDepth q d := by
  unfold queueAtDepth
  exact List.flatMap_append p q _

theorem queueAtDepth_cons (t : TreeNode) (q : List TreeNode) (d : Nat) :
    queueAtDepth (t :: q) d = atDepth t d ++ queueAtDepth q d := by
  unfold queueAtDepth
  simp

theorem queueAtDepth_children (q : List TreeNode) (d : Nat) :
    queueAtDepth (queueChildren q) d = queueAtDepth q (d + 1) := by
  induction q with
  | nil => rfl
  | cons t q ih =>
    cases t with
    | nil =>
      rw [queueAtDepth_cons, atDepth_nil]
      simp only [queueChildren]
      rw [ih]
      rfl
    | node l x r =>
      simp only [queueChildren]
      rw [queueAtDepth_append, kids_atDepth, ih, queueAtDepth_cons]
      rfl

theorem queueChildren_ne_nil (q : List TreeNode) : ∀ t ∈ queueChildren q, t ≠ .nil := by
  induction q with
  | nil => intro t ht; simp [queueChildren] at ht
  | cons u q ih =>
    cases u with
    | nil => simpa [queueChildren] using ih
    | node l x r =>
      intro t ht
      simp only [queueChildren, List.mem_append] at ht
      rcases ht with (ht | ht) | ht
      · by_cases hl : l = .nil
        · simp [hl] at ht
        · simp [hl] at ht
          rw [ht]
          exact hl
      · by_cases hr : r = .nil
        · simp [hr] at ht
        · simp [hr] at ht
          rw [ht]
          exact hr
      · exact ih t ht

theorem queueLevels_kids (l r : TreeNode) :
    queueLevels ((if l ≠ .nil then [l] else []) ++ (if r ≠ .nil then [r] else [])) ≤
      max (levels l) (levels r) := by
  by_cases hl : l = .nil <;> by_cases hr : r = .nil <;>
    simp [hl, hr, queueLevels, levels]

theorem queueLevels_append (p q : List TreeNode) :
    queueLevels (p ++ q) = max (queueLevels p) (queueLevels q) := by
  induction p with
  | nil => simp [queueLevels]
  | cons t p ih =>
    show max (levels t) (queueLevels (p ++ q)) =
      max (max (levels t) (queueLevels p)) (queueLevels q)
    rw [ih]
    omega

theorem queueLevels_children (q : List TreeNode) (n : Nat) (h : queueLevels q ≤ n + 1) :
    queueLevels (queueChildren q) ≤ n := by
  induction q with
  | nil => simp [queueChildren, queueLevels]
  | cons t q ih =>
    simp only [queueLevels] at h
    cases t with
    | nil =>
      simp only [queueChildren]
      exact ih (by omega)
    | node l x r =>
      simp only [queueChildren]
      rw [queueLevels_append]
      have h1 := queueLevels_kids l r
      have h2 := ih (by omega)
      simp only [levels] at h
      omega

theorem queueSize_cons (t : TreeNode) (q : List TreeNode) :
    queueSize (t :: q) = (values t).length + queueSize q := by
  simp [queueSize]

theorem queueSize_append (p q : List TreeNode) :
    queueSize (p ++ q) = queueSize p + queueSize q := by
  simp [queueSize]

theorem queueSize_kids (l r : TreeNode) :
    queueSize ((if l ≠ .nil then [l] else []) ++ (if r ≠ .nil then [r] else [])) =
      (values l).length + (values r).length := by
  by_cases hl : l = .nil <;> by_cases hr : r = .nil <;>
    simp [hl, hr, queueSize, values]

theorem queueSize_children (q : List TreeNode) (hq : ∀ t ∈ q, t ≠ .nil) :
    queueSize (queueChildren q) + q.length = queueSize q := by
  induction q with
  | nil => rfl
  | cons t q ih =>
    have ih' := ih (fun u hu => hq u (List.mem_cons_of_mem _ hu))
    cases t with
    | nil => exact absurd rfl (hq .nil (List.mem_cons_self _ _))
    | node l x r =>
      simp only [queueChildren]
      rw [queueSize_append, queueSize_kids, queueSize_cons]
      simp only [values, List.length_append, List.length_cons]
      omega

theorem eq_nil_of_queueLevels (q : List TreeNode) (hq : ∀ t ∈ q, t ≠ .nil)
    (h : queueLevels q ≤ 0) : q = [] := by
  cases q with
  | nil => rfl
  | cons t q =>
    cases t with
    | nil => exact absurd rfl (hq .nil (List.mem_cons_self _ _))
    | node l x r =>
      simp only [queueLevels, levels] at h
      omega

/-- The loop of `LevelOrderTraversal` takes the nodes of one level off the
front of the queue while it appends their values to the result and their
children to the back of the queue. -/
theorem levelOrder_level (xs : List TreeNode) : ∀ (cs : List TreeNode) (res : List Int)
    (fuel : Nat), (∀ t ∈ xs, t ≠ .nil) →
    whileLoop (fun s : LevelOrderLoop => decide (s.queue.length > 0)) levelOrderBody
        (fuel + xs.length) { queue := xs ++ cs, result := res } =
      whileLoop (fun s : LevelOrderLoop => decide (s.queue.length > 0)) levelOrderBody
        fuel { queue := cs ++ queueChildren xs, result := res ++ queueAtDepth xs 0 } := by
  induction xs with
  | nil =>
    intro cs res fuel _
    simp [queueChildren, queueAtDepth]
  | cons t xs ih =>
    intro cs res fuel hq
    have hq' : ∀ u ∈ xs, u ≠ .nil := fun u hu => hq u (List.mem_cons_of_mem _ hu)
    cases t with
    | nil => exact absurd rfl (hq .nil (List.mem_cons_self _ _))
    | node l x r =>
      have hfuel : fuel + (TreeNode.node l x r :: xs).length = (fuel + xs.length) + 1 := by
        simp only [List.length_cons]
        omega
      rw [hfuel, whileLoop_of_cond _ _ _ _ (by simp)]
      have hbody : levelOrderBody { queue := TreeNode.node l x r :: xs ++ cs, result := res } =
          some { queue := xs ++ (cs ++ ((if l ≠ .nil then [l] else []) ++
            (if r ≠ .nil then [r] else []))), result := res ++ [x] } := by
        by_cases hl : l = .nil <;> by_cases hr : r = .nil <;>
          simp [levelOrderBody, hl, hr]
      rw [hbody, Option.some_bind, ih _ _ _ hq']
      simp only [queueChildren, queueAtDepth_cons, atDepth, List.append_assoc,
        List.singleton_append]

/-- The loop of `LevelOrderTraversal`, started on a queue of non-nil nodes with
at most `n` levels below them, ends with an empty queue and has appended the
values of the queue level by level. -/
theorem levelOrder_loop (n : Nat) : ∀ (q : List TreeNode) (res : List Int) (fuel : Nat),
    (∀ t ∈ q, t ≠ .nil) → queueLevels q ≤ n → queueSize q < fuel →
    whileLoop (fun s : LevelOrderLoop => decide (s.queue.length > 0)) levelOrderBody fuel
        { queue := q, result := res } =
      some { queue := [], result := res ++ (List.range n).flatMap (queueAtDepth q) } := by
  induction n with
  | zero =>
    intro q res fuel hq hl hf
    have hnil := eq_nil_of_queueLevels q hq hl
    subst hnil
    obtain ⟨f, rfl⟩ : ∃ f, fuel = f + 1 := ⟨fuel - 1, by omega⟩
    rw [whileLoop_of_not_cond _ _ _ _ (by simp)]
    simp
  | succ n ih =>
    intro q res fuel hq hl hf
    have hsz := queueSize_children q hq
    have hfuel : fuel = (fuel - q.length) + q.length := by omega
    have hlev := levelOrder_level q [] res (fuel - q.length) hq
    rw [List.append_nil, ← hfuel, List.nil_append] at hlev
    rw [hlev, ih (queueChildren q) _ _ (queueChildren_ne_nil q) (queueLevels_children q n hl)
      (by omega)]
    have hrange : (List.range (n + 1)).flatMap (queueAtDepth q) =
        queueAtDepth q 0 ++ (List.range n).flatMap (queueAtDepth (queueChildren q)) := by
      rw [List.range_succ_eq_map, List.flatMap_cons, List.flatMap_map]
      congr 1
      apply List.flatMap_congr
      intro d _
      exact (queueAtDepth_children q d).symm
    rw [hrange, List.append_assoc]

/-- The run of `LevelOrderTraversal` returns the values of the tree level by
level, each level left to right. -/
theorem levelOrderTraversal_spec (bst : BinarySearchTree) :
    bst.LevelOrderTraversal =
      some ((List.range (levels bst.Root)).flatMap (atDepth bst.Root)) := by
  by_cases hroot : bst.Root = .nil
  · simp [BinarySearchTree.LevelOrderTraversal, hroot, levels]
  · have h := levelOrder_loop (levels bst.Root) [bst.Root] [] ((values bst.Root).length + 1)
      (by simpa using hroot) (by simp [queueLevels]) (by simp [queueSize])
    have hq : queueAtDepth [bst.Root] = atDepth bst.Root := by
      funext d
      simp [queueAtDepth]
    rw [hq, List.nil_append] at h
    simp only [BinarySearchTree.LevelOrderTraversal, if_neg hroot]
    rw [h]
    rfl

/-! ## The claims about the traversal and the sorting suite -/

theorem sorted_segment_of_sortedOn (a : List Int) (lo hi : Int) (h0 : 0 ≤ lo) (hlh : lo ≤ hi)
    (h1 : hi ≤ a.length) (h : SortedOn a lo hi) : List.Sorted (· ≤ ·) (segment a lo hi) := by
  apply sorted_of_sortedOn
  have hlen := length_segment a lo hi h0 hlh h1
  intro p q hp hpq hq
  rw [elem_segment a lo hi p h0 h1 hp (by omega), elem_segment a lo hi q h0 h1 (by omega)
    (by omega)]
  exact h (lo + p) (lo + q) (by omega) (by omega) (by omega)

theorem take_eq_segment (a : List Int) (k : Nat) : a.take k = segment a 0 (k : Int) := by
  simp [segment]

/-- C11: for every tree `LevelOrderTraversal` returns the values of the nodes at
depth 0, then those at depth 1, and so on through all the levels of the tree,
each depth listed left to right; no node lies deeper than that; the result is
the empty sequence for the empty tree, and 50, 30, 70, 20, 40, 60, 80 for the
tree built by inserting these values in this order. -/
theorem levelOrderTraversal_by_depth (bst : BinarySearchTree) :
    bst.LevelOrderTraversal =
      some ((List.range (levels bst.Root)).flatMap (atDepth bst.Root)) ∧
    (∀ d, levels bst.Root ≤ d → atDepth bst.Root d = []) ∧
    NewBinarySearchTree.LevelOrderTraversal = some [] ∧
    sampleTree.LevelOrderTraversal = some [50, 30, 70, 20, 40, 60, 80] :=
  ⟨levelOrderTraversal_spec bst, atDepth_of_levels_le bst.Root, by decide, by decide⟩

/-- C12: for every finite integer sequence `QuickSort` returns, and its working
copy is then a permutation of the input in non-decreasing order, on which
`IsSorted` returns true. -/
theorem quickSort_sorted_permutation (arr : List Int) :
    ∃ run, QuickSort arr = some run ∧ run.arrCopy.Perm arr ∧
      List.Sorted (· ≤ ·) run.arrCopy ∧ IsSorted run.arrCopy = some true := by
  obtain ⟨run, e, -, perm, sorted⟩ := quickSort_spec arr
  exact ⟨run, e, perm, sorted, isSorted_of_sorted run.arrCopy sorted⟩

/-- C13: for every finite integer sequence `MergeSort` returns, and its working
copy is then a permutation of the input in non-decreasing order; and `merge`,
applied to two adjacent sorted runs `arr[left..mid]` and `arr[mid+1..right]`,
returns with `arr[left..right]` sorted and a permutation of the two runs, the
length kept and every element outside `[left, right]` unchanged. -/
theorem mergeSort_sorted_permutation (arr : List Int) :
    (∃ run, MergeSort arr = some run ∧ run.arrCopy.Perm arr ∧
      List.Sorted (· ≤ ·) run.arrCopy) ∧
    ∀ (left mid right : Int) (stats : SortingStats),
      0 ≤ left → left ≤ mid + 1 → mid ≤ right → right < arr.length →
      List.Sorted (· ≤ ·) (segment arr left (mid + 1)) →
      List.Sorted (· ≤ ·) (segment arr (mid + 1) (right + 1)) →
      ∃ r, merge arr left mid right stats = some r ∧
        List.Sorted (· ≤ ·) (segment r.1 left (right + 1)) ∧
        (segment r.1 left (right + 1)).Perm
          (segment arr left (mid + 1) ++ segment arr (mid + 1) (right + 1)) ∧
        r.1.length = arr.length ∧
        ∀ p : Int, 0 ≤ p → (p < left ∨ right < p) → elem r.1 p = elem arr p := by
  constructor
  · obtain ⟨run, e, -, perm, sorted⟩ := mergeSort_spec arr
    exact ⟨run, e, perm, sorted⟩
  · intro left mid right stats h0 h1 h2 h3 hL hR
    obtain ⟨r, e, len, out, seg⟩ := merge_spec arr left mid right stats h0 h1 h2 h3
    refine ⟨r, e, ?_, ?_, len, out⟩
    · rw [seg]
      exact sorted_merge_leBool _ _ hL hR
    · rw [seg]
      exact List.merge_perm_append leBool

/-- C13, on a concrete slice: merging the runs 2, 7 and 1, 9 that lie between
two other elements. -/
theorem mergeSort_sorted_permutation_witness :
    ∃ r, merge [5, 2, 7, 1, 9, 0] 1 2 4 ⟨0, 0⟩ = some r ∧
      List.Sorted (· ≤ ·) (segment r.1 1 (4 + 1)) ∧
      (segment r.1 1 (4 + 1)).Perm
        (segment [5, 2, 7, 1, 9, 0] 1 (2 + 1) ++ segment [5, 2, 7, 1, 9, 0] (2 + 1) (4 + 1)) ∧
      r.1.length = [5, 2, 7, 1, 9, 0].length ∧
      ∀ p : Int, 0 ≤ p → (p < 1 ∨ 4 < p) → elem r.1 p = elem [5, 2, 7, 1, 9, 0] p :=
  (mergeSort_sorted_permutation [5, 2, 7, 1, 9, 0]).2 1 2 4 ⟨0, 0⟩ (by decide) (by decide)
    (by decide) (by decide) (by decide) (by decide)

/-- C14: for every finite integer sequence `HeapSort` returns, and its working
copy is then a permutation of the input in non-decreasing order. -/
theorem heapSort_sorted_permutation (arr : List Int) :
    ∃ run, HeapSort arr = some run ∧ run.arrCopy.Perm arr ∧
      List.Sorted (· ≤ ·) run.arrCopy := by
  obtain ⟨run, e, -, perm, sorted⟩ := heapSort_spec arr
  exact ⟨run, e, perm, sorted⟩

/-- C15: for every finite integer sequence `InsertionSort` returns, and its
working copy is then a permutation of the input in non-decreasing order; after
the outer loop has processed the index `i` the working copy is a permutation of
the input whose first `i + 1` elements are in non-decreasing order; and the run
ends in the state reached after the last index. -/
theorem insertionSort_sorted_permutation (arr : List Int) :
    (∃ run, InsertionSort arr = some run ∧ run.arrCopy.Perm arr ∧
      List.Sorted (· ≤ ·) run.arrCopy) ∧
    (∀ i : Nat, i < arr.length →
      ∃ s, insertionSortAfter arr i = some s ∧ s.arrCopy.Perm arr ∧
        List.Sorted (· ≤ ·) (s.arrCopy.take (i + 1))) ∧
    (1 ≤ arr.length →
      ∃ s, insertionSortAfter arr (arr.length - 1) = some s ∧
        InsertionSort arr = some { arr := arr, arrCopy := s.arrCopy, stats := s.stats }) := by
  refine ⟨?_, ?_, insertionSort_eq_after arr⟩
  · obtain ⟨run, e, -, perm, sorted⟩ := insertionSort_spec arr
    exact ⟨run, e, perm, sorted⟩
  · intro i hi
    obtain ⟨s, e, ⟨hlen, hperm, -, -, hsorted⟩, hsi⟩ :=
      insertionSortAfter_spec arr i (by omega)
    refine ⟨s, e, hperm, ?_⟩
    rw [take_eq_segment]
    rw [hsi] at hsorted
    exact sorted_segment_of_sortedOn s.arrCopy 0 ((i + 1 : Nat) : Int) (le_refl _) (by omega)
      (by omega) (by
        have : ((i + 1 : Nat) : Int) = (i : Int) + 1 := by omega
        rw [this]
        exact hsorted)

/-- C15, on the slice 3, 1, 2: after the index 1 has been processed the first
two elements are in order, and the run ends in the state after the index 2. -/
theorem insertionSort_sorted_permutation_witness :
    (∃ s, insertionSortAfter [3, 1, 2] 1 = some s ∧ s.arrCopy.Perm [3, 1, 2] ∧
      List.Sorted (· ≤ ·) (s.arrCopy.take (1 + 1))) ∧
    (∃ s, insertionSortAfter [3, 1, 2] ([3, 1, 2].length - 1) = some s ∧
      InsertionSort [3, 1, 2] =
        some { arr := [3, 1, 2], arrCopy := s.arrCopy, stats := s.stats }) :=
  ⟨(insertionSort_sorted_permutation [3, 1, 2]).2.1 1 (by decide),
    (insertionSort_sorted_permutation [3, 1, 2]).2.2 (by decide)⟩

/-- C16: for every finite integer sequence `SelectionSort` returns, and its
working copy is then a permutation of the input in non-decreasing order. -/
theorem selectionSort_sorted_permutation (arr : List Int) :
    ∃ run, SelectionSort arr = some run ∧ run.arrCopy.Perm arr ∧
      List.Sorted (· ≤ ·) run.arrCopy := by
  obtain ⟨run, e, -, perm, sorted⟩ := selectionSort_spec arr
  exact ⟨run, e, perm, sorted⟩

/-- C17: for every finite integer sequence `BubbleSort` returns, whether its
outer loop runs to its end or stops early after a pass without a swap, and its
working copy is then a permutation of the input in non-decreasing order. -/
theorem bubbleSort_sorted_permutation (arr : List Int) :
    ∃ run, BubbleSort arr = some run ∧ run.arrCopy.Perm arr ∧
      List.Sorted (· ≤ ·) run.arrCopy := by
  obtain ⟨run, e, -, perm, sorted⟩ := bubbleSort_spec arr
  exact ⟨run, e, perm, sorted⟩

theorem sortFunctions_spec (sort : List Int → Option SortRun) (hs : sort ∈ sortFunctions)
    (arr : List Int) :
    ∃ run, sort arr = some run ∧ run.arr = arr ∧ run.arrCopy.Perm arr ∧
      List.Sorted (· ≤ ·) run.arrCopy := by
  simp only [sortFunctions, List.mem_cons, List.mem_singleton, List.not_mem_nil, or_false] at hs
  rcases hs with h | h | h | h | h | h <;> rw [h]
  · exact bubbleSort_spec arr
  · exact selectionSort_spec arr
  · exact insertionSort_spec arr
  · exact mergeSort_spec arr
  · exact quickSort_spec arr
  · exact heapSort_spec arr

/-- C18 fails on the slice of the consistency test: after each of the six sort
functions has returned, the caller's slice still holds 64, 34, 25, 12, 22, 11,
90, 5, 77, 30, on which `IsSorted` returns false and which differs from the
expected 5, 11, 12, 22, 25, 30, 34, 64, 77, 90; the sorted sequence exists only
in the working copy, which the function drops. -/
theorem caller_slice_not_sorted :
    IsSorted consistencyArr = some false ∧ consistencyArr ≠ consistencyExpected ∧
    ∀ sort ∈ sortFunctions, ∃ run, sort consistencyArr = some run ∧
      run.arr = consistencyArr ∧ IsSorted run.arr = some false ∧
      run.arr ≠ consistencyExpected ∧ run.arrCopy = consistencyExpected := by
  have h1 : IsSorted consistencyArr = some false := by decide
  have h2 : consistencyArr ≠ consistencyExpected := by decide
  refine ⟨h1, h2, ?_⟩
  intro sort hs
  obtain ⟨run, e, harr, perm, sorted⟩ := sortFunctions_spec sort hs consistencyArr
  refine ⟨run, e, harr, ?_, ?_, ?_⟩
  · rw [harr]
    exact h1
  · rw [harr]
    exact h2
  · have hp : consistencyExpected.Perm consistencyArr := by decide
    have hsrt : List.Sorted (· ≤ ·) consistencyExpected := by decide
    exact List.eq_of_perm_of_sorted (perm.trans hp.symm) sorted hsrt

/-- C19: for every slice each of the six sort functions returns with the
caller's slice element for element as it was before the call, so
`CompareAlgorithms` runs all six on the same data: its entries are the
statistics of the six functions on the given slice, which it leaves as it was. -/
theorem sorts_keep_caller_slice (arr : List Int) :
    (∀ sort ∈ sortFunctions, ∃ run, sort arr = some run ∧ run.arr = arr) ∧
    ∃ b s i m q h, BubbleSort arr = some b ∧ SelectionSort arr = some s ∧
      InsertionSort arr = some i ∧ MergeSort arr = some m ∧ QuickSort arr = some q ∧
      HeapSort arr = some h ∧
      CompareAlgorithms arr = some
        { arr := arr
          results := [("Bubble Sort", b.stats), ("Selection Sort", s.stats),
            ("Insertion Sort", i.stats), ("Merge Sort", m.stats),
            ("Quick Sort", q.stats), ("Heap Sort", h.stats)] } := by
  constructor
  · intro sort hs
    obtain ⟨run, e, harr, -⟩ := sortFunctions_spec sort hs arr
    exact ⟨run, e, harr⟩
  · obtain ⟨b, eb, hb, -⟩ := bubbleSort_spec arr
    obtain ⟨s, es, hs, -⟩ := selectionSort_spec arr
    obtain ⟨i, ei, hi, -⟩ := insertionSort_spec arr
    obtain ⟨m, em, hm, -⟩ := mergeSort_spec arr
    obtain ⟨q, eq, hq, -⟩ := quickSort_spec arr
    obtain ⟨h, eh, hh, -⟩ := heapSort_spec arr
    refine ⟨b, s, i, m, q, h, eb, es, ei, em, eq, eh, ?_⟩
    simp only [CompareAlgorithms, eb, Option.some_bind, hb, es, hs, ei, hi, em, hm, eq, hq, eh,
      hh]

/-- C20: for every slice `IsSorted` returns, and returns true if and only if
`arr[i-1] <= arr[i]` for every index `1 <= i < len(arr)`; it returns true for
the empty slice and for every single-element slice, and false for 5, 2, 8, 1,
9. -/
theorem isSorted_iff_adjacent (arr : List Int) :
    (∃ b, IsSorted arr = some b ∧
      (b = true ↔ ∀ (i : Nat) (h : i < arr.length), 1 ≤ i → arr[i - 1] ≤ arr[i])) ∧
    IsSorted [] = some true ∧ (∀ x : Int, IsSorted [x] = some true) ∧
    IsSorted [5, 2, 8, 1, 9] = some false := by
  refine ⟨?_, by decide, ?_, by decide⟩
  · obtain ⟨b, e, hb⟩ := isSorted_spec arr
    refine ⟨b, e, hb.trans ⟨?_, ?_⟩⟩
    · intro hall i h h1
      have := hall (i : Int) (by omega) (by omega)
      have e1 : (i : Int) - 1 = ((i - 1 : Nat) : Int) := by omega
      have g1 : elem arr ((i : Int) - 1) = arr[i - 1] :=
        (congrArg (elem arr) e1).trans (elem_natCast arr (i - 1) (by omega))
      rw [g1, elem_natCast arr i h] at this
      exact this
    · intro hall q hq0 hq1
      have := hall q.toNat (by omega) (by omega)
      have e1 : q - 1 = ((q.toNat - 1 : Nat) : Int) := by omega
      have e2 : q = ((q.toNat : Nat) : Int) := by omega
      have g1 : elem arr (q - 1) = arr[q.toNat - 1] :=
        (congrArg (elem arr) e1).trans (elem_natCast arr (q.toNat - 1) (by omega))
      have g2 : elem arr q = arr[q.toNat] :=
        (congrArg (elem arr) e2).trans (elem_natCast arr q.toNat (by omega))
      rw [g1, g2]
      exact this
  · intro x
    exact isSorted_of_sorted [x] (List.sorted_singleton x)

/-! ## Loops that are known to return, and inversions -/

/-- A property kept by every iteration of a loop holds when the loop has
returned, and then the loop condition is false. -/
theorem whileLoop_invariant {σ : Type} (cond : σ → Bool) (body : σ → Option σ) (P : σ → Prop)
    (hstep : ∀ s s', P s → cond s = true → body s = some s' → P s') :
    ∀ (fuel : Nat) (s s' : σ), whileLoop cond body fuel s = some s' → P s →
      P s' ∧ cond s' = false := by
  intro fuel
  induction fuel with
  | zero =>
    intro s s' h _
    simp [whileLoop] at h
  | succ fuel ih =>
    intro s s' h hP
    by_cases hc : cond s = true
    · rw [whileLoop_of_cond cond body fuel s hc] at h
      cases hb : body s with
      | none => simp [hb] at h
      | some s1 =>
        simp only [hb, Option.some_bind] at h
        exact ih s1 s' h (hstep s s1 hP hc hb)
    · have hc' : cond s = false := by simpa using hc
      rw [whileLoop_of_not_cond cond body fuel s hc'] at h
      have : s = s' := Option.some.inj h
      rw [← this]
      exact ⟨hP, hc'⟩

theorem inversions_swap_adjacent (l1 : List Int) (a b : Int) (l2 : List Int) (h : b < a) :
    inversions (l1 ++ a :: b :: l2) = inversions (l1 ++ b :: a :: l2) + 1 := by
  induction l1 with
  | nil =>
    simp only [List.nil_append, inversions]
    rw [List.countP_cons_of_pos _ _ (by simpa using h),
      List.countP_cons_of_neg _ _ (by simp; omega)]
    omega
  | cons x l1 ih =>
    have hp : (l1 ++ a :: b :: l2).Perm (l1 ++ b :: a :: l2) :=
      List.Perm.append_left l1 (List.Perm.swap b a l2)
    show (l1 ++ a :: b :: l2).countP (fun y => decide (x > y)) + inversions (l1 ++ a :: b :: l2) =
      (l1 ++ b :: a :: l2).countP (fun y => decide (x > y)) + inversions (l1 ++ b :: a :: l2) + 1
    rw [hp.countP_eq, ih]
    omega

theorem inversions_eq_zero_of_sorted (l : List Int) (h : List.Sorted (· ≤ ·) l) :
    inversions l = 0 := by
  induction l with
  | nil => rfl
  | cons x xs ih =>
    have h' := List.sorted_cons.mp h
    simp only [inversions]
    rw [ih h'.2, List.countP_eq_zero.mpr]
    intro y hy
    have := h'.1 y hy
    simp
    omega

theorem set_set_adjacent (a : List Int) : ∀ (m : Nat) (u v : Int), m + 1 < a.length →
    (a.set m u).set (m + 1) v = a.take m ++ u :: v :: a.drop (m + 2) := by
  induction a with
  | nil =>
    intro m u v h
    simp at h
  | cons x xs ih =>
    intro m u v h
    cases m with
    | zero =>
      cases xs with
      | nil => simp at h
      | cons y ys => simp
    | succ m =>
      simp only [List.length_cons] at h
      simp only [List.set_cons_succ, List.take_succ_cons, List.cons_append, List.drop_succ_cons]
      rw [ih m u v (by omega)]

theorem set_getD_self (a : List Int) : ∀ m : Nat, a.set m (a.getD m 0) = a := by
  induction a with
  | nil => intro m; simp
  | cons x xs ih =>
    intro m
    cases m with
    | zero => simp
    | succ m =>
      have := ih m
      simp only [List.getD_cons_succ, List.set_cons_succ]
      rw [this]

/-- Exchanging two neighbours that are out of order removes exactly one
inversion. -/
theorem inversions_swapElems (a : List Int) (j : Int) (h0 : 0 ≤ j) (h1 : j + 1 < a.length)
    (hgt : elem a (j + 1) < elem a j) :
    inversions (swapElems a j (j + 1)) + 1 = inversions a := by
  have hj : (j + 1).toNat = j.toNat + 1 := by omega
  have e1 : swapElems a j (j + 1) =
      a.take j.toNat ++ elem a (j + 1) :: elem a j :: a.drop (j.toNat + 2) := by
    unfold swapElems
    rw [hj]
    exact set_set_adjacent a j.toNat _ _ (by omega)
  have e2 : a = a.take j.toNat ++ elem a j :: elem a (j + 1) :: a.drop (j.toNat + 2) := by
    have := set_set_adjacent a j.toNat (elem a j) (elem a (j + 1)) (by omega)
    unfold elem at this ⊢
    rw [hj] at this ⊢
    rw [set_getD_self a j.toNat, set_getD_self a (j.toNat + 1)] at this
    exact this
  have key := inversions_swap_adjacent (a.take j.toNat) (elem a j) (elem a (j + 1))
    (a.drop (j.toNat + 2)) hgt
  rw [← e1, ← e2] at key
  exact key.symm

/-- Moving the element before a smaller key one place up, with the key taking
its place, removes exactly one inversion. -/
theorem inversions_shift (a : List Int) (j key : Int) (h0 : 0 ≤ j) (h1 : j + 1 < a.length)
    (hgt : key < elem a j) :
    inversions ((a.set (j + 1).toNat (elem a j)).set j.toNat key) + 1 =
      inversions (a.set (j + 1).toNat key) := by
  have hj : (j + 1).toNat = j.toNat + 1 := by omega
  have e1 : (a.set (j + 1).toNat (elem a j)).set j.toNat key =
      a.take j.toNat ++ key :: elem a j :: a.drop (j.toNat + 2) := by
    rw [hj, List.set_comm (elem a j) key a (by omega : j.toNat + 1 ≠ j.toNat)]
    exact set_set_adjacent a j.toNat _ _ (by omega)
  have e2 : a.set (j + 1).toNat key =
      a.take j.toNat ++ elem a j :: key :: a.drop (j.toNat + 2) := by
    have := set_set_adjacent a j.toNat (elem a j) key (by omega)
    unfold elem at this ⊢
    rw [set_getD_self a j.toNat] at this
    rw [hj]
    exact this
  rw [e1, e2]
  exact (inversions_swap_adjacent _ _ _ _ hgt).symm

/-! ## The statistics of SelectionSort -/

theorem selectionInnerBody_stats (a : List Int) (t t' : SelectionInner)
    (h : selectionInnerBody a t = some t') :
    t'.stats = t.stats.incComparisons ∧ t'.j = t.j + 1 := by
  unfold selectionInnerBody at h
  cases hx : sliceGet a t.j with
  | none => simp [hx] at h
  | some x =>
    cases hy : sliceGet a t.minIdx with
    | none => simp [hx, hy] at h
    | some y =>
      simp only [hx, hy, Option.some_bind] at h
      split at h <;> (cases h; exact ⟨rfl, rfl⟩)

/-- The inner loop of `SelectionSort` counts one comparison for every index
from its start to `n - 1` and no swap. -/
theorem selectionInner_stats (a : List Int) (n : Int) (fuel : Nat) (t0 t : SelectionInner)
    (h : whileLoop (fun t : SelectionInner => decide (t.j < n)) (selectionInnerBody a) fuel t0 =
      some t) (h0 : t0.j ≤ n) :
    t.stats.Comparisons = t0.stats.Comparisons + (n - t0.j) ∧
      t.stats.Swaps = t0.stats.Swaps := by
  obtain ⟨⟨h1, h2, h3⟩, hc⟩ := whileLoop_invariant _ _
    (fun t : SelectionInner => t.j ≤ n ∧
      t.stats.Comparisons - t.j = t0.stats.Comparisons - t0.j ∧
      t.stats.Swaps = t0.stats.Swaps)
    (by
      intro s s' hP hc hb
      obtain ⟨p1, p2, p3⟩ := hP
      have hc' : s.j < n := by simpa using hc
      obtain ⟨e1, e2⟩ := selectionInnerBody_stats a s s' hb
      refine ⟨by omega, ?_, ?_⟩
      · rw [e1, e2]
        show s.stats.Comparisons + 1 - (s.j + 1) = t0.stats.Comparisons - t0.j
        omega
      · rw [e1]
        exact p3)
    fuel t0 t h ⟨h0, rfl, rfl⟩
  have hc' : ¬ t.j < n := by simpa using hc
  exact ⟨by omega, h3⟩

theorem selectionOuterBody_stats (n : Int) (s s' : SelectionOuter)
    (h : selectionOuterBody n s = some s') (hi : s.i + 1 ≤ n) :
    s'.i = s.i + 1 ∧ s'.stats.Comparisons = s.stats.Comparisons + (n - s.i - 1) ∧
      s.stats.Swaps ≤ s'.stats.Swaps ∧ s'.stats.Swaps ≤ s.stats.Swaps + 1 := by
  unfold selectionOuterBody at h
  obtain ⟨t, ht, h⟩ := Option.bind_eq_some.mp h
  · obtain ⟨c1, c2⟩ := selectionInner_stats s.arrCopy n _ _ t ht hi
    have c1' : t.stats.Comparisons = s.stats.Comparisons + (n - (s.i + 1)) := c1
    have c2' : t.stats.Swaps = s.stats.Swaps := c2
    split at h
    · obtain ⟨a, -, h⟩ := Option.bind_eq_some.mp h
      cases h
      refine ⟨rfl, ?_, ?_, ?_⟩
      · show t.stats.Comparisons = s.stats.Comparisons + (n - s.i - 1)
        omega
      · show s.stats.Swaps ≤ t.stats.Swaps + 1
        omega
      · show t.stats.Swaps + 1 ≤ s.stats.Swaps + 1
        omega
    · cases h
      refine ⟨rfl, ?_, ?_, ?_⟩
      · show t.stats.Comparisons = s.stats.Comparisons + (n - s.i - 1)
        omega
      · show s.stats.Swaps ≤ t.stats.Swaps
        omega
      · show t.stats.Swaps ≤ s.stats.Swaps + 1
        omega

/-- The statistics `SelectionSort` returns: `n (n - 1) / 2` comparisons, and at
most one swap for each of the first `n - 1` positions. -/
theorem selectionSort_stats (arr : List Int) (run : SortRun) (h : SelectionSort arr = some run) :
    2 * run.stats.Comparisons = (arr.length : Int) * ((arr.length : Int) - 1) ∧
      0 ≤ run.stats.Swaps ∧ (1 ≤ arr.length → run.stats.Swaps ≤ (arr.length : Int) - 1) := by
  unfold SelectionSort at h
  obtain ⟨s, hs, h⟩ := Option.bind_eq_some.mp h
  · cases h
    obtain ⟨⟨p1, p2, p3, p4, p5⟩, hc⟩ := whileLoop_invariant _ _
      (fun s : SelectionOuter => 0 ≤ s.i ∧ (s.i ≤ (arr.length : Int) - 1 ∨ s.i = 0) ∧
        2 * s.stats.Comparisons = s.i * (2 * (arr.length : Int) - s.i - 1) ∧
        0 ≤ s.stats.Swaps ∧ s.stats.Swaps ≤ s.i)
      (by
        intro s s' hP hc hb
        obtain ⟨p1, p2, p3, p4, p5⟩ := hP
        have hc' : s.i < (arr.length : Int) - 1 := by simpa using hc
        obtain ⟨e1, e2, e3, e4⟩ := selectionOuterBody_stats _ s s' hb (by omega)
        refine ⟨by omega, Or.inl (by omega), ?_, by omega, by omega⟩
        rw [e1, e2]
        have : 2 * (s.stats.Comparisons + ((arr.length : Int) - s.i - 1)) =
            s.i * (2 * (arr.length : Int) - s.i - 1) + 2 * ((arr.length : Int) - s.i - 1) := by
          rw [← p3]
          ring
        rw [this]
        ring)
      _ _ s hs ⟨le_refl _, Or.inr rfl, by simp, le_refl _, le_refl _⟩
    have hc' : ¬ s.i < (arr.length : Int) - 1 := by simpa using hc
    show 2 * s.stats.Comparisons = (arr.length : Int) * ((arr.length : Int) - 1) ∧
      0 ≤ s.stats.Swaps ∧ (1 ≤ arr.length → s.stats.Swaps ≤ (arr.length : Int) - 1)
    refine ⟨?_, p4, ?_⟩
    · rw [p3]
      rcases p2 with p2 | p2
      · have : s.i = (arr.length : Int) - 1 := by omega
        rw [this]
        ring
      · rw [p2]
        have : (arr.length : Int) = 0 ∨ (arr.length : Int) = 1 := by omega
        rcases this with h | h <;> rw [h] <;> norm_num
    · intro hn
      rcases p2 with p2 | p2
      · omega
      · omega

/-! ## The statistics of BubbleSort -/

theorem bubbleInnerBody_eq (t : BubbleInner) (h0 : 0 ≤ t.j)
    (h1 : t.j + 1 < t.arrCopy.length) :
    bubbleInnerBody t = some (if elem t.arrCopy t.j > elem t.arrCopy (t.j + 1) then
      { j := t.j + 1, arrCopy := swapElems t.arrCopy t.j (t.j + 1),
        stats := t.stats.incComparisons.incSwaps, swapped := true }
      else
      { j := t.j + 1, arrCopy := t.arrCopy, stats := t.stats.incComparisons,
        swapped := t.swapped }) := by
  simp only [bubbleInnerBody, sliceGet_of_lt t.arrCopy t.j h0 (by omega),
    sliceGet_of_lt t.arrCopy (t.j + 1) (by omega) h1, Option.some_bind]
  by_cases hgt : elem t.arrCopy t.j > elem t.arrCopy (t.j + 1)
  · rw [if_pos hgt, if_pos hgt,
      sliceSwap_of_lt t.arrCopy t.j (t.j + 1) h0 (by omega) (by omega) h1]
    rfl
  · rw [if_neg hgt, if_neg hgt]

/-- One pass of `BubbleSort` over the first `m + 1` elements counts `m`
comparisons, and one swap for every inversion it removes; `swapped` tells
whether it has counted a swap. -/
theorem bubbleInner_stats (a0 : List Int) (m : Int) (st : SortingStats) (fuel : Nat)
    (t : BubbleInner) (hm0 : 0 ≤ m) (hm1 : m < a0.length)
    (h : whileLoop (fun t : BubbleInner => decide (t.j < m)) bubbleInnerBody fuel
      { j := 0, arrCopy := a0, stats := st, swapped := false } = some t) :
    t.arrCopy.length = a0.length ∧
      t.stats.Comparisons = st.Comparisons + m ∧
      (inversions t.arrCopy : Int) + t.stats.Swaps = inversions a0 + st.Swaps ∧
      (t.swapped = false → t.stats.Swaps = st.Swaps) ∧
      (t.swapped = true → st.Swaps < t.stats.Swaps) := by
  obtain ⟨⟨p1, p2, p3, p4, p5, p6, p7⟩, hc⟩ := whileLoop_invariant _ _
    (fun t : BubbleInner => t.arrCopy.length = a0.length ∧ 0 ≤ t.j ∧ t.j ≤ m ∧
      t.stats.Comparisons = st.Comparisons + t.j ∧
      (inversions t.arrCopy : Int) + t.stats.Swaps = inversions a0 + st.Swaps ∧
      (t.swapped = false → t.stats.Swaps = st.Swaps) ∧
      (t.swapped = true → st.Swaps < t.stats.Swaps))
    (by
      intro s s' hP hc hb
      obtain ⟨p1, p2, p3, p4, p5, p6, p7⟩ := hP
      have hc' : s.j < m := by simpa using hc
      rw [bubbleInnerBody_eq s p2 (by omega)] at hb
      have hle : st.Swaps ≤ s.stats.Swaps := by
        cases hsw : s.swapped with
        | false => exact le_of_eq (p6 hsw).symm
        | true => exact le_of_lt (p7 hsw)
      by_cases hgt : elem s.arrCopy s.j > elem s.arrCopy (s.j + 1)
      · rw [if_pos hgt] at hb
        cases hb
        have hinv := inversions_swapElems s.arrCopy s.j p2 (by omega) hgt
        refine ⟨?_, ?_, ?_, ?_, ?_, ?_, ?_⟩
        · show (swapElems s.arrCopy s.j (s.j + 1)).length = a0.length
          rw [length_swapElems, p1]
        · show 0 ≤ s.j + 1
          omega
        · show s.j + 1 ≤ m
          omega
        · show s.stats.Comparisons + 1 = st.Comparisons + (s.j + 1)
          omega
        · show (inversions (swapElems s.arrCopy s.j (s.j + 1)) : Int) + (s.stats.Swaps + 1) =
            inversions a0 + st.Swaps
          omega
        · intro hf
          have hf' : true = false := hf
          exact absurd hf' (by decide)
        · intro _
          show st.Swaps < s.stats.Swaps + 1
          omega
      · rw [if_neg hgt] at hb
        cases hb
        refine ⟨p1, ?_, ?_, ?_, p5, p6, p7⟩
        · show 0 ≤ s.j + 1
          omega
        · show s.j + 1 ≤ m
          omega
        · show s.stats.Comparisons + 1 = st.Comparisons + (s.j + 1)
          omega)
    fuel _ t h
    ⟨rfl, le_refl _, hm0, by show st.Comparisons = st.Comparisons + 0; omega, rfl,
      fun _ => rfl, fun hf => by
        have hf' : false = true := hf
        exact absurd hf' (by decide)⟩
  have hc' : ¬ t.j < m := by simpa using hc
  have : t.j = m := by omega
  rw [this] at p4
  exact ⟨p1, p4, p5, p6, p7⟩

/-- The statistics `BubbleSort` returns: its swaps are the inversions it has
removed; on two elements or more it counts at least the `n - 1` comparisons of
the first pass, and exactly these and no swap when the input has no
inversion. -/
theorem bubbleSort_stats (arr : List Int) (run : SortRun) (h : BubbleSort arr = some run) :
    (inversions run.arrCopy : Int) + run.stats.Swaps = inversions arr ∧
      (2 ≤ arr.length → (arr.length : Int) - 1 ≤ run.stats.Comparisons) ∧
      (2 ≤ arr.length → inversions arr = 0 →
        run.stats.Comparisons = (arr.length : Int) - 1 ∧ run.stats.Swaps = 0) := by
  unfold BubbleSort at h
  obtain ⟨s, hs, h⟩ := Option.bind_eq_some.mp h
  cases h
  obtain ⟨⟨p1, p2, p3, p4⟩, hc⟩ := whileLoop_invariant _ _
    (fun s : BubbleOuter => s.arrCopy.length = arr.length ∧ 0 ≤ s.i ∧
      (inversions s.arrCopy : Int) + s.stats.Swaps = inversions arr ∧
      ((s.i = 0 ∧ s.broke = false ∧ s.stats.Comparisons = 0 ∧ s.stats.Swaps = 0) ∨
        ((arr.length : Int) - 1 ≤ s.stats.Comparisons ∧
          (inversions arr = 0 → s.broke = true ∧
            s.stats.Comparisons = (arr.length : Int) - 1 ∧ s.stats.Swaps = 0))))
    (by
      intro s s' hP hc hb
      obtain ⟨p1, p2, p3, p4⟩ := hP
      have hc' : s.broke = false ∧ s.i < (arr.length : Int) - 1 := by simpa using hc
      unfold bubbleOuterBody at hb
      obtain ⟨t, ht, hb⟩ := Option.bind_eq_some.mp hb
      obtain ⟨q1, q2, q3, q4, q5⟩ := bubbleInner_stats s.arrCopy
        ((arr.length : Int) - s.i - 1) s.stats _ t (by omega) (by omega) ht
      have hstats : s'.arrCopy = t.arrCopy ∧ s'.stats = t.stats ∧
          (t.swapped = false → s'.broke = true ∧ s'.i = s.i) ∧
          (t.swapped = true → s'.broke = false ∧ s'.i = s.i + 1) := by
        cases hsw : t.swapped with
        | false =>
          simp only [hsw, Bool.not_false, if_true] at hb
          cases hb
          exact ⟨rfl, rfl, fun _ => ⟨rfl, rfl⟩, fun hf => absurd hf (by decide)⟩
        | true =>
          simp only [hsw, Bool.not_true, Bool.false_eq_true, if_false] at hb
          cases hb
          exact ⟨rfl, rfl, fun hf => absurd hf (by decide), fun _ => ⟨rfl, rfl⟩⟩
      obtain ⟨e1, e2, e3, e4⟩ := hstats
      rw [e1, e2]
      refine ⟨by rw [q1, p1], ?_, by omega, Or.inr ?_⟩
      · cases hsw : t.swapped with
        | false =>
          rw [(e3 hsw).2]
          exact p2
        | true =>
          rw [(e4 hsw).2]
          omega
      · rcases p4 with ⟨a1, a2, a3, a4⟩ | ⟨a1, a2⟩
        · refine ⟨by omega, ?_⟩
          intro hz
          have hz' : (inversions arr : Int) = 0 := by omega
          have hsw : t.swapped = false := by
            cases hsw : t.swapped with
            | false => rfl
            | true =>
              have := q5 hsw
              omega
          exact ⟨(e3 hsw).1, by omega, by
            have := q4 hsw
            omega⟩
        · refine ⟨by omega, ?_⟩
          intro hz
          have := (a2 hz).1
          rw [hc'.1] at this
          exact absurd this (by decide))
    _ _ s hs ⟨rfl, le_refl _, by show (inversions arr : Int) + 0 = inversions arr; omega,
      Or.inl ⟨rfl, rfl, rfl, rfl⟩⟩
  have hc' : ¬ (s.broke = false ∧ s.i < (arr.length : Int) - 1) := by simpa using hc
  refine ⟨p3, ?_, ?_⟩
  · intro hn
    rcases p4 with ⟨a1, a2, -, -⟩ | ⟨a1, -⟩
    · exact absurd ⟨a2, by omega⟩ hc'
    · exact a1
  · intro hn hz
    rcases p4 with ⟨a1, a2, -, -⟩ | ⟨-, a2⟩
    · exact absurd ⟨a2, by omega⟩ hc'
    · exact (a2 hz).2

/-! ## The statistics of InsertionSort -/

theorem insertionInnerBody_eq (key : Int) (t : InsertionInner) (h0 : 0 ≤ t.j)
    (h1 : t.j + 1 < t.arrCopy.length) :
    insertionInnerBody key t = some (if elem t.arrCopy t.j > key then
      { j := t.j - 1, arrCopy := t.arrCopy.set (t.j + 1).toNat (elem t.arrCopy t.j),
        stats := t.stats.incComparisons.incSwaps, broke := false }
      else
      { j := t.j, arrCopy := t.arrCopy, stats := t.stats.incComparisons, broke := true }) := by
  simp only [insertionInnerBody, sliceGet_of_lt t.arrCopy t.j h0 (by omega), Option.some_bind]
  by_cases hgt : elem t.arrCopy t.j > key
  · rw [if_pos hgt, if_pos hgt, sliceSet_of_lt t.arrCopy (t.j + 1) _ (by omega) h1]
    rfl
  · rw [if_neg hgt, if_neg hgt]

/-- The inner loop of `InsertionSort`, while it inserts `key` at the index `i`,
counts at least one comparison, and one swap for every inversion that the
slice with `key` written into the gap loses. -/
theorem insertionInner_stats (a0 : List Int) (i key : Int) (st : SortingStats) (fuel : Nat)
    (t : InsertionInner) (hi0 : 1 ≤ i) (hi1 : i < a0.length)
    (h : whileLoop (fun t : InsertionInner => !t.broke && decide (t.j ≥ 0))
      (insertionInnerBody key) fuel
      { j := i - 1, arrCopy := a0, stats := st, broke := false } = some t) :
    t.arrCopy.length = a0.length ∧ -1 ≤ t.j ∧ t.j ≤ i - 1 ∧
      (inversions (t.arrCopy.set (t.j + 1).toNat key) : Int) + t.stats.Swaps =
        inversions (a0.set i.toNat key) + st.Swaps ∧
      st.Comparisons + 1 ≤ t.stats.Comparisons := by
  obtain ⟨⟨p1, p2, p3, p4, p5⟩, hc⟩ := whileLoop_invariant _ _
    (fun t : InsertionInner => t.arrCopy.length = a0.length ∧ -1 ≤ t.j ∧ t.j ≤ i - 1 ∧
      (inversions (t.arrCopy.set (t.j + 1).toNat key) : Int) + t.stats.Swaps =
        inversions (a0.set i.toNat key) + st.Swaps ∧
      ((t.j = i - 1 ∧ t.broke = false ∧ t.stats.Comparisons = st.Comparisons) ∨
        st.Comparisons + 1 ≤ t.stats.Comparisons))
    (by
      intro s s' hP hc hb
      obtain ⟨p1, p2, p3, p4, p5⟩ := hP
      have hc' : s.broke = false ∧ 0 ≤ s.j := by simpa using hc
      rw [insertionInnerBody_eq key s hc'.2 (by omega)] at hb
      have hC : st.Comparisons ≤ s.stats.Comparisons := by
        rcases p5 with ⟨-, -, h⟩ | h <;> omega
      by_cases hgt : elem s.arrCopy s.j > key
      · rw [if_pos hgt] at hb
        cases hb
        have hinv := inversions_shift s.arrCopy s.j key hc'.2 (by omega) hgt
        refine ⟨?_, ?_, ?_, ?_, Or.inr ?_⟩
        · show (s.arrCopy.set (s.j + 1).toNat (elem s.arrCopy s.j)).length = a0.length
          rw [List.length_set, p1]
        · show -1 ≤ s.j - 1
          omega
        · show s.j - 1 ≤ i - 1
          omega
        · show (inversions ((s.arrCopy.set (s.j + 1).toNat (elem s.arrCopy s.j)).set
              (s.j - 1 + 1).toNat key) : Int) + (s.stats.Swaps + 1) =
            inversions (a0.set i.toNat key) + st.Swaps
          have e : s.j - 1 + 1 = s.j := by omega
          rw [e]
          omega
        · show st.Comparisons + 1 ≤ s.stats.Comparisons + 1
          omega
      · rw [if_neg hgt] at hb
        cases hb
        refine ⟨p1, p2, p3, p4, Or.inr ?_⟩
        show st.Comparisons + 1 ≤ s.stats.Comparisons + 1
        omega)
    fuel _ t h
    ⟨rfl, by show -1 ≤ i - 1; omega, le_refl _, by
      show (inversions (a0.set (i - 1 + 1).toNat key) : Int) + st.Swaps =
        inversions (a0.set i.toNat key) + st.Swaps
      have e : i - 1 + 1 = i := by omega
      rw [e], Or.inl ⟨rfl, rfl, rfl⟩⟩
  have hc' : ¬ (t.broke = false ∧ 0 ≤ t.j) := by simpa using hc
  refine ⟨p1, p2, p3, p4, ?_⟩
  rcases p5 with ⟨a1, a2, -⟩ | a
  · exact absurd ⟨a2, by omega⟩ hc'
  · exact a

theorem insertionOuterBody_stats (n : Int) (s s' : InsertionOuter)
    (h : insertionOuterBody n s = some s') (hi0 : 1 ≤ s.i) (hi1 : s.i < s.arrCopy.length) :
    s'.i = s.i + 1 ∧ s'.arrCopy.length = s.arrCopy.length ∧
      (inversions s'.arrCopy : Int) + s'.stats.Swaps =
        inversions s.arrCopy + s.stats.Swaps ∧
      s.stats.Comparisons + 1 ≤ s'.stats.Comparisons := by
  unfold insertionOuterBody at h
  rw [sliceGet_of_lt s.arrCopy s.i (by omega) hi1, Option.some_bind] at h
  obtain ⟨t, ht, h⟩ := Option.bind_eq_some.mp h
  obtain ⟨q1, q2, q3, q4, q5⟩ := insertionInner_stats s.arrCopy s.i (elem s.arrCopy s.i)
    s.stats _ t hi0 hi1 ht
  rw [sliceSet_of_lt t.arrCopy (t.j + 1) _ (by omega) (by omega), Option.some_bind] at h
  cases h
  have hself : s.arrCopy.set s.i.toNat (elem s.arrCopy s.i) = s.arrCopy :=
    set_getD_self s.arrCopy s.i.toNat
  rw [hself] at q4
  refine ⟨rfl, ?_, q4, q5⟩
  show (t.arrCopy.set (t.j + 1).toNat (elem s.arrCopy s.i)).length = s.arrCopy.length
  rw [List.length_set, q1]

/-- The statistics `InsertionSort` returns: its swaps are the inversions it has
removed, and on two elements or more it counts at least one comparison. -/
theorem insertionSort_stats (arr : List Int) (run : SortRun)
    (h : InsertionSort arr = some run) :
    (inversions run.arrCopy : Int) + run.stats.Swaps = inversions arr ∧
      (2 ≤ arr.length → 1 ≤ run.stats.Comparisons) := by
  unfold InsertionSort at h
  obtain ⟨s, hs, h⟩ := Option.bind_eq_some.mp h
  cases h
  obtain ⟨⟨p1, p2, p3, p4, p5⟩, hc⟩ := whileLoop_invariant _ _
    (fun s : InsertionOuter => s.arrCopy.length = arr.length ∧ 1 ≤ s.i ∧
      (inversions s.arrCopy : Int) + s.stats.Swaps = inversions arr ∧
      0 ≤ s.stats.Comparisons ∧ (s.i = 1 ∨ 1 ≤ s.stats.Comparisons))
    (by
      intro s s' hP hc hb
      obtain ⟨p1, p2, p3, p4, p5⟩ := hP
      have hc' : s.i < (arr.length : Int) := by simpa using hc
      obtain ⟨e1, e2, e3, e4⟩ := insertionOuterBody_stats _ s s' hb p2 (by omega)
      exact ⟨by rw [e2, p1], by omega, by omega, by omega, Or.inr (by omega)⟩)
    _ _ s hs ⟨rfl, le_refl _, by show (inversions arr : Int) + 0 = inversions arr; omega,
      le_refl _, Or.inl rfl⟩
  have hc' : ¬ s.i < (arr.length : Int) := by simpa using hc
  refine ⟨p3, ?_⟩
  intro hn
  rcases p5 with a | a
  · omega
  · exact a

/-! ## The comparisons of MergeSort, QuickSort and HeapSort -/

theorem mergeMainBody_stats (L R : List Int) (s s' : MergeLoop)
    (h : mergeMainBody L R s = some s') : s'.stats = s.stats.incComparisons := by
  unfold mergeMainBody at h
  obtain ⟨x, -, h⟩ := Option.bind_eq_some.mp h
  obtain ⟨y, -, h⟩ := Option.bind_eq_some.mp h
  split at h
  · obtain ⟨a, -, h⟩ := Option.bind_eq_some.mp h
    cases h
    rfl
  · obtain ⟨a, -, h⟩ := Option.bind_eq_some.mp h
    cases h
    rfl

theorem mergeLeftBody_stats (L : List Int) (s s' : MergeLoop)
    (h : mergeLeftBody L s = some s') : s'.stats = s.stats := by
  unfold mergeLeftBody at h
  obtain ⟨x, -, h⟩ := Option.bind_eq_some.mp h
  obtain ⟨a, -, h⟩ := Option.bind_eq_some.mp h
  cases h
  rfl

theorem mergeRightBody_stats (R : List Int) (s s' : MergeLoop)
    (h : mergeRightBody R s = some s') : s'.stats = s.stats := by
  unfold mergeRightBody at h
  obtain ⟨x, -, h⟩ := Option.bind_eq_some.mp h
  obtain ⟨a, -, h⟩ := Option.bind_eq_some.mp h
  cases h
  rfl

/-- The comparisons `merge` counts: never fewer than before, and at least one
when both runs are not empty. -/
theorem merge_stats (arr : List Int) (left mid right : Int) (stats : SortingStats)
    (r : List Int × SortingStats) (h : merge arr left mid right stats = some r) :
    stats.Comparisons ≤ r.2.Comparisons ∧
      (left ≤ mid → mid < right → stats.Comparisons + 1 ≤ r.2.Comparisons) := by
  unfold merge at h
  obtain ⟨l0, -, h⟩ := Option.bind_eq_some.mp h
  obtain ⟨r0, -, h⟩ := Option.bind_eq_some.mp h
  obtain ⟨cl, -, h⟩ := Option.bind_eq_some.mp h
  obtain ⟨cr, -, h⟩ := Option.bind_eq_some.mp h
  obtain ⟨s1, h1, h⟩ := Option.bind_eq_some.mp h
  obtain ⟨s2, h2, h⟩ := Option.bind_eq_some.mp h
  obtain ⟨s3, h3, h⟩ := Option.bind_eq_some.mp h
  cases h
  obtain ⟨⟨p1, p2⟩, hc⟩ := whileLoop_invariant _ _
    (fun s : MergeLoop => stats.Comparisons ≤ s.stats.Comparisons ∧
      ((s.i = 0 ∧ s.j = 0) ∨ stats.Comparisons + 1 ≤ s.stats.Comparisons))
    (by
      intro s s' hP _ hb
      have e := mergeMainBody_stats _ _ s s' hb
      rw [e]
      have : stats.Comparisons + 1 ≤ s.stats.Comparisons + 1 := by omega
      exact ⟨by show stats.Comparisons ≤ s.stats.Comparisons + 1; omega, Or.inr this⟩)
    _ _ s1 h1 ⟨le_refl _, Or.inl ⟨rfl, rfl⟩⟩
  obtain ⟨q, -⟩ := whileLoop_invariant _ _ (fun s : MergeLoop => s.stats = s1.stats)
    (by
      intro s s' hP _ hb
      rw [mergeLeftBody_stats _ s s' hb]
      exact hP)
    _ _ s2 h2 rfl
  obtain ⟨q', -⟩ := whileLoop_invariant _ _ (fun s : MergeLoop => s.stats = s2.stats)
    (by
      intro s s' hP _ hb
      rw [mergeRightBody_stats _ s s' hb]
      exact hP)
    _ _ s3 h3 rfl
  have hq : s3.stats = s1.stats := q'.trans q
  show stats.Comparisons ≤ s3.stats.Comparisons ∧
    (left ≤ mid → mid < right → stats.Comparisons + 1 ≤ s3.stats.Comparisons)
  rw [hq]
  refine ⟨p1, ?_⟩
  intro hl hr
  have hc' : ¬ (s1.i < mid - left + 1 ∧ s1.j < right - mid) := by simpa using hc
  rcases p2 with ⟨a1, a2⟩ | a
  · exact absurd ⟨by omega, by omega⟩ hc'
  · exact a

theorem mergeSortHelper_stats (fuel : Nat) : ∀ (arr : List Int) (left right : Int)
    (stats : SortingStats) (r : List Int × SortingStats),
    mergeSortHelper fuel arr left right stats = some r →
    stats.Comparisons ≤ r.2.Comparisons ∧
      (left < right → stats.Comparisons + 1 ≤ r.2.Comparisons) := by
  induction fuel with
  | zero =>
    intro arr left right stats r h
    simp [mergeSortHelper] at h
  | succ fuel ih =>
    intro arr left right stats r h
    rw [mergeSortHelper] at h
    by_cases hlt : left < right
    · rw [if_pos hlt] at h
      obtain ⟨r1, h1, h⟩ := Option.bind_eq_some.mp h
      obtain ⟨r2, h2, h⟩ := Option.bind_eq_some.mp h
      have c1 := (ih _ _ _ _ _ h1).1
      have c2 := (ih _ _ _ _ _ h2).1
      have hd : (right - left).tdiv 2 = (right - left) / 2 :=
        Int.tdiv_eq_ediv (by omega) (by omega)
      have c3 := (merge_stats _ _ _ _ _ _ h).2 (by omega) (by omega)
      exact ⟨by omega, fun _ => by omega⟩
    · rw [if_neg hlt] at h
      cases h
      exact ⟨le_refl _, fun h => absurd h hlt⟩

/-- On two elements or more `MergeSort` counts at least one comparison. -/
theorem mergeSort_stats (arr : List Int) (run : SortRun) (h : MergeSort arr = some run)
    (hn : 2 ≤ arr.length) : 1 ≤ run.stats.Comparisons := by
  unfold MergeSort at h
  obtain ⟨r, hr, h⟩ := Option.bind_eq_some.mp h
  cases h
  have := (mergeSortHelper_stats _ _ _ _ _ _ hr).2 (by omega)
  show 1 ≤ r.2.Comparisons
  have h0 : (⟨0, 0⟩ : SortingStats).Comparisons = 0 := rfl
  omega

theorem partitionBody_stats (pivot : Int) (s s' : PartitionLoop)
    (h : partitionBody pivot s = some s') :
    s'.stats.Comparisons = s.stats.Comparisons + 1 ∧ s'.j = s.j + 1 := by
  unfold partitionBody at h
  obtain ⟨x, -, h⟩ := Option.bind_eq_some.mp h
  split at h
  · obtain ⟨a, -, h⟩ := Option.bind_eq_some.mp h
    cases h
    exact ⟨rfl, rfl⟩
  · cases h
    exact ⟨rfl, rfl⟩

/-- The comparisons `partition` counts: never fewer than before, and at least
one on a range of two elements or more. -/
theorem partition_stats (arr : List Int) (low high : Int) (stats : SortingStats)
    (p : List Int × SortingStats × Int) (h : partition arr low high stats = some p) :
    stats.Comparisons ≤ p.2.1.Comparisons ∧
      (low < high → stats.Comparisons + 1 ≤ p.2.1.Comparisons) := by
  unfold partition at h
  obtain ⟨pivot, -, h⟩ := Option.bind_eq_some.mp h
  obtain ⟨s, hs, h⟩ := Option.bind_eq_some.mp h
  obtain ⟨a, -, h⟩ := Option.bind_eq_some.mp h
  cases h
  obtain ⟨⟨p1, p2⟩, hc⟩ := whileLoop_invariant _ _
    (fun s : PartitionLoop => low ≤ s.j ∧
      s.stats.Comparisons = stats.Comparisons + (s.j - low))
    (by
      intro s s' hP _ hb
      obtain ⟨e1, e2⟩ := partitionBody_stats pivot s s' hb
      obtain ⟨p1, p2⟩ := hP
      exact ⟨by omega, by omega⟩)
    _ _ s hs ⟨le_refl _, by show stats.Comparisons = stats.Comparisons + (low - low); omega⟩
  have hc' : ¬ s.j < high := by simpa using hc
  show stats.Comparisons ≤ s.stats.Comparisons ∧
    (low < high → stats.Comparisons + 1 ≤ s.stats.Comparisons)
  exact ⟨by omega, fun _ => by omega⟩

theorem quickSortHelper_stats (fuel : Nat) : ∀ (arr : List Int) (low high : Int)
    (stats : SortingStats) (r : List Int × SortingStats),
    quickSortHelper fuel arr low high stats = some r →
    stats.Comparisons ≤ r.2.Comparisons ∧
      (low < high → stats.Comparisons + 1 ≤ r.2.Comparisons) := by
  induction fuel with
  | zero =>
    intro arr low high stats r h
    simp [quickSortHelper] at h
  | succ fuel ih =>
    intro arr low high stats r h
    rw [quickSortHelper] at h
    by_cases hlt : low < high
    · rw [if_pos hlt] at h
      obtain ⟨p, hp, h⟩ := Option.bind_eq_some.mp h
      obtain ⟨r1, h1, h⟩ := Option.bind_eq_some.mp h
      have c0 := (partition_stats _ _ _ _ _ hp).2 hlt
      have c1 := (ih _ _ _ _ _ h1).1
      have c2 := (ih _ _ _ _ _ h).1
      exact ⟨by omega, fun _ => by omega⟩
    · rw [if_neg hlt] at h
      cases h
      exact ⟨le_refl _, fun h => absurd h hlt⟩

/-- On two elements or more `QuickSort` counts at least one comparison. -/
theorem quickSort_stats (arr : List Int) (run : SortRun) (h : QuickSort arr = some run)
    (hn : 2 ≤ arr.length) : 1 ≤ run.stats.Comparisons := by
  unfold QuickSort at h
  obtain ⟨r, hr, h⟩ := Option.bind_eq_some.mp h
  cases h
  have := (quickSortHelper_stats _ _ _ _ _ _ hr).2 (by omega)
  show 1 ≤ r.2.Comparisons
  have h0 : (⟨0, 0⟩ : SortingStats).Comparisons = 0 := rfl
  omega

theorem heapifyLargest_stats (arr : List Int) (n i : Int) (stats : SortingStats)
    (r : Int × SortingStats) (h : heapifyLargest arr n i stats = some r) :
    stats.Comparisons ≤ r.2.Comparisons ∧
      (2 * i + 1 < n → stats.Comparisons + 1 ≤ r.2.Comparisons) := by
  unfold heapifyLargest at h
  obtain ⟨r1, h1, h⟩ := Option.bind_eq_some.mp h
  have c1 : stats.Comparisons ≤ r1.2.Comparisons ∧
      (2 * i + 1 < n → stats.Comparisons + 1 ≤ r1.2.Comparisons) := by
    by_cases hl : 2 * i + 1 < n
    · rw [if_pos hl] at h1
      obtain ⟨x, -, h1⟩ := Option.bind_eq_some.mp h1
      obtain ⟨y, -, h1⟩ := Option.bind_eq_some.mp h1
      cases h1
      exact ⟨by show stats.Comparisons ≤ stats.Comparisons + 1; omega, fun _ => le_refl _⟩
    · rw [if_neg hl] at h1
      cases h1
      exact ⟨le_refl _, fun h => absurd h hl⟩
  have c2 : r1.2.Comparisons ≤ r.2.Comparisons := by
    by_cases hr : 2 * i + 2 < n
    · rw [if_pos hr] at h
      obtain ⟨x, -, h⟩ := Option.bind_eq_some.mp h
      obtain ⟨y, -, h⟩ := Option.bind_eq_some.mp h
      cases h
      show r1.2.Comparisons ≤ r1.2.Comparisons + 1
      omega
    · rw [if_neg hr] at h
      cases h
      exact le_refl _
  exact ⟨by omega, fun hl => by have := c1.2 hl; omega⟩

theorem heapify_stats (fuel : Nat) : ∀ (arr : List Int) (n i : Int) (stats : SortingStats)
    (r : List Int × SortingStats), heapify fuel arr n i stats = some r →
    stats.Comparisons ≤ r.2.Comparisons ∧
      (2 * i + 1 < n → stats.Comparisons + 1 ≤ r.2.Comparisons) := by
  induction fuel with
  | zero =>
    intro arr n i stats r h
    simp [heapify] at h
  | succ fuel ih =>
    intro arr n i stats r h
    rw [heapify] at h
    obtain ⟨l, hl, h⟩ := Option.bind_eq_some.mp h
    obtain ⟨c1, c2⟩ := heapifyLargest_stats arr n i stats l hl
    by_cases hne : l.1 ≠ i
    · rw [if_pos hne] at h
      obtain ⟨a, -, h⟩ := Option.bind_eq_some.mp h
      have c3 := (ih _ _ _ _ _ h).1
      have c3' : l.2.Comparisons ≤ r.2.Comparisons := c3
      exact ⟨by omega, fun h => by have := c2 h; omega⟩
    · rw [if_neg hne] at h
      cases h
      exact ⟨c1, c2⟩

/-- On two elements or more `HeapSort` counts at least one comparison. -/
theorem heapSort_stats (arr : List Int) (run : SortRun) (h : HeapSort arr = some run)
    (hn : 2 ≤ arr.length) : 1 ≤ run.stats.Comparisons := by
  unfold HeapSort at h
  obtain ⟨s1, hs1, h⟩ := Option.bind_eq_some.mp h
  obtain ⟨s2, hs2, h⟩ := Option.bind_eq_some.mp h
  cases h
  have hd : (arr.length : Int).tdiv 2 = (arr.length : Int) / 2 :=
    Int.tdiv_eq_ediv (by omega) (by omega)
  obtain ⟨⟨p1, p2⟩, hc⟩ := whileLoop_invariant _ _
    (fun s : HeapLoop => 0 ≤ s.stats.Comparisons ∧
      (s.i = (arr.length : Int).tdiv 2 - 1 ∨ 1 ≤ s.stats.Comparisons))
    (by
      intro s s' hP hc hb
      obtain ⟨p1, p2⟩ := hP
      have hc' : 0 ≤ s.i := by simpa using hc
      unfold heapBuildBody at hb
      obtain ⟨r, hr, hb⟩ := Option.bind_eq_some.mp hb
      cases hb
      obtain ⟨c1, c2⟩ := heapify_stats _ _ _ _ _ _ hr
      refine ⟨by show 0 ≤ r.2.Comparisons; omega, Or.inr ?_⟩
      show 1 ≤ r.2.Comparisons
      rcases p2 with a | a
      · have := c2 (by omega)
        omega
      · omega)
    _ _ s1 hs1 ⟨le_refl _, Or.inl rfl⟩
  have hc' : ¬ 0 ≤ s1.i := by simpa using hc
  have h1 : 1 ≤ s1.stats.Comparisons := by
    rcases p2 with a | a
    · omega
    · exact a
  obtain ⟨q, -⟩ := whileLoop_invariant _ _
    (fun s : HeapLoop => 1 ≤ s.stats.Comparisons)
    (by
      intro s s' hP _ hb
      unfold heapExtractBody at hb
      obtain ⟨a, -, hb⟩ := Option.bind_eq_some.mp hb
      obtain ⟨r, hr, hb⟩ := Option.bind_eq_some.mp hb
      cases hb
      have c := (heapify_stats _ _ _ _ _ _ hr).1
      have c' : s.stats.Comparisons ≤ r.2.Comparisons := c
      show 1 ≤ r.2.Comparisons
      omega)
    _ _ s2 hs2 h1
  exact q

/-! ## No sort operation fails -/

/-- The run of `heapify` at a node inside the heap returns, whatever the slice
holds. -/
theorem heapify_returns (fuel : Nat) : ∀ (arr : List Int) (n i : Int) (stats : SortingStats),
    0 ≤ i → i < n → n ≤ arr.length → (n - i).toNat ≤ fuel →
    ∃ r, heapify fuel arr n i stats = some r ∧ r.1.length = arr.length := by
  induction fuel with
  | zero =>
    intro arr n i stats h0 h1 h2 hf
    omega
  | succ fuel ih =>
    intro arr n i stats h0 h1 h2 hf
    obtain ⟨r, er, hr, -⟩ := heapifyLargest_spec arr n i stats h0 h1 h2
    by_cases hne : r.1 ≠ i
    · have hlt : i < r.1 ∧ r.1 < n := by omega
      have hswap := sliceSwap_of_lt arr i r.1 (by omega) (by omega) (by omega) (by omega)
      obtain ⟨r2, e2, len2⟩ := ih (swapElems arr i r.1) n r.1 r.2.incSwaps (by omega)
        (by omega) (by rw [length_swapElems]; exact h2) (by omega)
      refine ⟨r2, ?_, ?_⟩
      · simp only [heapify, er, Option.some_bind, if_pos hne, hswap]
        exact e2
      · rw [len2, length_swapElems]
    · refine ⟨(arr, r.2), ?_, rfl⟩
      simp only [heapify, er, Option.some_bind, if_neg hne]

/-- More fuel does not change what `heapify` returns. -/
theorem heapify_fuel_mono (fuel : Nat) : ∀ (arr : List Int) (n i : Int) (stats : SortingStats)
    (r : List Int × SortingStats), heapify fuel arr n i stats = some r →
    heapify (fuel + 1) arr n i stats = some r := by
  induction fuel with
  | zero =>
    intro arr n i stats r h
    simp [heapify] at h
  | succ fuel ih =>
    intro arr n i stats r h
    rw [heapify] at h ⊢
    cases hl : heapifyLargest arr n i stats with
    | none => simp [hl] at h
    | some l =>
      simp only [hl, Option.some_bind] at h ⊢
      by_cases hne : l.1 ≠ i
      · rw [if_pos hne] at h ⊢
        cases hs : sliceSwap arr i l.1 with
        | none => simp [hs] at h
        | some a =>
          simp only [hs, Option.some_bind] at h ⊢
          exact ih _ _ _ _ _ h
      · rw [if_neg hne] at h ⊢
        exact h

/-- More fuel does not change what `mergeSortHelper` returns. -/
theorem mergeSortHelper_fuel_mono (fuel : Nat) : ∀ (arr : List Int) (left right : Int)
    (stats : SortingStats) (r : List Int × SortingStats),
    mergeSortHelper fuel arr left right stats = some r →
    mergeSortHelper (fuel + 1) arr left right stats = some r := by
  induction fuel with
  | zero =>
    intro arr left right stats r h
    simp [mergeSortHelper] at h
  | succ fuel ih =>
    intro arr left right stats r h
    rw [mergeSortHelper] at h ⊢
    by_cases hlt : left < right
    · rw [if_pos hlt] at h ⊢
      simp only [] at h ⊢
      cases h1 : mergeSortHelper fuel arr left (left + (right - left).tdiv 2) stats with
      | none => rw [h1] at h; simp at h
      | some r1 =>
        rw [h1, Option.some_bind] at h
        rw [ih _ _ _ _ _ h1, Option.some_bind]
        cases h2 : mergeSortHelper fuel r1.1 (left + (right - left).tdiv 2 + 1) right r1.2 with
        | none => rw [h2] at h; simp at h
        | some r2 =>
          rw [h2, Option.some_bind] at h
          rw [ih _ _ _ _ _ h2, Option.some_bind]
          exact h
    · rw [if_neg hlt] at h ⊢
      exact h

/-- More fuel does not change what `quickSortHelper` returns. -/
theorem quickSortHelper_fuel_mono (fuel : Nat) : ∀ (arr : List Int) (low high : Int)
    (stats : SortingStats) (r : List Int × SortingStats),
    quickSortHelper fuel arr low high stats = some r →
    quickSortHelper (fuel + 1) arr low high stats = some r := by
  induction fuel with
  | zero =>
    intro arr low high stats r h
    simp [quickSortHelper] at h
  | succ fuel ih =>
    intro arr low high stats r h
    rw [quickSortHelper] at h ⊢
    by_cases hlt : low < high
    · rw [if_pos hlt] at h ⊢
      cases hp : partition arr low high stats with
      | none => simp [hp] at h
      | some p =>
        simp only [hp, Option.some_bind] at h ⊢
        cases h1 : quickSortHelper fuel p.1 low (p.2.2 - 1) p.2.1 with
        | none => simp [h1] at h
        | some r1 =>
          simp only [h1, Option.some_bind] at h
          rw [ih _ _ _ _ _ h1, Option.some_bind]
          exact ih _ _ _ _ _ h
    · rw [if_neg hlt] at h ⊢
      exact h

/-- C21: for every slice each of the six sort functions returns, so that none
of its index accesses is out of range and none of its loops or recursions runs
on; `merge`, `partition` and `heapify` return on every range inside the slice;
the recursions of `mergeSortHelper`, `quickSortHelper` and `heapify` end within
a depth of the size of their range, and a larger bound does not change what
they return. -/
theorem sorts_never_fail (arr : List Int) :
    (∀ sort ∈ sortFunctions, ∃ run, sort arr = some run) ∧
    (∀ (left mid right : Int) (stats : SortingStats),
      0 ≤ left → left ≤ mid + 1 → mid ≤ right → right < arr.length →
      ∃ r, merge arr left mid right stats = some r) ∧
    (∀ (low high : Int) (stats : SortingStats),
      0 ≤ low → low ≤ high → high < arr.length →
      ∃ r, partition arr low high stats = some r) ∧
    (∀ (n i : Int) (stats : SortingStats) (fuel : Nat),
      0 ≤ i → i < n → n ≤ arr.length → (n - i).toNat ≤ fuel →
      ∃ r, heapify fuel arr n i stats = some r ∧
        ∀ more, heapify (fuel + more) arr n i stats = some r) ∧
    (∀ (left right : Int) (stats : SortingStats) (fuel : Nat),
      0 ≤ left → left ≤ right + 1 → right < arr.length →
      (right - left + 1).toNat ≤ fuel → 1 ≤ fuel →
      ∃ r, mergeSortHelper fuel arr left right stats = some r ∧
        ∀ more, mergeSortHelper (fuel + more) arr left right stats = some r) ∧
    (∀ (low high : Int) (stats : SortingStats) (fuel : Nat),
      0 ≤ low → low ≤ high + 1 → high < arr.length →
      (high - low + 1).toNat ≤ fuel → 1 ≤ fuel →
      ∃ r, quickSortHelper fuel arr low high stats = some r ∧
        ∀ more, quickSortHelper (fuel + more) arr low high stats = some r) := by
  refine ⟨?_, ?_, ?_, ?_, ?_, ?_⟩
  · intro sort hs
    obtain ⟨run, e, -⟩ := sortFunctions_spec sort hs arr
    exact ⟨run, e⟩
  · intro left mid right stats h0 h1 h2 h3
    obtain ⟨r, e, -⟩ := merge_spec arr left mid right stats h0 h1 h2 h3
    exact ⟨r, e⟩
  · intro low high stats h0 h1 h2
    obtain ⟨r, e, -⟩ := partition_spec arr low high stats h0 h1 h2
    exact ⟨r, e⟩
  · intro n i stats fuel h0 h1 h2 hf
    obtain ⟨r, e, -⟩ := heapify_returns fuel arr n i stats h0 h1 h2 hf
    refine ⟨r, e, ?_⟩
    intro more
    induction more with
    | zero => exact e
    | succ m ih => exact heapify_fuel_mono _ _ _ _ _ _ ih
  · intro left right stats fuel h0 h1 h2 hf1 hf2
    obtain ⟨r, e, -⟩ := mergeSortHelper_spec fuel arr left right stats h0 h1 h2 hf1 hf2
    refine ⟨r, e, ?_⟩
    intro more
    induction more with
    | zero => exact e
    | succ m ih => exact mergeSortHelper_fuel_mono _ _ _ _ _ _ ih
  · intro low high stats fuel h0 h1 h2 hf1 hf2
    obtain ⟨r, e, -⟩ := quickSortHelper_spec fuel arr low high stats h0 h1 h2 hf1 hf2
    refine ⟨r, e, ?_⟩
    intro more
    induction more with
    | zero => exact e
    | succ m ih => exact quickSortHelper_fuel_mono _ _ _ _ _ _ ih

/-- C21, on the slice 3, 1, 2: `merge`, `partition`, `heapify` and the two
recursive helpers return on the whole slice. -/
theorem sorts_never_fail_witness :
    (∃ r, merge [3, 1, 2] 0 0 2 ⟨0, 0⟩ = some r) ∧
    (∃ r, partition [3, 1, 2] 0 2 ⟨0, 0⟩ = some r) ∧
    (∃ r, heapify 3 [3, 1, 2] 3 0 ⟨0, 0⟩ = some r ∧
      ∀ more, heapify (3 + more) [3, 1, 2] 3 0 ⟨0, 0⟩ = some r) ∧
    (∃ r, mergeSortHelper 3 [3, 1, 2] 0 2 ⟨0, 0⟩ = some r ∧
      ∀ more, mergeSortHelper (3 + more) [3, 1, 2] 0 2 ⟨0, 0⟩ = some r) ∧
    (∃ r, quickSortHelper 3 [3, 1, 2] 0 2 ⟨0, 0⟩ = some r ∧
      ∀ more, quickSortHelper (3 + more) [3, 1, 2] 0 2 ⟨0, 0⟩ = some r) :=
  ⟨(sorts_never_fail [3, 1, 2]).2.1 0 0 2 ⟨0, 0⟩ (by decide) (by decide) (by decide)
      (by decide),
    (sorts_never_fail [3, 1, 2]).2.2.1 0 2 ⟨0, 0⟩ (by decide) (by decide) (by decide),
    (sorts_never_fail [3, 1, 2]).2.2.2.1 3 0 ⟨0, 0⟩ 3 (by decide) (by decide) (by decide)
      (by decide),
    (sorts_never_fail [3, 1, 2]).2.2.2.2.1 0 2 ⟨0, 0⟩ 3 (by decide) (by decide) (by decide)
      (by decide) (by decide),
    (sorts_never_fail [3, 1, 2]).2.2.2.2.2 0 2 ⟨0, 0⟩ 3 (by decide) (by decide) (by decide)
      (by decide) (by decide)⟩

/-! ## Inputs of length 0 or 1 -/

/-- C22: on a slice of length 0 or 1 each of the six sort functions returns with
no comparison and no swap counted and with its working copy equal to the
input. -/
theorem sorts_noop_on_short (arr : List Int) (h : arr.length ≤ 1) :
    ∀ sort ∈ sortFunctions,
      sort arr = some { arr := arr, arrCopy := arr, stats := ⟨0, 0⟩ } := by
  intro sort hs
  simp only [sortFunctions, List.mem_cons, List.mem_singleton, List.not_mem_nil, or_false] at hs
  match arr, h with
  | [], _ => rcases hs with h | h | h | h | h | h <;> rw [h] <;> rfl
  | [x], _ =>
    rcases hs with h | h | h | h | h | h <;> rw [h]
    · rfl
    · rfl
    · rfl
    · rfl
    · rfl
    · have hd : (1 : Int).tdiv 2 = 0 := by decide
      simp [HeapSort, whileLoop, hd]

/-- C22, on the slice holding 7 alone. -/
theorem sorts_noop_on_short_witness :
    [7].length ≤ 1 ∧ ∀ sort ∈ sortFunctions,
      sort [7] = some { arr := [7], arrCopy := [7], stats := ⟨0, 0⟩ } :=
  ⟨by decide, sorts_noop_on_short [7] (by decide)⟩

/-! ## The postcondition of partition -/

/-- C26: for `0 <= low <= high < len(arr)`, hence for `low < high`, `partition`
returns an index `p` with `low <= p <= high`; afterwards `arr[p]` is the old
`arr[high]`, every element of `arr[low..p-1]` is smaller than it, every element
of `arr[p+1..high]` is not smaller than it, `arr[low..high]` is a permutation of
what it was, and the length and the elements outside `[low, high]` are as they
were. -/
theorem partition_postcondition (arr : List Int) (low high : Int) (stats : SortingStats)
    (h0 : 0 ≤ low) (h1 : low ≤ high) (h2 : high < arr.length) :
    ∃ r, partition arr low high stats = some r ∧
      low ≤ r.2.2 ∧ r.2.2 ≤ high ∧ elem r.1 r.2.2 = elem arr high ∧
      (∀ q : Int, low ≤ q → q < r.2.2 → elem r.1 q < elem arr high) ∧
      (∀ q : Int, r.2.2 < q → q ≤ high → elem arr high ≤ elem r.1 q) ∧
      (segment r.1 low (high + 1)).Perm (segment arr low (high + 1)) ∧
      r.1.length = arr.length ∧
      (∀ q : Int, 0 ≤ q → (q < low ∨ high < q) → elem r.1 q = elem arr q) := by
  obtain ⟨r, e, len, perm, p0, p1, piv, lo, hi, out⟩ := partition_spec arr low high stats h0 h1 h2
  refine ⟨r, e, p0, p1, piv, lo, hi, ?_, len, out⟩
  exact segment_perm arr r.1 low (high + 1) h0 (by omega) (by omega) len perm
    (fun p _ _ hp2 => out p (by omega) (by omega))

/-- C26, on the slice 9, 4, 7, 1, 5, 8 with the range from 1 to 4 and the pivot
5. -/
theorem partition_postcondition_witness :
    ∃ r, partition [9, 4, 7, 1, 5, 8] 1 4 ⟨0, 0⟩ = some r ∧
      1 ≤ r.2.2 ∧ r.2.2 ≤ 4 ∧ elem r.1 r.2.2 = elem [9, 4, 7, 1, 5, 8] 4 ∧
      (∀ q : Int, 1 ≤ q → q < r.2.2 → elem r.1 q < elem [9, 4, 7, 1, 5, 8] 4) ∧
      (∀ q : Int, r.2.2 < q → q ≤ 4 → elem [9, 4, 7, 1, 5, 8] 4 ≤ elem r.1 q) ∧
      (segment r.1 1 (4 + 1)).Perm (segment [9, 4, 7, 1, 5, 8] 1 (4 + 1)) ∧
      r.1.length = [9, 4, 7, 1, 5, 8].length ∧
      (∀ q : Int, 0 ≤ q → (q < 1 ∨ 4 < q) → elem r.1 q = elem [9, 4, 7, 1, 5, 8] q) :=
  partition_postcondition [9, 4, 7, 1, 5, 8] 1 4 ⟨0, 0⟩ (by decide) (by decide) (by decide)

/-! ## Delete and the in-order traversal -/

/-- C27: on an ordered tree `Delete v` returns, and `InorderTraversal`
afterwards is `InorderTraversal` before with the occurrence of `v` removed;
`v` occurs at most once, no other value is removed, and the traversal is the
same as before when `v` is absent. -/
theorem inorder_after_delete (bst : BinarySearchTree) (v : Int) (ho : Ordered bst.Root) :
    ∃ bst', bst.Delete v = some bst' ∧
      bst'.InorderTraversal = bst.InorderTraversal.erase v ∧
      bst.InorderTraversal.count v ≤ 1 ∧
      (∀ y, y ∈ bst'.InorderTraversal ↔ y ∈ bst.InorderTraversal ∧ y ≠ v) ∧
      (v ∉ bst.InorderTraversal → bst'.InorderTraversal = bst.InorderTraversal) := by
  obtain ⟨t', ht'⟩ := deleteNode_isSome bst.Root v
  have hin : ∀ t : TreeNode, inorderHelper t [] = values t := fun t => by
    rw [inorderHelper_eq, List.nil_append]
  have hs := sorted_values_of_ordered bst.Root ho
  have hs' := sorted_values_of_ordered t' (ordered_deleteNode bst.Root v t' ho ht')
  have hnd : (values bst.Root).Nodup := hs.nodup
  have hmem := fun y => mem_values_deleteNode bst.Root v t' y ho ht'
  have heq : values t' = (values bst.Root).erase v := by
    apply List.eq_of_perm_of_sorted _ hs' (hs.sublist (List.erase_sublist v _))
    rw [List.perm_ext_iff_of_nodup hs'.nodup (hnd.erase v)]
    intro y
    rw [hmem y, hnd.mem_erase_iff]
    exact And.comm
  refine ⟨{ Root := t' }, ?_, ?_, ?_, ?_, ?_⟩
  · simp [BinarySearchTree.Delete, ht']
  · simp only [BinarySearchTree.InorderTraversal, hin]
    exact heq
  · simp only [BinarySearchTree.InorderTraversal, hin]
    exact List.nodup_iff_count_le_one.mp hnd v
  · intro y
    simp only [BinarySearchTree.InorderTraversal, hin]
    exact hmem y
  · intro hv
    simp only [BinarySearchTree.InorderTraversal, hin] at hv ⊢
    rw [heq, List.erase_of_not_mem hv]

/-- C27, at the test tree: deleting 30, a node with two children, leaves 20, 40,
50, 60, 70, 80. -/
theorem inorder_after_delete_witness :
    Ordered sampleTree.Root ∧ sampleTree.InorderTraversal = [20, 30, 40, 50, 60, 70, 80] ∧
    ∃ bst', sampleTree.Delete 30 = some bst' ∧
      bst'.InorderTraversal = sampleTree.InorderTraversal.erase 30 ∧
      sampleTree.InorderTraversal.count 30 ≤ 1 ∧
      (∀ y, y ∈ bst'.InorderTraversal ↔ y ∈ sampleTree.InorderTraversal ∧ y ≠ 30) ∧
      (30 ∉ sampleTree.InorderTraversal →
        bst'.InorderTraversal = sampleTree.InorderTraversal) :=
  ⟨by decide, by decide, inorder_after_delete sampleTree 30 (by decide)⟩

/-! ## The claims about the statistics -/

theorem countP_eq_sum (p : Int → Bool) (xs : List Int) :
    xs.countP p = ∑ j in Finset.range xs.length, if p (xs.getD j 0) = true then 1 else 0 := by
  induction xs with
  | nil => simp
  | cons x xs ih =>
    rw [List.countP_cons, List.length_cons, Finset.sum_range_succ', ih]
    simp

/-- The inversions of a slice are the pairs of indices `i < j` with
`arr[i] > arr[j]`, counted one by one. -/
theorem inversions_eq_sum (l : List Int) :
    inversions l = ∑ i in Finset.range l.length, ∑ j in Finset.range l.length,
      if i < j ∧ l.getD j 0 < l.getD i 0 then 1 else 0 := by
  induction l with
  | nil => simp [inversions]
  | cons x xs ih =>
    rw [inversions, List.length_cons, Finset.sum_range_succ', ih, countP_eq_sum]
    have h1 : ∀ i, (∑ j in Finset.range (xs.length + 1),
        if i + 1 < j ∧ (x :: xs).getD j 0 < (x :: xs).getD (i + 1) 0 then 1 else 0) =
        ∑ j in Finset.range xs.length, if i < j ∧ xs.getD j 0 < xs.getD i 0 then 1 else 0 := by
      intro i
      rw [Finset.sum_range_succ']
      simp
    have h2 : (∑ j in Finset.range (xs.length + 1),
        if 0 < j ∧ (x :: xs).getD j 0 < (x :: xs).getD 0 0 then 1 else 0) =
        ∑ j in Finset.range xs.length, if decide (x > xs.getD j 0) = true then 1 else 0 := by
      rw [Finset.sum_range_succ']
      simp
    rw [h2, Finset.sum_congr rfl (fun i _ => h1 i)]
    omega

/-- C23: on a slice of two elements or more `CompareAlgorithms` returns a map
whose keys are exactly the six algorithm names, each key holding the statistics
that the sort function of that name returns on the slice, and every entry counts
at least one comparison. -/
theorem compareAlgorithms_comparisons (arr : List Int) (hn : 2 ≤ arr.length) :
    ∃ res b s i m q h, CompareAlgorithms arr = some res ∧
      BubbleSort arr = some b ∧ SelectionSort arr = some s ∧ InsertionSort arr = some i ∧
      MergeSort arr = some m ∧ QuickSort arr = some q ∧ HeapSort arr = some h ∧
      res.results = [("Bubble Sort", b.stats), ("Selection Sort", s.stats),
        ("Insertion Sort", i.stats), ("Merge Sort", m.stats),
        ("Quick Sort", q.stats), ("Heap Sort", h.stats)] ∧
      res.results.map Prod.fst = ["Bubble Sort", "Selection Sort", "Insertion Sort",
        "Merge Sort", "Quick Sort", "Heap Sort"] ∧
      (res.results.map Prod.fst).Nodup ∧
      ∀ e ∈ res.results, 1 ≤ e.2.Comparisons := by
  obtain ⟨b, eb, hb, -⟩ := bubbleSort_spec arr
  obtain ⟨s, es, hs, -⟩ := selectionSort_spec arr
  obtain ⟨i, ei, hi, -⟩ := insertionSort_spec arr
  obtain ⟨m, em, hm, -⟩ := mergeSort_spec arr
  obtain ⟨q, eq, hq, -⟩ := quickSort_spec arr
  obtain ⟨h, eh, hh, -⟩ := heapSort_spec arr
  have cb := (bubbleSort_stats arr b eb).2.1 hn
  have cs := (selectionSort_stats arr s es).1
  have ci := (insertionSort_stats arr i ei).2 hn
  have cm := mergeSort_stats arr m em hn
  have cq := quickSort_stats arr q eq hn
  have ch := heapSort_stats arr h eh hn
  have cs' : 1 ≤ s.stats.Comparisons := by
    have h2 : (2 : Int) ≤ arr.length := by omega
    nlinarith
  refine ⟨⟨arr, [("Bubble Sort", b.stats), ("Selection Sort", s.stats),
      ("Insertion Sort", i.stats), ("Merge Sort", m.stats),
      ("Quick Sort", q.stats), ("Heap Sort", h.stats)]⟩,
    b, s, i, m, q, h, ?_, eb, es, ei, em, eq, eh, rfl, rfl, by simp, ?_⟩
  · simp only [CompareAlgorithms, eb, Option.some_bind, hb, es, hs, ei, hi, em, hm, eq, hq, eh,
      hh]
  · intro e he
    simp only [List.mem_cons, List.mem_singleton, List.not_mem_nil, or_false] at he
    rcases he with he | he | he | he | he | he <;> rw [he]
    · show 1 ≤ b.stats.Comparisons
      omega
    · exact cs'
    · exact ci
    · exact cm
    · exact cq
    · exact ch

/-- C23, on the slice 2, 1. -/
theorem compareAlgorithms_comparisons_witness :
    2 ≤ [(2 : Int), 1].length ∧
    ∃ res b s i m q h, CompareAlgorithms [2, 1] = some res ∧
      BubbleSort [2, 1] = some b ∧ SelectionSort [2, 1] = some s ∧
      InsertionSort [2, 1] = some i ∧ MergeSort [2, 1] = some m ∧
      QuickSort [2, 1] = some q ∧ HeapSort [2, 1] = some h ∧
      res.results = [("Bubble Sort", b.stats), ("Selection Sort", s.stats),
        ("Insertion Sort", i.stats), ("Merge Sort", m.stats),
        ("Quick Sort", q.stats), ("Heap Sort", h.stats)] ∧
      res.results.map Prod.fst = ["Bubble Sort", "Selection Sort", "Insertion Sort",
        "Merge Sort", "Quick Sort", "Heap Sort"] ∧
      (res.results.map Prod.fst).Nodup ∧
      ∀ e ∈ res.results, 1 ≤ e.2.Comparisons :=
  ⟨by decide, compareAlgorithms_comparisons [2, 1] (by decide)⟩

/-- C24: on a slice of two elements or more that is already in non-decreasing
order `BubbleSort` stops after a single pass: it returns with exactly `n - 1`
comparisons and no swap, its working copy being the input. -/
theorem bubbleSort_sorted_single_pass (arr : List Int) (hs : List.Sorted (· ≤ ·) arr)
    (hn : 2 ≤ arr.length) :
    ∃ run, BubbleSort arr = some run ∧
      run.stats.Comparisons = (arr.length : Int) - 1 ∧ run.stats.Swaps = 0 ∧
      run.arrCopy = arr := by
  obtain ⟨run, e, -, perm, sorted⟩ := bubbleSort_spec arr
  obtain ⟨c, s⟩ := (bubbleSort_stats arr run e).2.2 hn (inversions_eq_zero_of_sorted arr hs)
  exact ⟨run, e, c, s, List.eq_of_perm_of_sorted perm sorted hs⟩

/-- C24, on the sorted slice of the test: four comparisons and no swap. -/
theorem bubbleSort_sorted_single_pass_witness :
    List.Sorted (· ≤ ·) [(1 : Int), 2, 3, 4, 5] ∧ 2 ≤ [(1 : Int), 2, 3, 4, 5].length ∧
    ∃ run, BubbleSort [1, 2, 3, 4, 5] = some run ∧
      run.stats.Comparisons = ([(1 : Int), 2, 3, 4, 5].length : Int) - 1 ∧
      run.stats.Swaps = 0 ∧ run.arrCopy = [1, 2, 3, 4, 5] :=
  ⟨by decide, by decide, bubbleSort_sorted_single_pass [1, 2, 3, 4, 5] (by decide) (by decide)⟩

/-- C25: on a slice of `n >= 1` elements `SelectionSort` returns with at most
`n - 1` swaps, one at most for each position it fills, and with exactly
`n (n - 1) / 2` comparisons, whatever the order of the input. -/
theorem selectionSort_counts (arr : List Int) (hn : 1 ≤ arr.length) :
    ∃ run, SelectionSort arr = some run ∧
      0 ≤ run.stats.Swaps ∧ run.stats.Swaps ≤ (arr.length : Int) - 1 ∧
      run.stats.Comparisons = (arr.length : Int) * ((arr.length : Int) - 1) / 2 := by
  obtain ⟨run, e, -⟩ := selectionSort_spec arr
  obtain ⟨c, s0, s1⟩ := selectionSort_stats arr run e
  refine ⟨run, e, s0, s1 hn, ?_⟩
  generalize (arr.length : Int) * ((arr.length : Int) - 1) = N at c ⊢
  omega

/-- C25, on the slice 3, 1, 2: three comparisons and at most two swaps. -/
theorem selectionSort_counts_witness :
    1 ≤ [(3 : Int), 1, 2].length ∧
    ∃ run, SelectionSort [3, 1, 2] = some run ∧
      0 ≤ run.stats.Swaps ∧ run.stats.Swaps ≤ ([(3 : Int), 1, 2].length : Int) - 1 ∧
      run.stats.Comparisons =
        ([(3 : Int), 1, 2].length : Int) * (([(3 : Int), 1, 2].length : Int) - 1) / 2 :=
  ⟨by decide, selectionSort_counts [3, 1, 2] (by decide)⟩

/-- C28: for every slice `BubbleSort` and `InsertionSort` return the same
number of swaps, which is the number of inversions of the slice, that is of the
pairs of indices `i < j` with `arr[i] > arr[j]`. -/
theorem swaps_eq_inversions (arr : List Int) :
    (∃ b i, BubbleSort arr = some b ∧ InsertionSort arr = some i ∧
      b.stats.Swaps = i.stats.Swaps ∧ b.stats.Swaps = inversions arr ∧
      i.stats.Swaps = inversions arr) ∧
    inversions arr = ∑ i in Finset.range arr.length, ∑ j in Finset.range arr.length,
      if i < j ∧ arr.getD j 0 < arr.getD i 0 then 1 else 0 := by
  refine ⟨?_, inversions_eq_sum arr⟩
  obtain ⟨b, eb, -, -, sb⟩ := bubbleSort_spec arr
  obtain ⟨i, ei, -, -, si⟩ := insertionSort_spec arr
  have hb := (bubbleSort_stats arr b eb).1
  have hi := (insertionSort_stats arr i ei).1
  rw [inversions_eq_zero_of_sorted _ sb] at hb
  rw [inversions_eq_zero_of_sorted _ si] at hi
  refine ⟨b, i, eb, ei, ?_, ?_, ?_⟩
  · omega
  · omega
  · omega

end PrepGuides
